import Mathlib

/-!
Verification development for the hash-table core of the repository:
the trie-structured hash table (src/infinite_hash_table.py, class
InfiniteHashTable) and the two-level probed table
(src/double_key_table.py, class DoubleKeyTable).

Keys are modelled as lists of characters (Python strings), values are a
type parameter. Machine-level behaviour is irrelevant here: the Python
code only uses arbitrary-precision integers, list indexing and object
references, all of which embed directly.

Recursions of the source that are not structurally bounded (the
recursive setitem of the trie, the rehash chain and the while loops of
the two-level delete) are embedded with an explicit fuel argument; a
result of none means the source recursion has not terminated within
that bound, and divergence is expressed as: for every fuel the result
is none.
-/

namespace Spec2Proof

/-- Keys of both tables: a Python string as its list of characters. -/
abbrev Key := List Char

/-! ## Part 1: the Trie Hash Table (src/infinite_hash_table.py) -/

namespace InfiniteHashTable

mutual
/-- One cell of the 27-slot table of a trie node: empty (None in the
source), a direct (key, value) tuple, or a nested InfiniteHashTable. -/
inductive Slot (V : Type) where
  | empty : Slot V
  | entry : Key → V → Slot V
  | nested : Node V → Slot V
/-- A trie node: its level and its table of slots (ArrayR(27)). -/
inductive Node (V : Type) where
  | mk : Nat → List (Slot V) → Node V
end

/-- TABLE_SIZE = 27 from the source. -/
def TABLE_SIZE : Nat := 27

/-- Level of a node. -/
def Node.level {V : Type} : Node V → Nat
  | .mk lvl _ => lvl

/-- Table of a node. -/
def Node.table {V : Type} : Node V → List (Slot V)
  | .mk _ tbl => tbl

/-- hash of the source: ord(key[level]) mod (TABLE_SIZE-1) while the key
has a character at this level, else the terminal index TABLE_SIZE-1. -/
def hash (k : Key) (lvl : Nat) : Nat :=
  if h : lvl < k.length then (k.get ⟨lvl, h⟩).toNat % (TABLE_SIZE - 1)
  else TABLE_SIZE - 1

/-- The table of a freshly constructed node: 27 empty cells. -/
def emptyTable (V : Type) : List (Slot V) := List.replicate TABLE_SIZE .empty

/-- InfiniteHashTable(level = lvl): an empty node at the given level. -/
def emptyNode {V : Type} (lvl : Nat) : Node V := .mk lvl (emptyTable V)

/-- Reading self.table[p]; out-of-range reads never happen (hash < 27). -/
def slotAt {V : Type} (tbl : List (Slot V)) (p : Nat) : Slot V :=
  tbl.getD p .empty

mutual
/-- getitem of the source: dispatch on the slot the hash resolves;
none is the raised KeyError. -/
def getitem {V : Type} : Node V → Key → Option V
  | .mk lvl tbl, k => getitemTable tbl (hash k lvl) k
/-- Walk of the table list to the resolved position. -/
def getitemTable {V : Type} : List (Slot V) → Nat → Key → Option V
  | [], _, _ => none
  | s :: _, 0, k => getitemSlot s k
  | _ :: r, p + 1, k => getitemTable r p k
/-- The three cases of the source: a matching tuple returns its value, a
mismatching tuple falls through to the final raise, a nested node
recurses. -/
def getitemSlot {V : Type} : Slot V → Key → Option V
  | .empty, _ => none
  | .entry k0 v, k => if k0 = k then some v else none
  | .nested t, k => getitem t k
end

/-- setitem of the source, with fuel bounding the recursion depth.
The source has no return after the same-key overwrite
(self.table[position] = (key, value)), so in the tuple branch the pair
now found in the slot — (key, value) when the keys matched, the old pair
otherwise — is always repacked into a fresh nested node at level+1, and
the trailing isinstance check then inserts (key, value) into that node. -/
def setitem {V : Type} : Nat → Node V → Key → V → Option (Node V)
  | 0, _, _, _ => none
  | fuel + 1, .mk lvl tbl, k, v =>
    let p := hash k lvl
    match slotAt tbl p with
    | .empty => some (.mk lvl (tbl.set p (.entry k v)))
    | .entry k0 v0 =>
      let old := if k0 = k then (k, v) else (k0, v0)
      match setitem fuel (emptyNode (lvl + 1)) old.1 old.2 with
      | none => none
      | some child =>
        match setitem fuel child k v with
        | none => none
        | some child2 => some (.mk lvl (tbl.set p (.nested child2)))
    | .nested t =>
      match setitem fuel t k v with
      | none => none
      | some t2 => some (.mk lvl (tbl.set p (.nested t2)))

/-- Truthiness of a slot: everything but None. -/
def Slot.isLive {V : Type} : Slot V → Bool
  | .empty => false
  | .entry _ _ => true
  | .nested _ => true

/-- The remaining list the source collects: all non-None cells in order. -/
def liveSlots {V : Type} (tbl : List (Slot V)) : List (Slot V) :=
  tbl.filter Slot.isLive

/-- len(remaining) == 1 and isinstance(remaining[0], tuple). -/
def oneEntryOnly {V : Type} : List (Slot V) → Bool
  | [Slot.entry _ _] => true
  | _ => false

mutual
/-- delitem of the source. The Bool is its internal True/False return
value (True propagates the collapse to the caller); error () is the
raised KeyError. A mismatching tuple at the resolved slot is NOT an
error in the source: it falls through to the remaining count and
returns False with the table unchanged. -/
def delitem {V : Type} : Node V → Key → Except Unit (Node V × Bool)
  | .mk lvl tbl, k =>
    match delitemTable tbl (hash k lvl) k with
    | .error e => .error e
    | .ok (tbl2, chk) =>
      .ok (.mk lvl tbl2, chk && oneEntryOnly (liveSlots tbl2))
/-- Walk of the table list to the resolved position. -/
def delitemTable {V : Type} :
    List (Slot V) → Nat → Key → Except Unit (List (Slot V) × Bool)
  | [], _, _ => .error ()
  | s :: r, 0, k =>
    match delitemSlot s k with
    | .error e => .error e
    | .ok (s2, chk) => .ok (s2 :: r, chk)
  | s :: r, p + 1, k =>
    match delitemTable r p k with
    | .error e => .error e
    | .ok (r2, chk) => .ok (s :: r2, chk)
/-- Per-slot behaviour. The Bool tells the node level whether the source
goes on to inspect this node's remaining entries (the tuple branch always
does; the nested branch does only after a pull-up). -/
def delitemSlot {V : Type} : Slot V → Key → Except Unit (Slot V × Bool)
  | .empty, _ => .error ()
  | .entry k0 v0, k =>
    .ok (if k0 = k then Slot.empty else .entry k0 v0, true)
  | .nested t, k =>
    match delitem t k with
    | .error e => .error e
    | .ok (t2, internal) =>
      if internal then
        match liveSlots t2.table with
        | [s1] => .ok (s1, true)
        | _ => .ok (.nested t2, false)
      else .ok (.nested t2, false)
end

mutual
/-- len of the source: direct entries count 1, nested nodes count
recursively. -/
def length {V : Type} : Node V → Nat
  | .mk _ tbl => lengthTable tbl
/-- Sum over the cells of a table. -/
def lengthTable {V : Type} : List (Slot V) → Nat
  | [] => 0
  | s :: r => lengthSlot s + lengthTable r
/-- Contribution of one cell. -/
def lengthSlot {V : Type} : Slot V → Nat
  | .empty => 0
  | .entry _ _ => 1
  | .nested t => length t
end

mutual
/-- get_location of the source: the per-level slot indices down to the
key; none is the raised KeyError. -/
def get_location {V : Type} : Node V → Key → Option (List Nat)
  | .mk lvl tbl, k =>
    match locTable tbl (hash k lvl) k with
    | none => none
    | some rest => some (hash k lvl :: rest)
/-- Walk of the table list to the resolved position. -/
def locTable {V : Type} : List (Slot V) → Nat → Key → Option (List Nat)
  | [], _, _ => none
  | s :: _, 0, k => locSlot s k
  | _ :: r, p + 1, k => locTable r p k
/-- Tail of the location below the current node. -/
def locSlot {V : Type} : Slot V → Key → Option (List Nat)
  | .empty, _ => none
  | .entry k0 _, k => if k0 = k then some [] else none
  | .nested t, k => get_location t k
end

mutual
/-- All keys stored below a node, in slot order (the collection pass of
sort_keys, without the sort). A verification-side observer. -/
def keyList {V : Type} : Node V → List Key
  | .mk _ tbl => keyListTable tbl
/-- Keys of a table. -/
def keyListTable {V : Type} : List (Slot V) → List Key
  | [] => []
  | s :: r => keyListSlot s ++ keyListTable r
/-- Keys of a cell. -/
def keyListSlot {V : Type} : Slot V → List Key
  | .empty => []
  | .entry k _ => [k]
  | .nested t => keyList t
end

end InfiniteHashTable

end Spec2Proof

/-! ## Basic facts about slot access in the trie -/


/-! ## Basic facts about slot access in the trie -/

namespace Spec2Proof

namespace InfiniteHashTable


theorem hash_lt {k : Key} {lvl : Nat} : hash k lvl < TABLE_SIZE := by
  unfold hash TABLE_SIZE
  split
  · exact Nat.lt_succ_of_lt (Nat.mod_lt _ (by norm_num))
  · norm_num

theorem slotAt_replicate {V : Type} (n p : Nat) :
    slotAt (List.replicate n (Slot.empty : Slot V)) p = Slot.empty := by
  unfold slotAt
  rcases Nat.lt_or_ge p n with h | h
  · simp [List.getD_eq_getElem?_getD, List.getElem?_replicate, h]
  · have h2 : (List.replicate n (Slot.empty : Slot V))[p]? = none := by
      apply List.getElem?_eq_none
      simpa using h
    simp [List.getD_eq_getElem?_getD, h2]

theorem slotAt_emptyTable {V : Type} (p : Nat) :
    slotAt (emptyTable V) p = Slot.empty := slotAt_replicate _ p

theorem slotAt_set_self {V : Type} {tbl : List (Slot V)} {p : Nat}
    (h : p < tbl.length) (s : Slot V) : slotAt (tbl.set p s) p = s := by
  unfold slotAt
  simp [List.getD_eq_getElem?_getD, List.getElem?_set_self, h]

theorem length_emptyTable (V : Type) : (emptyTable V).length = TABLE_SIZE := by
  simp [emptyTable]

theorem setitem_same_key_none {V : Type} (v : V) (k : Key) :
    ∀ (fuel lvl : Nat) (tbl : List (Slot V)) (w : V),
      slotAt tbl (hash k lvl) = .entry k w →
      setitem fuel (.mk lvl tbl) k v = none := by
  intro fuel
  induction fuel with
  | zero => intro lvl tbl w _; rfl
  | succ g ih =>
    intro lvl tbl w hslot
    show (match slotAt tbl (hash k lvl) with
      | .empty => some (Node.mk lvl (tbl.set (hash k lvl) (.entry k v)))
      | .entry k0 v0 =>
        let old := if k0 = k then (k, v) else (k0, v0)
        match setitem g (emptyNode (lvl + 1)) old.1 old.2 with
        | none => none
        | some child =>
          match setitem g child k v with
          | none => none
          | some child2 => some (Node.mk lvl (tbl.set (hash k lvl) (.nested child2)))
      | .nested t =>
        match setitem g t k v with
        | none => none
        | some t2 => some (Node.mk lvl (tbl.set (hash k lvl) (.nested t2)))) = none
    rw [hslot]
    dsimp only
    rw [if_pos (rfl : k = k)]
    dsimp only
    cases g with
    | zero => rfl
    | succ g2 =>
      have h1 : setitem (g2 + 1) (emptyNode (lvl + 1) : Node V) k v =
          some (.mk (lvl + 1) ((emptyTable V).set (hash k (lvl + 1)) (.entry k v))) := by
        show (match slotAt (emptyTable V) (hash k (lvl+1)) with
          | .empty => some (Node.mk (lvl+1) ((emptyTable V).set (hash k (lvl+1)) (.entry k v)))
          | .entry k0 v0 =>
            let old := if k0 = k then (k, v) else (k0, v0)
            match setitem g2 (emptyNode (lvl + 2)) old.1 old.2 with
            | none => none
            | some child =>
              match setitem g2 child k v with
              | none => none
              | some child2 => some (Node.mk (lvl+1) ((emptyTable V).set (hash k (lvl+1)) (.nested child2)))
          | .nested t =>
            match setitem g2 t k v with
            | none => none
            | some t2 => some (Node.mk (lvl+1) ((emptyTable V).set (hash k (lvl+1)) (.nested t2)))) =
          some (.mk (lvl + 1) ((emptyTable V).set (hash k (lvl + 1)) (.entry k v)))
        rw [slotAt_emptyTable]
      rw [h1]
      dsimp only
      have h2 := ih (lvl + 1) ((emptyTable V).set (hash k (lvl + 1)) (.entry k v)) v
        (by
          rw [slotAt_set_self]
          rw [length_emptyTable]
          exact hash_lt)
      rw [h2]

/-! ## Claims C1, C2, C7: behaviour of the trie at concrete inputs -/

/-- Divergence of the trie setitem at a given state, key and value: no
fuel bound suffices for the source recursion to return. -/
def SetitemDiverges {V : Type} (t : Node V) (k : Key) (v : V) : Prop :=
  ∀ fuel, setitem fuel t k v = none

/-- C1: the spec says Set on a key already present as a direct entry in
the slot its hash resolves overwrites the value in place, creates no
nested node, and a subsequent Get returns the new value.  The code
instead never returns from such a Set: after inserting key "a" once
(first conjunct, slot 19 of the root), setting "a" again exhausts every
fuel bound — the missing return after the overwrite repacks the entry
into ever deeper nested nodes. -/
theorem C1_set_existing_key_never_returns :
    setitem 2 (emptyNode 0 : Node Nat) (['a']) 1 =
      some (.mk 0 ((emptyTable Nat).set 19 (.entry (['a']) 1))) ∧
    ∀ fuel,
      setitem fuel (.mk 0 ((emptyTable Nat).set 19 (.entry (['a']) 1)))
        (['a']) 2 = none := by
  constructor
  · rfl
  · intro fuel
    exact setitem_same_key_none 2 (['a']) fuel 0 _ 1 (by rfl)

/-- C2 counterexample: not every operation terminates.  The state
reached by inserting key "b" once (first conjunct) makes the next Set of
"b" diverge: for every fuel bound the recursion is cut off. -/
theorem C2_counterexample_set_diverges :
    setitem 2 (emptyNode 0 : Node Nat) (['b']) 5 =
      some (.mk 0 ((emptyTable Nat).set 20 (.entry (['b']) 5))) ∧
    SetitemDiverges (.mk 0 ((emptyTable Nat).set 20 (.entry (['b']) 5)))
      (['b']) 6 :=
  ⟨rfl, fun fuel => setitem_same_key_none 6 (['b']) fuel 0 _ 5 (by rfl)⟩

/-- C2 (amended): the trie Set operation fails to terminate on every
state in which the slot resolved for the key holds a direct entry for
that same key — in particular updating any existing key never runs to
completion, at any table state and level. -/
theorem C2_amended_set_diverges_on_direct_hit {V : Type} (lvl : Nat)
    (tbl : List (Slot V)) (k : Key) (v w : V)
    (h : slotAt tbl (hash k lvl) = .entry k w) :
    SetitemDiverges (.mk lvl tbl) k v :=
  fun fuel => setitem_same_key_none v k fuel lvl tbl w h

/-- Witness for the amended C2 at a concrete state: the root table
holding ("b", 5) at slot 20 satisfies the hypothesis, and Set of "b"
diverges there. -/
theorem C2_amended_set_diverges_witness :
    SetitemDiverges (.mk 0 ((emptyTable Nat).set 20 (.entry (['b']) 5)))
      (['b']) 7 :=
  C2_amended_set_diverges_on_direct_hit 0 _ (['b']) 7 5 (by rfl)

/-- C7: deleting key "car" from a trie holding only "cat" resolves to
the slot of "cat" (both hash to 21 at level 0), where the source
neither deletes nor raises: getitem confirms "car" is absent, yet
delitem returns with the structure unchanged (its internal flag True)
instead of raising KeyError as its own docstring and the spec demand. -/
theorem C7_delete_at_mismatching_slot_does_not_raise :
    getitem (.mk 0 ((emptyTable Nat).set 21 (.entry (['c','a','t']) 1)))
      (['c','a','r']) = none ∧
    delitem (.mk 0 ((emptyTable Nat).set 21 (.entry (['c','a','t']) 1)))
      (['c','a','r']) =
      .ok (.mk 0 ((emptyTable Nat).set 21 (.entry (['c','a','t']) 1)), true) :=
  ⟨rfl, rfl⟩

end InfiniteHashTable

end Spec2Proof


/-! ## Part 2: the Two-Level Probed Table (src/double_key_table.py) -/

namespace Spec2Proof

/-- The two error kinds of the probed tables: the raised KeyError and
the raised FullError. -/
inductive PErr where
  | keyError : PErr
  | fullError : PErr
deriving DecidableEq

/-- The polynomial rolling hash shared by hash1 and hash2 of the
source: value starts at 0, the multiplier at 31415, and per character
value becomes (ord(c) + a * value) mod cap while the multiplier becomes
a * 31 mod (cap - 1) (HASH_BASE = 31).  cap is the capacity of the
table the key is hashed into. -/
def hashStep (cap : Nat) (p : Nat × Nat) (c : Char) : Nat × Nat :=
  ((c.toNat + p.2 * p.1) % cap, p.2 * 31 % (cap - 1))

/-- Fold of hashStep over the characters of the key. -/
def hashPoly (cap : Nat) (k : Key) : Nat :=
  (k.foldl (hashStep cap) (0, 31415)).1

/-- Modelled from the spec: the Probed Pair Table primitive
(data_structures.hash_table.LinearProbeTable) is not part of the
repository sources; section 6 of the spec describes it as a single-key
open-addressing table built from a capacity sequence, exposing get,
set, delete, contains, len, iteration and a capacity property, raising
the full condition when an insertion finds no free slot within one full
circuit and the not-found condition on missed lookups and deletes, with
its hash bound to its own current capacity.  The state: the size
sequence, the index of the current size, the slot array (None or a
(key, value) pair) and the number of stored pairs. -/
structure LinearProbeTable (V : Type) where
  sizes : List Nat
  sizeIndex : Nat
  array : List (Option (Key × V))
  count : Nat

/-- Modelled from the spec: a fresh table takes the first capacity of
its size sequence. -/
def mkLPT (V : Type) (sizes : List Nat) : LinearProbeTable V :=
  { sizes := sizes
    sizeIndex := 0
    array := List.replicate (sizes.getD 0 0) none
    count := 0 }

/-- Modelled from the spec: linear probe from the hash of the key,
circularly, one full circuit at most; an empty slot answers an insert
and fails a lookup, a matching key answers both. -/
def probeAux {V : Type} (a : List (Option (Key × V))) (k : Key)
    (ins : Bool) : Nat → Nat → Except PErr Nat
  | 0, _ => .error (if ins then .fullError else .keyError)
  | steps + 1, pos =>
    match a.getD pos none with
    | none => if ins then .ok pos else .error .keyError
    | some (k0, _) =>
      if k0 = k then .ok pos
      else probeAux a k ins steps ((pos + 1) % a.length)

/-- Modelled from the spec: the probe entry point; the hash is the
rolling hash bound to this instance itself (the source rebinds
sub_table.hash to hash2(key2, sub_table), and hash2 reads the target
sub-table capacity). -/
def LinearProbeTable.probe {V : Type} (t : LinearProbeTable V) (k : Key)
    (ins : Bool) : Except PErr Nat :=
  probeAux t.array k ins t.array.length (hashPoly t.array.length k)

/-- Modelled from the spec: getitem of the primitive. -/
def LinearProbeTable.get {V : Type} (t : LinearProbeTable V) (k : Key) :
    Except PErr V :=
  match t.probe k false with
  | .error e => .error e
  | .ok p =>
    match t.array.getD p none with
    | some pr => .ok pr.2
    | none => .error .keyError

/-- Modelled from the spec: raw reinsertion during a resize - probe for
an empty slot and write, counting the pair.  A full error cannot occur
on the fresh larger array; it is absorbed as a no-op to keep the model
total. -/
def LinearProbeTable.insRaw {V : Type} (t : LinearProbeTable V)
    (pr : Key × V) : LinearProbeTable V :=
  match t.probe pr.1 true with
  | .ok pos =>
    { t with
      array := t.array.set pos (some pr)
      count := t.count + 1 }
  | .error _ => t

/-- The live pairs of a slot array, in slot order. -/
def livePairs {V : Type} (a : List (Option (Key × V))) : List (Key × V) :=
  a.filterMap id

/-- Modelled from the spec: growth moves to the next capacity of the
size sequence (a no-op once the sequence is exhausted) and reinserts
every stored pair into the fresh array. -/
def LinearProbeTable.resize {V : Type} (t : LinearProbeTable V) :
    LinearProbeTable V :=
  if t.sizeIndex + 1 ≥ t.sizes.length then t
  else
    (livePairs t.array).foldl LinearProbeTable.insRaw
      { t with
        sizeIndex := t.sizeIndex + 1
        array := List.replicate (t.sizes.getD (t.sizeIndex + 1) 0) none
        count := 0 }

/-- Modelled from the spec: setitem of the primitive - overwrite in
place on a matching key, else write into the empty slot the probe
found, and grow past half occupancy (the load threshold the spec fixes
for these tables). -/
def LinearProbeTable.set {V : Type} (t : LinearProbeTable V) (k : Key)
    (v : V) : Except PErr (LinearProbeTable V) :=
  match t.probe k true with
  | .error e => .error e
  | .ok p =>
    match t.array.getD p none with
    | some _ => .ok { t with array := t.array.set p (some (k, v)) }
    | none =>
      let t2 : LinearProbeTable V :=
        { t with
          array := t.array.set p (some (k, v))
          count := t.count + 1 }
      if t2.count > t2.array.length / 2 then .ok t2.resize else .ok t2

/-- Modelled from the spec: delitem of the primitive - remove the pair
the probe found; the back-shift repair of the two-level structure is
performed by DoubleKeyTable.delitem itself (spec section 4.1 step 3),
not by the primitive. -/
def LinearProbeTable.del {V : Type} (t : LinearProbeTable V) (k : Key) :
    Except PErr (LinearProbeTable V) :=
  match t.probe k false with
  | .error e => .error e
  | .ok p =>
    .ok
      { t with
        array := t.array.set p none
        count := t.count - 1 }

/-- Modelled from the spec: contains of the primitive (the source uses
key2 in sub_table). -/
def LinearProbeTable.containsKey {V : Type} (t : LinearProbeTable V)
    (k : Key) : Bool :=
  match t.probe k false with
  | .ok _ => true
  | .error _ => false

/-- Modelled from the spec: values() of the primitive, in slot order. -/
def LinearProbeTable.valuesList {V : Type} (t : LinearProbeTable V) :
    List V :=
  t.array.filterMap (fun o => o.map Prod.snd)

/-- Modelled from the spec: keys() of the primitive, in slot order. -/
def LinearProbeTable.keysList {V : Type} (t : LinearProbeTable V) :
    List Key :=
  t.array.filterMap (fun o => o.map Prod.fst)

/-- Modelled from the spec: emptiness (Python truthiness via len). -/
def LinearProbeTable.isEmptyT {V : Type} (t : LinearProbeTable V) :
    Bool := t.count == 0

/-- TABLE_SIZES of the source. -/
def TABLE_SIZES_default : List Nat :=
  [5, 13, 29, 53, 97, 193, 389, 769, 1543, 3079, 6151, 12289, 24593,
   49157, 98317, 196613, 393241, 786433, 1572869]

/-- The two-level table of the source: the (possibly caller-overridden)
top size sequence, the internal size sequence for sub-tables, the index
of the current top size, the top array of (key1, sub-table) slots, and
count. -/
structure DoubleKeyTable (V : Type) where
  tableSizes : List Nat
  internalSizes : List Nat
  sizeIndex : Nat
  array : List (Option (Key × LinearProbeTable V))
  count : Nat

/-- init of the source: sizes overrides TABLE_SIZES when given;
internal_sizes keeps its given value, else falls back to the (possibly
overridden) TABLE_SIZES; the array takes the first top size. -/
def DoubleKeyTable.init (V : Type) (sizes internal : Option (List Nat)) :
    DoubleKeyTable V :=
  let ts := sizes.getD TABLE_SIZES_default
  { tableSizes := ts
    internalSizes := internal.getD ts
    sizeIndex := 0
    array := List.replicate (ts.getD 0 0) none
    count := 0 }

/-- table_size of the source: the length of the top array. -/
def DoubleKeyTable.table_size {V : Type} (st : DoubleKeyTable V) : Nat :=
  st.array.length

/-- hash1 of the source: the rolling hash at the current top capacity. -/
def DoubleKeyTable.hash1 {V : Type} (st : DoubleKeyTable V) (k : Key) :
    Nat :=
  hashPoly st.array.length k

/-- linear_probe of the source, walking at most table_size steps from
hash1(key1).  On insert an empty slot receives a fresh sub-table (with
the internal sizes, hash bound to itself) and count grows; the result
carries the possibly changed state, the top position and the sub-table
probe position for key2. -/
def probeTop {V : Type} (k1 k2 : Key) (ins : Bool) :
    Nat → DoubleKeyTable V → Nat → Except PErr (DoubleKeyTable V × Nat × Nat)
  | 0, _, _ => .error .fullError
  | steps + 1, st, pos =>
    match st.array.getD pos none with
    | none =>
      if ins then
        let sub := mkLPT V st.internalSizes
        match sub.probe k2 true with
        | .error e => .error e
        | .ok p2 =>
          .ok
            ({ st with
               array := st.array.set pos (some (k1, sub))
               count := st.count + 1 }, pos, p2)
      else .error .keyError
    | some (k0, sub) =>
      if k0 = k1 then
        match sub.probe k2 ins with
        | .error e => .error e
        | .ok p2 => .ok (st, pos, p2)
      else probeTop k1 k2 ins steps st ((pos + 1) % st.array.length)

/-- Entry point of linear_probe. -/
def DoubleKeyTable.linear_probe {V : Type} (st : DoubleKeyTable V)
    (k1 k2 : Key) (ins : Bool) :
    Except PErr (DoubleKeyTable V × Nat × Nat) :=
  probeTop k1 k2 ins st.array.length st (st.hash1 k1)

/-- getitem of the source: probe without insert, then getitem of the
sub-table at the found position. -/
def DoubleKeyTable.getPair {V : Type} (st : DoubleKeyTable V)
    (k1 k2 : Key) : Except PErr V :=
  match st.linear_probe k1 k2 false with
  | .error e => .error e
  | .ok (st1, pos, _) =>
    match st1.array.getD pos none with
    | some (_, sub) => sub.get k2
    | none => .error .keyError

/-- The triples the rehash of the source re-reads from the old top
array: for each occupied top slot, each stored (key2, value) of its
sub-table array, as (key1, key2, value). -/
def oldPairs {V : Type} (a : List (Option (Key × LinearProbeTable V))) :
    List (Key × Key × V) :=
  a.foldr
    (fun o acc =>
      match o with
      | none => acc
      | some (k1, sub) =>
        sub.array.filterMap (fun q => q.map (fun pr => (k1, pr.1, pr.2)))
          ++ acc)
    []

mutual
/-- setitem of the source, with fuel bounding the rehash chain: probe
with insert, write the value through the sub-table at the found top
slot, then rehash when count exceeds half the top capacity.  The rehash
branch is the body of DoubleKeyTable.rehash below, inlined so that the
mutual recursion is structural on fuel. -/
def setPair {V : Type} :
    Nat → DoubleKeyTable V → Key → Key → V → Option (Except PErr (DoubleKeyTable V))
  | 0, _, _, _, _ => none
  | fuel + 1, st, k1, k2, v =>
    match st.linear_probe k1 k2 true with
    | .error e => some (.error e)
    | .ok (st1, pos, _) =>
      match st1.array.getD pos none with
      | none => some (.error .keyError)
      | some (k0, sub) =>
        match sub.set k2 v with
        | .error e => some (.error e)
        | .ok sub2 =>
          let st2 : DoubleKeyTable V :=
            { st1 with array := st1.array.set pos (some (k0, sub2)) }
          if st2.count > st2.array.length / 2 then
            if st2.sizeIndex + 1 ≥ st2.tableSizes.length then
              some (.ok { st2 with sizeIndex := st2.sizeIndex + 1 })
            else
              reinsertList fuel
                { st2 with
                  sizeIndex := st2.sizeIndex + 1
                  array :=
                    List.replicate (st2.tableSizes.getD (st2.sizeIndex + 1) 0)
                      none
                  count := 0 }
                (oldPairs st2.array)
          else some (.ok st2)
/-- The reinsertion loop of rehash: each triple goes through the full
setitem (so a nested rehash can fire mid-loop, as in the source). -/
def reinsertList {V : Type} :
    Nat → DoubleKeyTable V → List (Key × Key × V) → Option (Except PErr (DoubleKeyTable V))
  | _, st, [] => some (.ok st)
  | 0, _, _ :: _ => none
  | fuel + 1, st, (k1, k2, v) :: rest =>
    match setPair fuel st k1 k2 v with
    | none => none
    | some (.error e) => some (.error e)
    | some (.ok st2) => reinsertList fuel st2 rest
end

/-- rehash of the source as a standalone function (the same body that
setPair inlines): advance the size index, stop if the sequence is
exhausted (the early return of the source), else rebuild from a fresh
array of the next size. -/
def DoubleKeyTable.rehash {V : Type} (fuel : Nat) (st : DoubleKeyTable V) :
    Option (Except PErr (DoubleKeyTable V)) :=
  if st.sizeIndex + 1 ≥ st.tableSizes.length then
    some (.ok { st with sizeIndex := st.sizeIndex + 1 })
  else
    reinsertList fuel
      { st with
        sizeIndex := st.sizeIndex + 1
        array := List.replicate (st.tableSizes.getD (st.sizeIndex + 1) 0) none
        count := 0 }
      (oldPairs st.array)

/-- The sub-table back-shift loop of delitem (lines 299-306 of the
source): walk forward from the slot past the removed key2, vacate each
occupied slot and reinsert its pair at the position a fresh insert
probe finds, until an empty slot stops the walk.  Fuel bounds the
loop; none is divergence. -/
def subShift {V : Type} :
    Nat → LinearProbeTable V → Nat → Option (Except PErr (LinearProbeTable V))
  | fuel, t, pos =>
    match t.array.getD pos none with
    | none => some (.ok t)
    | some (k2x, vx) =>
      match fuel with
      | 0 => none
      | g + 1 =>
        let t1 : LinearProbeTable V := { t with array := t.array.set pos none }
        match t1.probe k2x true with
        | .error e => some (.error e)
        | .ok newpos =>
          subShift g
            { t1 with array := t1.array.set newpos (some (k2x, vx)) }
            ((pos + 1) % t1.array.length)

/-- The top-level back-shift loop of delitem (lines 308-315 of the
source): walk forward from the slot past position1, vacate each
occupied top slot and reinsert it at the position linear_probe finds
for (its key1, the key2 of the deleted pair) with insert on - the probe
therefore creates a fresh sub-table and grows count before the slot is
overwritten with the original sub-table.  The loop runs whether or not
the top slot was cleared. -/
def topShift {V : Type} :
    Nat → DoubleKeyTable V → Key → Nat → Option (Except PErr (DoubleKeyTable V))
  | fuel, st, k2, pos =>
    match st.array.getD pos none with
    | none => some (.ok st)
    | some (k1x, subx) =>
      match fuel with
      | 0 => none
      | g + 1 =>
        let st1 : DoubleKeyTable V := { st with array := st.array.set pos none }
        match st1.linear_probe k1x k2 true with
        | .error e => some (.error e)
        | .ok (st2, newpos, _) =>
          topShift g
            { st2 with array := st2.array.set newpos (some (k1x, subx)) }
            k2 ((pos + 1) % st2.array.length)

/-- delitem of the source: probe without insert (raising if the pair is
absent), delete key2 from the sub-table, clear the top slot and
decrement count when the sub-table became empty, then run the
sub-table back-shift from position2+1 and the top back-shift from
position1+1.  When the top slot was cleared, the source runs the
sub-table loop on the orphaned object, so its result is discarded
there. -/
def DoubleKeyTable.delPair {V : Type} (fuel : Nat) (st : DoubleKeyTable V)
    (k1 k2 : Key) : Option (Except PErr (DoubleKeyTable V)) :=
  match st.linear_probe k1 k2 false with
  | .error e => some (.error e)
  | .ok (_, pos1, pos2) =>
    match st.array.getD pos1 none with
    | none => some (.error .keyError)
    | some (k0, sub) =>
      if sub.containsKey k2 then
        match sub.del k2 with
        | .error e => some (.error e)
        | .ok sub1 =>
          match subShift fuel sub1 ((pos2 + 1) % sub1.array.length) with
          | none => none
          | some (.error e) => some (.error e)
          | some (.ok sub2) =>
            let st1 : DoubleKeyTable V :=
              if sub1.isEmptyT then
                { st with
                  array := st.array.set pos1 none
                  count := st.count - 1 }
              else
                { st with array := st.array.set pos1 (some (k0, sub2)) }
            topShift fuel st1 k2 ((pos1 + 1) % st1.array.length)
      else
        topShift fuel st k2 ((pos1 + 1) % st.array.length)

/-- values of the source with key = None: concatenation of the values
of every occupied slot, in slot order. -/
def valuesAll {V : Type} (st : DoubleKeyTable V) : List V :=
  st.array.foldr
    (fun o acc =>
      match o with
      | none => acc
      | some (_, sub) => sub.valuesList ++ acc)
    []

/-- values of the source: with a key, only the home slot hash1(key) is
inspected; a missing or mismatching entry there yields []. -/
def DoubleKeyTable.values {V : Type} (st : DoubleKeyTable V)
    (k : Option Key) : List V :=
  match k with
  | none => valuesAll st
  | some key =>
    match st.array.getD (st.hash1 key) none with
    | some (k0, sub) => if k0 = key then sub.valuesList else []
    | none => []

/-- keys of the source with key = None: the stored key1 of every
occupied top slot, in slot order. -/
def keysTop {V : Type} (st : DoubleKeyTable V) : List Key :=
  st.array.filterMap (fun o => o.map Prod.fst)

/-- keys of the source with a key: scan the whole array for the entry
of that key1 and return its sub-table keys (unlike values, this probes
nothing and survives displacement). -/
def keysScan {V : Type} :
    List (Option (Key × LinearProbeTable V)) → Key → List Key
  | [], _ => []
  | none :: rest, k => keysScan rest k
  | some (k0, sub) :: rest, k =>
    if k0 = k then sub.keysList else keysScan rest k

/-- keys of the source. -/
def DoubleKeyTable.keys {V : Type} (st : DoubleKeyTable V)
    (k : Option Key) : List Key :=
  match k with
  | none => keysTop st
  | some key => keysScan st.array key

/-- How a generator run ends once its yields are exhausted: a normal
return (StopIteration), a raised KeyError, or a raised BaseException. -/
inductive IterEnd where
  | normal : IterEnd
  | keyError : IterEnd
  | baseExc : IterEnd
deriving DecidableEq

/-- The yields of iter_values with key = None, written as the source
generator runs: one pass over the top array, yielding the values of
each occupied slot. -/
def iterValuesNoneYields {V : Type} :
    List (Option (Key × LinearProbeTable V)) → List V
  | [] => []
  | none :: rest => iterValuesNoneYields rest
  | some (_, sub) :: rest => sub.valuesList ++ iterValuesNoneYields rest

/-- The yields of iter_values with a key: the loop keeps scanning the
whole array for matching entries. -/
def iterValuesKeyYields {V : Type} :
    List (Option (Key × LinearProbeTable V)) → Key → List V
  | [], _ => []
  | none :: rest, k => iterValuesKeyYields rest k
  | some (k0, sub) :: rest, k =>
    (if k0 = k then sub.valuesList else []) ++ iterValuesKeyYields rest k

/-- iter_values of the source as a trace: the yielded values and how
the run ends.  Both branches fall through to the unconditional raise
KeyError on line 194, so a full consumption always ends in KeyError. -/
def DoubleKeyTable.iter_values {V : Type} (st : DoubleKeyTable V)
    (k : Option Key) : List V × IterEnd :=
  match k with
  | none => (iterValuesNoneYields st.array, .keyError)
  | some key => (iterValuesKeyYields st.array key, .keyError)

/-- The yields of iter_keys with key = None: the stored key1 of each
occupied slot, written as the generator loop runs. -/
def iterKeysNoneYields {V : Type} :
    List (Option (Key × LinearProbeTable V)) → List Key
  | [] => []
  | none :: rest => iterKeysNoneYields rest
  | some (k1, _) :: rest => k1 :: iterKeysNoneYields rest

/-- iter_keys of the source as a trace: with key = None it yields every
stored key1 then raises BaseException; with a key it inspects only the
home slot hash1(key), yields that sub-table keys and ends normally on
a match, else raises BaseException. -/
def DoubleKeyTable.iter_keys {V : Type} (st : DoubleKeyTable V)
    (k : Option Key) : List Key × IterEnd :=
  match k with
  | none => (iterKeysNoneYields st.array, .baseExc)
  | some key =>
    match st.array.getD (st.hash1 key) none with
    | some (k0, sub) =>
      if k0 = key then (sub.keysList, .normal) else ([], .baseExc)
    | none => ([], .baseExc)

/-- len of the source: the count field. -/
def DoubleKeyTable.lenD {V : Type} (st : DoubleKeyTable V) : Nat :=
  st.count

/-- The number of occupied top slots - the quantity the spec says count
tracks. -/
def occupiedTop {V : Type} (st : DoubleKeyTable V) : Nat :=
  (st.array.filterMap id).length

/-! ## Claims C3, C4, C5, C6, C10: the two-level table at concrete and
general states -/

/-- Projection of a successful bounded run onto its state. -/
def okOf {V : Type} :
    Option (Except PErr (DoubleKeyTable V)) → Option (DoubleKeyTable V)
  | some (.ok st) => some st
  | _ => none

/-- The value of a successful lookup. -/
def exv {V : Type} : Except PErr V → Option V
  | .ok v => some v
  | .error _ => none

/-- C3: with sizes [5], keys "a" and "f" both hash to top slot 2, so
"f" is displaced to slot 3.  Deleting ("a","x") leaves the sub-table
of "a" holding "y", so its top slot is NOT cleared - yet the top-level
back-shift loop still runs: it relocates ("f", sub-table) through
linear_probe with insert on, which creates a throwaway fresh sub-table
and increments count to 3 while only 2 top slots are occupied (slot 2
of "a" still occupied, both remaining pairs still retrievable). -/
theorem C3_top_backshift_runs_with_slot_not_cleared :
    ((okOf (reinsertList 20 (DoubleKeyTable.init Nat (some [5]) none)
        [(['a'], ['x'], 1), (['a'], ['y'], 2), (['f'], ['z'], 3)])).bind
      (fun st => okOf (st.delPair 20 (['a']) (['x'])))).map
      (fun st =>
        (st.count, occupiedTop st, (st.array.getD 2 none).isSome,
         exv (st.getPair (['a']) (['y'])), exv (st.getPair (['f']) (['z'])))) =
      some (3, 2, true, some 2, some 3) := by
  rfl

/-- C4 counterexample: len() of the two-level table does not count
distinct (key1, key2) pairs.  First conjunct: after setting the two
distinct pairs ("a","x") and ("a","y") - both retrievable - len() is 1,
not 2.  Second conjunct: with deletes the count is not even the number
of distinct key1 (or of pairs): after setting three pairs over two top
keys and deleting one pair, len() is 3 while 2 pairs over 2 top keys
remain. -/
theorem C4_counterexample_len_not_pairs :
    (okOf (reinsertList 20 (DoubleKeyTable.init Nat (some [5]) none)
        [(['a'], ['x'], 1), (['a'], ['y'], 2)])).map
      (fun st =>
        (st.lenD, exv (st.getPair (['a']) (['x'])),
         exv (st.getPair (['a']) (['y'])))) = some (1, some 1, some 2) ∧
    ((okOf (reinsertList 20 (DoubleKeyTable.init Nat (some [5]) none)
        [(['a'], ['x'], 1), (['a'], ['y'], 2), (['f'], ['z'], 3)])).bind
      (fun st => okOf (st.delPair 20 (['a']) (['x'])))).map
      (fun st => st.lenD) = some 3 := by
  constructor
  · rfl
  · rfl

/-- C5 counterexample: the count invariant breaks on Delete.  In the
state reached by setting ("a","x"), ("a","y"), ("f","z") with sizes
[5] and deleting ("a","x"), the count field is 3 while only 2 top
slots are occupied: the back-shift relocation of "f" re-probed with
insert on and incremented count. -/
theorem C5_counterexample_count_ne_occupied_after_delete :
    ((okOf (reinsertList 20 (DoubleKeyTable.init Nat (some [5]) none)
        [(['a'], ['x'], 1), (['a'], ['y'], 2), (['f'], ['z'], 3)])).bind
      (fun st => okOf (st.delPair 20 (['a']) (['x'])))).map
      (fun st => (st.lenD, occupiedTop st)) = some (3, 2) := by
  rfl

/-- C6 counterexample: with sizes [5], "a" and "f" collide at top slot
2 and "f" is stored at slot 3.  values("f") returns [] although the
pair ("f","z") with value 3 is present (getitem finds it, keys("f")
finds its key2), because values inspects only the home slot
hash1("f"). -/
theorem C6_counterexample_values_misses_displaced_key :
    (okOf (reinsertList 20 (DoubleKeyTable.init Nat (some [5]) none)
        [(['a'], ['x'], 1), (['f'], ['z'], 3)])).map
      (fun st =>
        (st.values (some (['f'])), exv (st.getPair (['f']) (['z'])),
         st.keys (some (['f'])))) = some ([], some 3, [['z']]) := by
  rfl

/-- C6 (amended): values(key1) returns exactly the stored values of the
sub-table of key1 when key1 occupies its home slot hash1(key1); when
the home slot is empty or holds a different top key (as happens when
collision probing displaced key1), values(key1) returns the empty
list. -/
theorem C6_amended_values_reads_home_slot_only {V : Type}
    (st : DoubleKeyTable V) (k1 : Key) :
    (∀ sub, st.array.getD (st.hash1 k1) none = some (k1, sub) →
      st.values (some k1) = sub.valuesList) ∧
    (∀ k0 sub, st.array.getD (st.hash1 k1) none = some (k0, sub) →
      k0 ≠ k1 → st.values (some k1) = []) ∧
    (st.array.getD (st.hash1 k1) none = none →
      st.values (some k1) = []) := by
  refine ⟨fun sub h => ?_, fun k0 sub h hne => ?_, fun h => ?_⟩
  · unfold DoubleKeyTable.values
    dsimp only
    rw [h]
    simp
  · unfold DoubleKeyTable.values
    dsimp only
    rw [h]
    simp [hne]
  · unfold DoubleKeyTable.values
    dsimp only
    rw [h]

/-- The yields of iter_values(None) are exactly what values(None)
collects. -/
theorem iterValuesNoneYields_eq_valuesAll {V : Type}
    (st : DoubleKeyTable V) : iterValuesNoneYields st.array = valuesAll st := by
  unfold valuesAll
  induction st.array with
  | nil => rfl
  | cons o rest ih =>
    cases o with
    | none => simpa [iterValuesNoneYields] using ih
    | some pr => simpa [iterValuesNoneYields] using congrArg (pr.2.valuesList ++ ·) ih

/-- The yields of iter_keys(None) are exactly keys(None). -/
theorem iterKeysNoneYields_eq_keysTop {V : Type}
    (st : DoubleKeyTable V) : iterKeysNoneYields st.array = keysTop st := by
  unfold keysTop
  induction st.array with
  | nil => rfl
  | cons o rest ih =>
    cases o with
    | none => simpa [iterKeysNoneYields] using ih
    | some pr => simpa [iterKeysNoneYields, Prod.fst] using congrArg (pr.1 :: ·) ih

/-- C10: for every two-level table state, fully consuming
iter_values(None) yields exactly the stored values (what values(None)
returns) and then raises KeyError, and fully consuming iter_keys(None)
yields exactly the top-level keys and then raises BaseException -
neither enumeration ends with a plain StopIteration. -/
theorem C10_full_enumeration_ends_in_raise {V : Type}
    (st : DoubleKeyTable V) :
    st.iter_values none = (st.values none, IterEnd.keyError) ∧
    st.iter_keys none = (st.keys none, IterEnd.baseExc) := by
  constructor
  · show (iterValuesNoneYields st.array, IterEnd.keyError) = _
    rw [iterValuesNoneYields_eq_valuesAll]
    rfl
  · show (iterKeysNoneYields st.array, IterEnd.baseExc) = _
    rw [iterKeysNoneYields_eq_keysTop]
    rfl

end Spec2Proof

namespace Spec2Proof

/-! ## Generic facts about slot arrays and the probe walk -/

theorem getD_set_self {α : Type _} {a : List α} {p : Nat}
    (h : p < a.length) (x d : α) : (a.set p x).getD p d = x := by
  simp [List.getD_eq_getElem?_getD, List.getElem?_set_self, h]

theorem getD_set_ne {α : Type _} {a : List α} {p q : Nat}
    (h : p ≠ q) (x d : α) : (a.set p x).getD q d = a.getD q d := by
  simp [List.getD_eq_getElem?_getD, List.getElem?_set_ne h]

theorem getD_none_of_ge {α : Type _} {a : List (Option α)} {p : Nat}
    (h : a.length ≤ p) : a.getD p none = none := by
  simp [List.getD_eq_getElem?_getD, List.getElem?_eq_none h]

theorem lt_length_of_getD_some {α : Type _} {a : List (Option α)} {p : Nat}
    {x : α} (h : a.getD p none = some x) : p < a.length := by
  by_contra hge
  rw [getD_none_of_ge (Nat.le_of_not_lt hge)] at h
  exact Option.noConfusion h

theorem mem_of_getD_some {α : Type _} {a : List (Option α)} {p : Nat}
    {x : α} (h : a.getD p none = some x) : some x ∈ a := by
  have hp := lt_length_of_getD_some h
  rw [List.getD_eq_getElem?_getD, List.getElem?_eq_getElem hp] at h
  simp only [Option.getD_some] at h
  rw [← h]
  exact List.getElem_mem hp

theorem getD_some_of_mem {α : Type _} {a : List (Option α)} {x : α}
    (h : some x ∈ a) : ∃ p, a.getD p none = some x := by
  obtain ⟨p, hp, he⟩ := List.mem_iff_getElem.mp h
  exact ⟨p, by rw [List.getD_eq_getElem?_getD, List.getElem?_eq_getElem hp, he]; rfl⟩

/-- The key stored at a slot is among the keys of the array. -/
theorem key_mem_of_slot {V : Type} {a : List (Option (Key × V))} {j : Nat}
    {k : Key} {v : V} (h : a.getD j none = some (k, v)) :
    k ∈ a.filterMap (fun o => o.map Prod.fst) := by
  exact List.mem_filterMap.mpr ⟨some (k, v), mem_of_getD_some h, rfl⟩

/-- Each key of the array is stored at some slot. -/
theorem slot_of_key_mem {V : Type} {a : List (Option (Key × V))} {k : Key}
    (h : k ∈ a.filterMap (fun o => o.map Prod.fst)) :
    ∃ j v, a.getD j none = some (k, v) := by
  obtain ⟨o, ho, he⟩ := List.mem_filterMap.mp h
  cases o with
  | none => exact absurd he (by simp)
  | some pr =>
    obtain ⟨j, hj⟩ := getD_some_of_mem ho
    exact ⟨j, pr.2, by
      rw [hj]
      have : pr.1 = k := by simpa using he
      rw [← this]⟩

theorem filterMap_id_length_set_none {α : Type _} (a : List (Option α)) :
    ∀ (p : Nat), p < a.length → a.getD p none = none →
      ∀ x : α,
        ((a.set p (some x)).filterMap id).length =
          (a.filterMap id).length + 1 := by
  induction a with
  | nil => intro p hp _ x; simp at hp
  | cons o r ih =>
    intro p hp h x
    cases p with
    | zero =>
      have ho : o = none := by simpa using h
      subst ho
      simp
    | succ q =>
      have hq : q < r.length := by simpa using hp
      have h2 : r.getD q none = none := by simpa using h
      cases o with
      | none => simpa using ih q hq h2 x
      | some y => simpa using ih q hq h2 x

theorem filterMap_id_length_set_some {α : Type _} (a : List (Option α)) :
    ∀ (p : Nat) (y : α), a.getD p none = some y →
      ∀ x : α,
        ((a.set p (some x)).filterMap id).length =
          (a.filterMap id).length := by
  induction a with
  | nil => intro p y hy; exact absurd hy (by simp)
  | cons o r ih =>
    intro p y hy x
    cases p with
    | zero =>
      have ho : o = some y := by simpa using hy
      subst ho
      simp
    | succ q =>
      have h2 : r.getD q none = some y := by simpa using hy
      cases o with
      | none => simpa using ih q y h2 x
      | some z => simpa using ih q y h2 x

/-- The first component of the rolling hash stays below the capacity. -/
theorem hashPoly_lt {cap : Nat} (hc : 0 < cap) (k : Key) :
    hashPoly cap k < cap := by
  suffices h : ∀ (l : List Char) (p : Nat × Nat), p.1 < cap →
      (l.foldl (hashStep cap) p).1 < cap by
    exact h k (0, 31415) hc
  intro l
  induction l with
  | nil => intro p hp; exact hp
  | cons c r ih =>
    intro p hp
    apply ih
    exact Nat.mod_lt _ hc

/-- A successful lookup probe lands on a slot holding the key. -/
theorem probeAux_ok_lookup {V : Type} {a : List (Option (Key × V))}
    {k : Key} :
    ∀ {steps pos j : Nat}, probeAux a k false steps pos = .ok j →
      ∃ v, a.getD j none = some (k, v) := by
  intro steps
  induction steps with
  | zero => intro pos j h; exact absurd h (by simp [probeAux])
  | succ s ih =>
    intro pos j h
    unfold probeAux at h
    cases hslot : a.getD pos none with
    | none => rw [hslot] at h; simp at h
    | some pr =>
      obtain ⟨k0, v⟩ := pr
      rw [hslot] at h
      dsimp only at h
      by_cases hk : k0 = k
      · rw [if_pos hk] at h
        have : pos = j := by simpa using h
        subst this
        exact ⟨v, by rw [hslot, hk]⟩
      · rw [if_neg hk] at h
        exact ih h

/-- A successful insert probe lands on an empty slot or one already
holding the key. -/
theorem probeAux_ok_insert {V : Type} {a : List (Option (Key × V))}
    {k : Key} :
    ∀ {steps pos j : Nat}, probeAux a k true steps pos = .ok j →
      a.getD j none = none ∨ ∃ v, a.getD j none = some (k, v) := by
  intro steps
  induction steps with
  | zero => intro pos j h; exact absurd h (by simp [probeAux])
  | succ s ih =>
    intro pos j h
    unfold probeAux at h
    cases hslot : a.getD pos none with
    | none =>
      rw [hslot] at h
      dsimp only at h
      have : pos = j := by simpa using h
      subst this
      exact Or.inl hslot
    | some pr =>
      obtain ⟨k0, v⟩ := pr
      rw [hslot] at h
      dsimp only at h
      by_cases hk : k0 = k
      · rw [if_pos hk] at h
        have : pos = j := by simpa using h
        subst this
        exact Or.inr ⟨v, by rw [hslot, hk]⟩
      · rw [if_neg hk] at h
        exact ih h

/-- Filling an empty slot elsewhere does not disturb a successful
lookup probe (a successful lookup only visits occupied slots). -/
theorem probeAux_lookup_fill {V : Type} {a : List (Option (Key × V))}
    {k : Key} {e : Nat} {x : Key × V} (he : a.getD e none = none) :
    ∀ {steps pos j : Nat}, probeAux a k false steps pos = .ok j →
      probeAux (a.set e (some x)) k false steps pos = .ok j := by
  intro steps
  induction steps with
  | zero => intro pos j h; exact absurd h (by simp [probeAux])
  | succ s ih =>
    intro pos j h
    unfold probeAux at h ⊢
    cases hslot : a.getD pos none with
    | none => rw [hslot] at h; simp at h
    | some pr =>
      obtain ⟨k0, v⟩ := pr
      have hne : e ≠ pos := by
        intro heq
        rw [heq, hslot] at he
        exact Option.noConfusion he
      rw [getD_set_ne hne, hslot]
      rw [hslot] at h
      dsimp only at h ⊢
      by_cases hk : k0 = k
      · rw [if_pos hk] at h ⊢; exact h
      · rw [if_neg hk] at h ⊢
        rw [List.length_set]
        exact ih h

/-- Overwriting the value stored under some key (keeping the key) does
not disturb any successful lookup probe. -/
theorem probeAux_lookup_overwrite {V : Type} {a : List (Option (Key × V))}
    {k k1 : Key} {q : Nat} {w w2 : V} (hq : a.getD q none = some (k1, w)) :
    ∀ {steps pos j : Nat}, probeAux a k false steps pos = .ok j →
      probeAux (a.set q (some (k1, w2))) k false steps pos = .ok j := by
  intro steps
  induction steps with
  | zero => intro pos j h; exact absurd h (by simp [probeAux])
  | succ s ih =>
    intro pos j h
    unfold probeAux at h ⊢
    by_cases hpq : q = pos
    · subst hpq
      rw [getD_set_self (lt_length_of_getD_some hq)]
      rw [hq] at h
      dsimp only at h ⊢
      by_cases hk : k1 = k
      · rw [if_pos hk] at h ⊢; exact h
      · rw [if_neg hk] at h ⊢
        rw [List.length_set]
        exact ih h
    · rw [getD_set_ne hpq]
      cases hslot : a.getD pos none with
      | none => rw [hslot] at h; simp at h
      | some pr =>
        obtain ⟨k0, v⟩ := pr
        rw [hslot] at h
        dsimp only at h ⊢
        by_cases hk : k0 = k
        · rw [if_pos hk] at h ⊢; exact h
        · rw [if_neg hk] at h ⊢
          rw [List.length_set]
          exact ih h

/-- After writing the key into the empty slot a successful insert probe
found, the lookup probe finds it there. -/
theorem probeAux_insert_to_lookup {V : Type} {a : List (Option (Key × V))}
    {k : Key} {v : V} :
    ∀ {steps pos j : Nat}, pos < a.length → a.getD j none = none →
      probeAux a k true steps pos = .ok j →
      probeAux (a.set j (some (k, v))) k false steps pos = .ok j := by
  intro steps
  induction steps with
  | zero => intro pos j _ _ h; exact absurd h (by simp [probeAux])
  | succ s ih =>
    intro pos j hpos hj h
    unfold probeAux at h ⊢
    cases hslot : a.getD pos none with
    | none =>
      rw [hslot] at h
      dsimp only at h
      have : pos = j := by simpa using h
      subst this
      rw [getD_set_self hpos]
      dsimp only
      rw [if_pos rfl]
    | some pr =>
      obtain ⟨k0, v0⟩ := pr
      have hne : j ≠ pos := by
        intro heq
        rw [heq, hslot] at hj
        exact Option.noConfusion hj
      rw [getD_set_ne hne, hslot]
      rw [hslot] at h
      dsimp only at h ⊢
      by_cases hk : k0 = k
      · rw [if_pos hk] at h
        have : pos = j := by simpa using h
        exact absurd this (Ne.symm hne)
      · rw [if_neg hk] at h ⊢
        rw [List.length_set]
        exact ih (Nat.mod_lt _ (Nat.lt_of_le_of_lt (Nat.zero_le pos) hpos)) hj h

end Spec2Proof
namespace Spec2Proof

/-! ## More probe-walk facts -/

theorem getD_cons_zero_none {α : Type _} (o : Option α) (r : List (Option α)) :
    (o :: r).getD 0 none = o := rfl

theorem getD_cons_succ_none {α : Type _} (o : Option α) (r : List (Option α))
    (j : Nat) : (o :: r).getD (j + 1) none = r.getD j none := rfl

theorem getD_replicate {α : Type _} (n p : Nat) (d : α) :
    (List.replicate n d).getD p d = d := by
  rcases Nat.lt_or_ge p n with h | h
  · simp [List.getD_eq_getElem?_getD, List.getElem?_replicate, h]
  · simp [List.getD_eq_getElem?_getD,
      List.getElem?_eq_none (by simpa using h : (List.replicate n d).length ≤ p)]

/-- Some slot reachable within the remaining steps being empty makes
the insert probe succeed. -/
theorem probeAux_insert_isOk {V : Type} {a : List (Option (Key × V))}
    {k : Key} :
    ∀ {steps pos : Nat}, pos < a.length →
      (∃ d, d < steps ∧ a.getD ((pos + d) % a.length) none = none) →
      ∃ j, probeAux a k true steps pos = .ok j := by
  intro steps
  induction steps with
  | zero =>
    intro pos _ h
    obtain ⟨d, hd, _⟩ := h
    exact absurd hd (by omega)
  | succ s ih =>
    intro pos hpos h
    unfold probeAux
    cases hslot : a.getD pos none with
    | none => exact ⟨pos, rfl⟩
    | some pr =>
      obtain ⟨k0, v⟩ := pr
      dsimp only
      by_cases hk : k0 = k
      · exact ⟨pos, by rw [if_pos hk]⟩
      · rw [if_neg hk]
        apply ih (Nat.mod_lt _ (Nat.lt_of_le_of_lt (Nat.zero_le pos) hpos))
        obtain ⟨d, hd, he⟩ := h
        cases d with
        | zero =>
          rw [Nat.add_zero, Nat.mod_eq_of_lt hpos] at he
          rw [he] at hslot
          exact Option.noConfusion hslot
        | succ d2 =>
          refine ⟨d2, by omega, ?_⟩
          rw [Nat.mod_add_mod]
          have : pos + 1 + d2 = pos + (d2 + 1) := by omega
          rw [this]
          exact he

/-- On a circle of the array length, every slot is within one circuit
of every start. -/
theorem exists_step_to {len pos e : Nat} (hp : pos < len) (he : e < len) :
    ∃ d, d < len ∧ (pos + d) % len = e := by
  refine ⟨(e + len - pos) % len, Nat.mod_lt _ (by omega), ?_⟩
  rw [Nat.add_mod_mod]
  have h1 : pos + (e + len - pos) = e + len := by omega
  rw [h1, Nat.add_mod_right]
  exact Nat.mod_eq_of_lt he

/-- Fewer live slots than slots leaves an empty slot. -/
theorem exists_empty_of_live_lt {α : Type _} :
    ∀ (a : List (Option α)), (a.filterMap id).length < a.length →
      ∃ e, e < a.length ∧ a.getD e none = none := by
  intro a
  induction a with
  | nil => intro h; simp at h
  | cons o r ih =>
    intro h
    cases o with
    | none => exact ⟨0, by simp, by simp⟩
    | some x =>
      have h2 : (r.filterMap id).length < r.length := by simpa using h
      obtain ⟨e, he, hee⟩ := ih h2
      exact ⟨e + 1, by simpa using he, by simpa using hee⟩

/-- An insert probe that ends on an empty slot means the lookup probe
from the same start fails: the walks agree until the first empty slot. -/
theorem probeAux_insert_empty_lookup_fails {V : Type}
    {a : List (Option (Key × V))} {k : Key} :
    ∀ {steps pos j : Nat}, probeAux a k true steps pos = .ok j →
      a.getD j none = none →
      probeAux a k false steps pos = .error .keyError := by
  intro steps
  induction steps with
  | zero => intro pos j h _; exact absurd h (by simp [probeAux])
  | succ s ih =>
    intro pos j h hj
    unfold probeAux at h ⊢
    cases hslot : a.getD pos none with
    | none => rfl
    | some pr =>
      obtain ⟨k0, v⟩ := pr
      rw [hslot] at h
      dsimp only at h ⊢
      by_cases hk : k0 = k
      · rw [if_pos hk] at h
        have : pos = j := by simpa using h
        subst this
        rw [hslot] at hj
        exact Option.noConfusion hj
      · rw [if_neg hk] at h ⊢
        exact ih h hj

/-- Keys stored at unique slots make the key list of the live pairs
duplicate-free. -/
theorem nodup_keys_of_slot_inj {V : Type} :
    ∀ (a : List (Option (Key × V))),
      (∀ j1 j2 k v1 v2, a.getD j1 none = some (k, v1) →
        a.getD j2 none = some (k, v2) → j1 = j2) →
      ((a.filterMap id).map Prod.fst).Nodup := by
  intro a
  induction a with
  | nil => intro _; simp
  | cons o r ih =>
    intro H
    have Hr : ∀ j1 j2 k v1 v2, r.getD j1 none = some (k, v1) →
        r.getD j2 none = some (k, v2) → j1 = j2 := by
      intro j1 j2 k v1 v2 h1 h2
      have := H (j1 + 1) (j2 + 1) k v1 v2
        ((getD_cons_succ_none _ _ _).trans h1)
        ((getD_cons_succ_none _ _ _).trans h2)
      omega
    cases o with
    | none => exact ih Hr
    | some pr =>
      obtain ⟨k, v⟩ := pr
      have hnotmem : k ∉ (r.filterMap id).map Prod.fst := by
        intro hk
        have hk2 : k ∈ r.filterMap (fun o => o.map Prod.fst) := by
          rw [List.map_filterMap] at hk
          exact hk
        obtain ⟨j, v2, hj⟩ := slot_of_key_mem hk2
        have := H 0 (j + 1) k v v2 (getD_cons_zero_none _ _)
          ((getD_cons_succ_none _ _ _).trans hj)
        omega
      have hcons : ((some (k, v) :: r).filterMap id) = (k, v) :: r.filterMap id := rfl
      rw [hcons, List.map_cons]
      exact List.Nodup.cons hnotmem (ih Hr)

/-- Membership in the live pairs is existence of a slot. -/
theorem livePairs_mem {V : Type} {a : List (Option (Key × V))}
    {pr : Key × V} :
    pr ∈ a.filterMap id ↔ ∃ j, a.getD j none = some pr := by
  constructor
  · intro h
    obtain ⟨o, ho, he⟩ := List.mem_filterMap.mp h
    cases o with
    | none => exact absurd he (by simp)
    | some q =>
      have : q = pr := by simpa using he
      subst this
      exact getD_some_of_mem ho
  · intro ⟨j, hj⟩
    exact List.mem_filterMap.mpr ⟨some pr, mem_of_getD_some hj, rfl⟩

/-- Good size sequences: a positive first capacity, each later capacity
at least two more than the one before. -/
def GoodSizes (s : List Nat) : Prop :=
  0 < s.getD 0 0 ∧ ∀ i, i + 1 < s.length → s.getD i 0 + 2 ≤ s.getD (i + 1) 0

theorem GoodSizes.pos {s : List Nat} (hs : GoodSizes s) :
    ∀ i, i < s.length → 0 < s.getD i 0 := by
  intro i
  induction i with
  | zero => intro _; exact hs.1
  | succ n ihn =>
    intro h
    have h2 := hs.2 n h
    have h3 := ihn (by omega)
    omega

theorem goodSizes_default : GoodSizes TABLE_SIZES_default := by
  constructor
  · norm_num [TABLE_SIZES_default]
  · intro i hi
    have hi2 : i < 18 := by
      simp [TABLE_SIZES_default] at hi
      omega
    interval_cases i <;> norm_num [TABLE_SIZES_default]

end Spec2Proof
namespace Spec2Proof

/-! ## Well-formed sub-tables (the Probed Pair Table primitive) -/

/-- A successful probe stays inside the array. -/
theorem probeAux_ok_lt {V : Type} {a : List (Option (Key × V))} {k : Key}
    {ins : Bool} :
    ∀ {steps pos j : Nat}, pos < a.length →
      probeAux a k ins steps pos = .ok j → j < a.length := by
  intro steps
  induction steps with
  | zero => intro pos j _ h; exact absurd h (by simp [probeAux])
  | succ s ih =>
    intro pos j hpos h
    unfold probeAux at h
    cases hslot : a.getD pos none with
    | none =>
      rw [hslot] at h
      dsimp only at h
      cases ins with
      | true =>
        have : pos = j := by simpa using h
        omega
      | false => simp at h
    | some pr =>
      obtain ⟨k0, v⟩ := pr
      rw [hslot] at h
      dsimp only at h
      by_cases hk : k0 = k
      · rw [if_pos hk] at h
        have : pos = j := by simpa using h
        omega
      · rw [if_neg hk] at h
        exact ih (Nat.mod_lt _ (by omega)) h

/-- Invariant of a well-formed probed pair table: positive capacity,
every stored pair found by its lookup probe at its own slot, count in
step with the live slots, and the capacity in step with a good size
sequence. -/
structure WfSub {V : Type} (t : LinearProbeTable V) : Prop where
  hlen : 0 < t.array.length
  found : ∀ j (k : Key) (v : V), t.array.getD j none = some (k, v) →
    t.probe k false = .ok j
  cnt : t.count = (t.array.filterMap id).length
  lenIdx : t.array.length = t.sizes.getD t.sizeIndex 0
  idx : t.sizeIndex < t.sizes.length
  good : GoodSizes t.sizes

/-- Occupancy at most half, or the size sequence already exhausted (in
which case the primitive can no longer grow). -/
def HalfFree {V : Type} (t : LinearProbeTable V) : Prop :=
  t.count ≤ t.array.length / 2 ∨ t.sizes.length ≤ t.sizeIndex + 1

/-- The pair (k, v) is stored at some slot of the sub-table. -/
def SubHas {V : Type} (t : LinearProbeTable V) (k : Key) (v : V) : Prop :=
  ∃ j, t.array.getD j none = some (k, v)

theorem WfSub.sub_slot_inj {V : Type} {t : LinearProbeTable V} (hw : WfSub t)
    {j1 j2 : Nat} {k : Key} {v1 v2 : V}
    (h1 : t.array.getD j1 none = some (k, v1))
    (h2 : t.array.getD j2 none = some (k, v2)) : j1 = j2 ∧ v1 = v2 := by
  have e1 := hw.found j1 k v1 h1
  have e2 := hw.found j2 k v2 h2
  rw [e1] at e2
  have hj : j1 = j2 := by simpa using e2
  subst hj
  rw [h1] at h2
  injection h2 with h3
  injection h3 with _ hv
  exact ⟨rfl, hv⟩

/-- getitem of the primitive returns the stored value. -/
theorem WfSub.sub_get_eq {V : Type} {t : LinearProbeTable V} (hw : WfSub t)
    {j : Nat} {k : Key} {v : V} (h : t.array.getD j none = some (k, v)) :
    t.get k = .ok v := by
  unfold LinearProbeTable.get
  rw [hw.found j k v h]
  dsimp only
  rw [h]

/-- A fresh sub-table over a good nonempty size sequence is well
formed. -/
theorem wfSub_mkLPT {V : Type} {s : List Nat} (hg : GoodSizes s)
    (hne : 0 < s.length) : WfSub (mkLPT V s) := by
  have harr : (mkLPT V s).array = List.replicate (s.getD 0 0) none := rfl
  refine ⟨?_, ?_, ?_, ?_, hne, hg⟩
  · rw [harr, List.length_replicate]
    exact hg.1
  · intro j k v h
    rw [harr, getD_replicate] at h
    exact Option.noConfusion h
  · show 0 = _
    rw [harr]
    have : ∀ n, ((List.replicate n (none : Option (Key × V))).filterMap id) = [] := by
      intro n
      induction n with
      | zero => rfl
      | succ m ihm => simp [List.replicate_succ, ihm]
    rw [this]
    rfl
  · rw [harr, List.length_replicate]
    rfl

/-- A fresh sub-table stores nothing. -/
theorem subHas_mkLPT {V : Type} {s : List Nat} {k : Key} {v : V} :
    ¬ SubHas (mkLPT V s) k v := by
  intro ⟨j, hj⟩
  have harr : (mkLPT V s).array = List.replicate (s.getD 0 0) none := rfl
  rw [harr, getD_replicate] at hj
  exact Option.noConfusion hj

end Spec2Proof
namespace Spec2Proof

/-- Writing a new pair into the empty slot found by a successful insert
probe preserves well-formedness; the stored pairs grow by exactly the
new pair, which was absent before. -/
theorem wfSub_insert_slot {V : Type} {t : LinearProbeTable V}
    (hw : WfSub t) {k : Key} {v : V} {p : Nat}
    (hp : t.probe k true = .ok p) (hemp : t.array.getD p none = none) :
    WfSub { t with
      array := t.array.set p (some (k, v))
      count := t.count + 1 } ∧
    (∀ v0, ¬ SubHas t k v0) ∧
    (∀ k0 v0,
      SubHas { t with
        array := t.array.set p (some (k, v))
        count := t.count + 1 } k0 v0 ↔
        (SubHas t k0 v0 ∨ (k0 = k ∧ v0 = v))) := by
  have hplt : p < t.array.length :=
    probeAux_ok_lt (hashPoly_lt hw.hlen k) hp
  have habsent : ∀ v0, ¬ SubHas t k v0 := by
    intro v0 ⟨j, hj⟩
    have hfail := probeAux_insert_empty_lookup_fails hp hemp
    have hfind := hw.found j k v0 hj
    unfold LinearProbeTable.probe at hfind
    rw [hfail] at hfind
    exact Except.noConfusion hfind
  refine ⟨⟨?_, ?_, ?_, ?_, hw.idx, hw.good⟩, habsent, ?_⟩
  · simpa using hw.hlen
  · intro j k0 v0 hj
    show probeAux _ k0 false _ _ = _
    rw [List.length_set]
    by_cases hjp : j = p
    · subst hjp
      rw [getD_set_self hplt] at hj
      injection hj with hj2
      injection hj2 with hk hv
      subst hk
      subst hv
      exact probeAux_insert_to_lookup (hashPoly_lt hw.hlen _) hemp hp
    · rw [getD_set_ne (Ne.symm hjp)] at hj
      exact probeAux_lookup_fill hemp (hw.found j k0 v0 hj)
  · show t.count + 1 = _
    rw [hw.cnt]
    exact (filterMap_id_length_set_none t.array p hplt hemp (k, v)).symm
  · simpa using hw.lenIdx
  · intro k0 v0
    constructor
    · intro ⟨j, hj⟩
      by_cases hjp : j = p
      · subst hjp
        rw [getD_set_self hplt] at hj
        injection hj with hj2
        injection hj2 with hk hv
        exact Or.inr ⟨hk.symm, hv.symm⟩
      · rw [getD_set_ne (Ne.symm hjp)] at hj
        exact Or.inl ⟨j, hj⟩
    · intro h
      cases h with
      | inl hold =>
        obtain ⟨j, hj⟩ := hold
        have hjp : j ≠ p := by
          intro he
          rw [he, hemp] at hj
          exact Option.noConfusion hj
        exact ⟨j, by rw [getD_set_ne (Ne.symm hjp)]; exact hj⟩
      | inr hnew =>
        obtain ⟨hk, hv⟩ := hnew
        subst hk
        subst hv
        exact ⟨p, getD_set_self hplt _ _⟩

/-- Overwriting the value stored for a key at its slot preserves
well-formedness; the stored pairs change only at that key. -/
theorem wfSub_overwrite_slot {V : Type} {t : LinearProbeTable V}
    (hw : WfSub t) {k : Key} {v w : V} {p : Nat}
    (hsome : t.array.getD p none = some (k, w)) :
    WfSub { t with array := t.array.set p (some (k, v)) } ∧
    (∀ k0 v0,
      SubHas { t with array := t.array.set p (some (k, v)) } k0 v0 ↔
        ((k0 ≠ k ∧ SubHas t k0 v0) ∨ (k0 = k ∧ v0 = v))) := by
  have hplt : p < t.array.length := lt_length_of_getD_some hsome
  refine ⟨⟨?_, ?_, ?_, ?_, hw.idx, hw.good⟩, ?_⟩
  · simpa using hw.hlen
  · intro j k0 v0 hj
    show probeAux _ k0 false _ _ = _
    rw [List.length_set]
    by_cases hjp : j = p
    · subst hjp
      rw [getD_set_self hplt] at hj
      injection hj with hj2
      injection hj2 with hk hv
      subst hk
      exact probeAux_lookup_overwrite hsome (hw.found _ _ w hsome)
    · rw [getD_set_ne (Ne.symm hjp)] at hj
      exact probeAux_lookup_overwrite hsome (hw.found j k0 v0 hj)
  · show t.count = _
    rw [hw.cnt]
    exact (filterMap_id_length_set_some t.array p (k, w) hsome (k, v)).symm
  · simpa using hw.lenIdx
  · intro k0 v0
    constructor
    · intro ⟨j, hj⟩
      by_cases hjp : j = p
      · subst hjp
        rw [getD_set_self hplt] at hj
        injection hj with hj2
        injection hj2 with hk hv
        exact Or.inr ⟨hk.symm, hv.symm⟩
      · rw [getD_set_ne (Ne.symm hjp)] at hj
        left
        refine ⟨?_, j, hj⟩
        intro hk0
        subst hk0
        exact hjp (hw.sub_slot_inj hj hsome).1
    · intro h
      cases h with
      | inl hold =>
        obtain ⟨hne, j, hj⟩ := hold
        have hjp : j ≠ p := by
          intro he
          subst he
          have := hj.symm.trans hsome
          injection this with h2
          injection h2 with hk _
          exact hne hk
        exact ⟨j, by rw [getD_set_ne (Ne.symm hjp)]; exact hj⟩
      | inr hnew =>
        obtain ⟨hk, hv⟩ := hnew
        subst hk
        subst hv
        exact ⟨p, getD_set_self hplt _ _⟩

end Spec2Proof
namespace Spec2Proof

/-- Folding raw reinsertions of fresh distinct keys into a well-formed
table with enough room: the result is well formed, counts every pair,
keeps the geometry, and stores exactly the old and the new pairs. -/
theorem insRaw_fold {V : Type} :
    ∀ (l : List (Key × V)) (t0 : LinearProbeTable V), WfSub t0 →
      (l.map Prod.fst).Nodup →
      (∀ pr ∈ l, ∀ v0, ¬ SubHas t0 pr.1 v0) →
      t0.count + l.length ≤ t0.array.length / 2 →
      WfSub (l.foldl LinearProbeTable.insRaw t0) ∧
      (l.foldl LinearProbeTable.insRaw t0).count = t0.count + l.length ∧
      (l.foldl LinearProbeTable.insRaw t0).sizes = t0.sizes ∧
      (l.foldl LinearProbeTable.insRaw t0).sizeIndex = t0.sizeIndex ∧
      (l.foldl LinearProbeTable.insRaw t0).array.length = t0.array.length ∧
      (∀ k v, SubHas (l.foldl LinearProbeTable.insRaw t0) k v ↔
        (SubHas t0 k v ∨ (k, v) ∈ l)) := by
  intro l
  induction l with
  | nil =>
    intro t0 hw _ _ _
    exact ⟨hw, by simp, rfl, rfl, rfl, by simp⟩
  | cons pr rest ih =>
    obtain ⟨k, v⟩ := pr
    intro t0 hw hnodup habs hroom
    have hlive : (t0.array.filterMap id).length < t0.array.length := by
      have h2 : 0 < t0.array.length := hw.hlen
      have h4 := Nat.div_le_self t0.array.length 2
      have h5 : t0.count < t0.array.length := by
        simp only [List.length_cons] at hroom
        omega
      rw [← hw.cnt]
      exact h5
    obtain ⟨e, helt, hee⟩ := exists_empty_of_live_lt t0.array hlive
    obtain ⟨d, hd, hde⟩ := exists_step_to (hashPoly_lt hw.hlen k) helt
    obtain ⟨j, hj⟩ := probeAux_insert_isOk (a := t0.array) (k := k)
      (hashPoly_lt hw.hlen k) ⟨d, hd, by rw [hde]; exact hee⟩
    have hj2 : t0.probe k true = .ok j := hj
    have hslot : t0.array.getD j none = none := by
      rcases probeAux_ok_insert hj2 with h | ⟨v0, h⟩
      · exact h
      · exact absurd ⟨j, h⟩ (habs (k, v) (by simp) v0)
    obtain ⟨hw1, habsent1, hiff1⟩ := wfSub_insert_slot hw (v := v) hj2 hslot
    have hfold : ((k, v) :: rest).foldl LinearProbeTable.insRaw t0 =
        rest.foldl LinearProbeTable.insRaw
          { t0 with
            array := t0.array.set j (some (k, v))
            count := t0.count + 1 } := by
      show rest.foldl _ (LinearProbeTable.insRaw t0 (k, v)) = _
      unfold LinearProbeTable.insRaw
      rw [hj2]
    have hknotin : k ∉ rest.map Prod.fst := (List.nodup_cons.mp hnodup).1
    have habs1 : ∀ pr2 ∈ rest, ∀ v0,
        ¬ SubHas { t0 with
          array := t0.array.set j (some (k, v))
          count := t0.count + 1 } pr2.1 v0 := by
      intro pr2 hmem v0 hh
      rcases (hiff1 pr2.1 v0).mp hh with hold | ⟨hk, _⟩
      · exact habs pr2 (List.mem_cons_of_mem _ hmem) v0 hold
      · exact hknotin (hk ▸ List.mem_map_of_mem Prod.fst hmem)
    have hroom1 : ({ t0 with
        array := t0.array.set j (some (k, v))
        count := t0.count + 1 } : LinearProbeTable V).count + rest.length ≤
        ({ t0 with
        array := t0.array.set j (some (k, v))
        count := t0.count + 1 } : LinearProbeTable V).array.length / 2 := by
      show t0.count + 1 + rest.length ≤ (t0.array.set j (some (k, v))).length / 2
      rw [List.length_set]
      simp only [List.length_cons] at hroom
      omega
    obtain ⟨hwF, hcntF, hszF, hidxF, hlenF, hiffF⟩ :=
      ih _ hw1 (List.nodup_cons.mp hnodup).2 habs1 hroom1
    rw [hfold]
    refine ⟨hwF, ?_, hszF, hidxF, ?_, ?_⟩
    · rw [hcntF]
      show t0.count + 1 + rest.length = _
      simp [List.length_cons]
      omega
    · rw [hlenF]
      show (t0.array.set j (some (k, v))).length = _
      rw [List.length_set]
    · intro k0 v0
      rw [hiffF k0 v0, hiff1 k0 v0]
      simp only [List.mem_cons, Prod.ext_iff]
      tauto

end Spec2Proof
namespace Spec2Proof

theorem filterMap_id_replicate_none {α : Type _} (n : Nat) :
    ((List.replicate n (none : Option α)).filterMap id) = [] := by
  induction n with
  | zero => rfl
  | succ m ihm => simp [List.replicate_succ, ihm]

theorem WfSub.count_pos_of_has {V : Type} {t : LinearProbeTable V}
    (hw : WfSub t) {k : Key} {v : V} (h : SubHas t k v) : 0 < t.count := by
  obtain ⟨j, hj⟩ := h
  have hm : (k, v) ∈ t.array.filterMap id := livePairs_mem.mpr ⟨j, hj⟩
  rw [hw.cnt]
  exact List.length_pos.mpr (List.ne_nil_of_mem hm)

/-- The specification of the resize of the primitive when the size
sequence still has a next capacity with enough room: the geometry moves
to the next capacity and the stored pairs are untouched. -/
theorem LPT_resize_spec {V : Type} {t : LinearProbeTable V} (hw : WfSub t)
    (hroom : t.count ≤ t.sizes.getD (t.sizeIndex + 1) 0 / 2)
    (hidxlt : t.sizeIndex + 1 < t.sizes.length) :
    WfSub t.resize ∧ t.resize.count = t.count ∧ t.resize.sizes = t.sizes ∧
    t.resize.sizeIndex = t.sizeIndex + 1 ∧
    t.resize.array.length = t.sizes.getD (t.sizeIndex + 1) 0 ∧
    (∀ k v, SubHas t.resize k v ↔ SubHas t k v) := by
  unfold LinearProbeTable.resize
  rw [if_neg (by omega)]
  have hwFresh : WfSub ({ t with
      sizeIndex := t.sizeIndex + 1
      array := List.replicate (t.sizes.getD (t.sizeIndex + 1) 0) none
      count := 0 } : LinearProbeTable V) := by
    refine ⟨?_, ?_, ?_, ?_, hidxlt, hw.good⟩
    · show 0 < (List.replicate _ _).length
      rw [List.length_replicate]
      exact hw.good.pos (t.sizeIndex + 1) hidxlt
    · intro j k0 v0 hj
      rw [show ({ t with
          sizeIndex := t.sizeIndex + 1
          array := List.replicate (t.sizes.getD (t.sizeIndex + 1) 0) none
          count := 0 } : LinearProbeTable V).array =
        List.replicate (t.sizes.getD (t.sizeIndex + 1) 0) none from rfl,
        getD_replicate] at hj
      exact Option.noConfusion hj
    · show (0 : Nat) = _
      rw [show ({ t with
          sizeIndex := t.sizeIndex + 1
          array := List.replicate (t.sizes.getD (t.sizeIndex + 1) 0) none
          count := 0 } : LinearProbeTable V).array =
        List.replicate (t.sizes.getD (t.sizeIndex + 1) 0) none from rfl,
        filterMap_id_replicate_none]
      rfl
    · show (List.replicate _ _).length = _
      rw [List.length_replicate]
  have hnodup : ((livePairs t.array).map Prod.fst).Nodup :=
    nodup_keys_of_slot_inj t.array
      (fun _ _ _ _ _ h1 h2 => (hw.sub_slot_inj h1 h2).1)
  have habs : ∀ pr ∈ livePairs t.array, ∀ v0,
      ¬ SubHas ({ t with
        sizeIndex := t.sizeIndex + 1
        array := List.replicate (t.sizes.getD (t.sizeIndex + 1) 0) none
        count := 0 } : LinearProbeTable V) pr.1 v0 := by
    intro pr _ v0 ⟨j, hj⟩
    rw [show ({ t with
        sizeIndex := t.sizeIndex + 1
        array := List.replicate (t.sizes.getD (t.sizeIndex + 1) 0) none
        count := 0 } : LinearProbeTable V).array =
      List.replicate (t.sizes.getD (t.sizeIndex + 1) 0) none from rfl,
      getD_replicate] at hj
    exact Option.noConfusion hj
  have hlelen : (livePairs t.array).length = t.count := by
    rw [hw.cnt]; rfl
  have hroom2 : ({ t with
      sizeIndex := t.sizeIndex + 1
      array := List.replicate (t.sizes.getD (t.sizeIndex + 1) 0) none
      count := 0 } : LinearProbeTable V).count + (livePairs t.array).length ≤
      ({ t with
      sizeIndex := t.sizeIndex + 1
      array := List.replicate (t.sizes.getD (t.sizeIndex + 1) 0) none
      count := 0 } : LinearProbeTable V).array.length / 2 := by
    show 0 + (livePairs t.array).length ≤ (List.replicate _ _).length / 2
    rw [List.length_replicate, hlelen]
    omega
  obtain ⟨hwF, hcntF, hszF, hidxF, hlenF, hiffF⟩ :=
    insRaw_fold (livePairs t.array) _ hwFresh hnodup habs hroom2
  refine ⟨hwF, ?_, hszF, hidxF, ?_, ?_⟩
  · rw [hcntF]
    show 0 + _ = _
    rw [hlelen]
    omega
  · rw [hlenF]
    show (List.replicate _ _).length = _
    rw [List.length_replicate]
  · intro k0 v0
    rw [hiffF k0 v0]
    constructor
    · rintro (hf | hmem)
      · exact absurd hf (by
          intro ⟨j, hj⟩
          rw [show ({ t with
              sizeIndex := t.sizeIndex + 1
              array := List.replicate (t.sizes.getD (t.sizeIndex + 1) 0) none
              count := 0 } : LinearProbeTable V).array =
            List.replicate (t.sizes.getD (t.sizeIndex + 1) 0) none from rfl,
            getD_replicate] at hj
          exact Option.noConfusion hj)
      · exact livePairs_mem.mp hmem
    · intro h
      exact Or.inr (livePairs_mem.mpr h)

/-- The specification of setitem of the primitive on a well-formed
table: on success the table stays well formed with at most half (or an
exhausted size sequence), the size sequence is unchanged, the table is
nonempty, and the stored pairs are the old ones with the written key
now bound to the new value. -/
theorem LPT_set_spec {V : Type} {t t2 : LinearProbeTable V} {k : Key}
    {v : V} (hw : WfSub t) (hf : HalfFree t) (hs : t.set k v = .ok t2) :
    WfSub t2 ∧ HalfFree t2 ∧ t2.sizes = t.sizes ∧ 0 < t2.count ∧
    (∀ k0 v0, SubHas t2 k0 v0 ↔
      ((k0 ≠ k ∧ SubHas t k0 v0) ∨ (k0 = k ∧ v0 = v))) := by
  unfold LinearProbeTable.set at hs
  cases hp : t.probe k true with
  | error e => rw [hp] at hs; exact absurd hs (by simp)
  | ok p =>
    rw [hp] at hs
    dsimp only at hs
    cases hslot : t.array.getD p none with
    | some pr =>
      rw [hslot] at hs
      dsimp only at hs
      have ht2 : t2 = { t with array := t.array.set p (some (k, v)) } := by
        simpa using hs.symm
      rcases probeAux_ok_insert hp with hnone | ⟨w, hww⟩
      · rw [hslot] at hnone; exact absurd hnone (by simp)
      · rw [hslot] at hww
        injection hww with hww2
        subst hww2
        obtain ⟨hw2, hiff⟩ := wfSub_overwrite_slot hw (v := v) hslot
        subst ht2
        have hhalf : HalfFree { t with array := t.array.set p (some (k, v)) } := by
          unfold HalfFree at hf ⊢
          rcases hf with hl | hr
          · left
            show t.count ≤ (t.array.set p (some (k, v))).length / 2
            rw [List.length_set]
            exact hl
          · right; exact hr
        refine ⟨hw2, hhalf, rfl, ?_, hiff⟩
        exact hw2.count_pos_of_has ((hiff k v).mpr (Or.inr ⟨rfl, rfl⟩))
    | none =>
      rw [hslot] at hs
      dsimp only at hs
      obtain ⟨hw1, habsent, hiff1⟩ := wfSub_insert_slot hw (v := v) hp hslot
      have hiff2 : ∀ k0 v0,
          SubHas { t with
            array := t.array.set p (some (k, v))
            count := t.count + 1 } k0 v0 ↔
            ((k0 ≠ k ∧ SubHas t k0 v0) ∨ (k0 = k ∧ v0 = v)) := by
        intro k0 v0
        rw [hiff1 k0 v0]
        constructor
        · rintro (hold | hnew)
          · exact Or.inl ⟨fun he => habsent v0 (he ▸ hold), hold⟩
          · exact Or.inr hnew
        · rintro (⟨_, hold⟩ | hnew)
          · exact Or.inl hold
          · exact Or.inr hnew
      split at hs
      case isTrue htr =>
        have ht2 : t2 = LinearProbeTable.resize { t with
            array := t.array.set p (some (k, v))
            count := t.count + 1 } := by
          simpa using hs.symm
        by_cases hex : t.sizes.length ≤ t.sizeIndex + 1
        · have hres : LinearProbeTable.resize ({ t with
              array := t.array.set p (some (k, v))
              count := t.count + 1 } : LinearProbeTable V) = { t with
              array := t.array.set p (some (k, v))
              count := t.count + 1 } := by
            unfold LinearProbeTable.resize
            rw [if_pos (by simpa using hex)]
          rw [hres] at ht2
          subst ht2
          exact ⟨hw1, Or.inr (by simpa using hex), rfl,
            Nat.succ_pos t.count, hiff2⟩
        · have hidxlt : t.sizeIndex + 1 < t.sizes.length := by omega
          have hfleft : t.count ≤ t.array.length / 2 := by
            rcases hf with hl | hr
            · exact hl
            · omega
          have hn2 : t.array.length + 2 ≤ t.sizes.getD (t.sizeIndex + 1) 0 := by
            have h6 := hw.good.2 t.sizeIndex hidxlt
            rw [← hw.lenIdx] at h6
            exact h6
          have hroom : ({ t with
              array := t.array.set p (some (k, v))
              count := t.count + 1 } : LinearProbeTable V).count ≤
              ({ t with
              array := t.array.set p (some (k, v))
              count := t.count + 1 } : LinearProbeTable V).sizes.getD
                (({ t with
                  array := t.array.set p (some (k, v))
                  count := t.count + 1 } : LinearProbeTable V).sizeIndex + 1)
                0 / 2 := by
            show t.count + 1 ≤ t.sizes.getD (t.sizeIndex + 1) 0 / 2
            omega
          obtain ⟨hwR, hcntR, hszR, hidxR, hlenR, hiffR⟩ :=
            LPT_resize_spec hw1 hroom hidxlt
          subst ht2
          refine ⟨hwR, Or.inl ?_, hszR, ?_, ?_⟩
          · rw [hcntR, hlenR]
            show t.count + 1 ≤ t.sizes.getD (t.sizeIndex + 1) 0 / 2
            omega
          · rw [hcntR]
            exact Nat.succ_pos t.count
          · intro k0 v0
            rw [hiffR k0 v0]
            exact hiff2 k0 v0
      case isFalse htr =>
        have ht2 : t2 = { t with
            array := t.array.set p (some (k, v))
            count := t.count + 1 } := by
          simpa using hs.symm
        subst ht2
        refine ⟨hw1, Or.inl ?_, rfl, Nat.succ_pos t.count, hiff2⟩
        show t.count + 1 ≤ (t.array.set p (some (k, v))).length / 2
        rw [List.length_set]
        have : ¬ t.count + 1 > (t.array.set p (some (k, v))).length / 2 := htr
        rw [List.length_set] at this
        omega

end Spec2Proof
namespace Spec2Proof

/-! ## Well-formed two-level tables -/

/-- The top keys of a slot array. -/
def topKeysOf {V : Type} (a : List (Option (Key × LinearProbeTable V))) :
    List Key :=
  a.filterMap (fun o => o.map Prod.fst)

/-- Invariant of a well-formed two-level table: positive top capacity,
every stored top key found by the pure probe walk at its own slot,
count in step with the occupied slots, geometry in step with good size
sequences, occupancy at most half (unless the sequence is exhausted),
and every stored sub-table well formed, nonempty, and itself within its
own occupancy bound. -/
structure WfTop {V : Type} (st : DoubleKeyTable V) : Prop where
  hlen : 0 < st.array.length
  foundTop : ∀ j (k : Key) (sub : LinearProbeTable V),
    st.array.getD j none = some (k, sub) →
    probeAux st.array k false st.array.length
      (hashPoly st.array.length k) = .ok j
  cnt : st.count = (st.array.filterMap id).length
  lenIdx : st.sizeIndex < st.tableSizes.length →
    st.array.length = st.tableSizes.getD st.sizeIndex 0
  good : GoodSizes st.tableSizes
  goodInternal : GoodSizes st.internalSizes ∧ 0 < st.internalSizes.length
  subs : ∀ j (k : Key) (sub : LinearProbeTable V),
    st.array.getD j none = some (k, sub) →
    WfSub sub ∧ HalfFree sub ∧ 0 < sub.count

/-- Top-level occupancy at most half, or the top size sequence
exhausted. -/
def TopHalfFree {V : Type} (st : DoubleKeyTable V) : Prop :=
  st.count ≤ st.array.length / 2 ∨ st.tableSizes.length ≤ st.sizeIndex + 1

/-- The pair of keys is stored with this value: some top slot holds
key1 whose sub-table stores (key2, value). -/
def ContainsP {V : Type} (st : DoubleKeyTable V) (k1 k2 : Key) (v : V) :
    Prop :=
  ∃ j sub, st.array.getD j none = some (k1, sub) ∧ SubHas sub k2 v

theorem WfTop.slot_inj {V : Type} {st : DoubleKeyTable V} (hw : WfTop st)
    {j1 j2 : Nat} {k : Key} {s1 s2 : LinearProbeTable V}
    (h1 : st.array.getD j1 none = some (k, s1))
    (h2 : st.array.getD j2 none = some (k, s2)) : j1 = j2 ∧ s1 = s2 := by
  have e1 := hw.foundTop j1 k s1 h1
  have e2 := hw.foundTop j2 k s2 h2
  rw [e1] at e2
  have hj : j1 = j2 := by simpa using e2
  subst hj
  rw [h1] at h2
  injection h2 with h3
  injection h3 with _ hv
  exact ⟨rfl, hv⟩

/-- Correspondence of the stateful top probe with the pure walk, in
lookup mode: if the walk finds the slot of key1 and the sub-table probe
answers for key2, linear_probe answers with the untouched state. -/
theorem probeTop_lookup_ok {V : Type} {st : DoubleKeyTable V}
    {k1 k2 : Key} {j p2 : Nat} {sub : LinearProbeTable V} :
    ∀ {steps pos : Nat},
      probeAux st.array k1 false steps pos = .ok j →
      st.array.getD j none = some (k1, sub) →
      sub.probe k2 false = .ok p2 →
      probeTop k1 k2 false steps st pos = .ok (st, j, p2) := by
  intro steps
  induction steps with
  | zero => intro pos h _ _; exact absurd h (by simp [probeAux])
  | succ s ih =>
    intro pos h hj hsub
    unfold probeAux at h
    unfold probeTop
    cases hslot : st.array.getD pos none with
    | none => rw [hslot] at h; simp at h
    | some pr =>
      obtain ⟨k0, sub0⟩ := pr
      rw [hslot] at h
      dsimp only at h ⊢
      by_cases hk : k0 = k1
      · rw [if_pos hk] at h
        rw [if_pos hk]
        have hpj : pos = j := by simpa using h
        subst hpj
        rw [hslot] at hj
        injection hj with hj2
        injection hj2 with _ hsubeq
        rw [hsubeq, hsub]
      · rw [if_neg hk] at h
        rw [if_neg hk]
        exact ih h hj hsub

/-- Correspondence of the stateful top probe with the pure walk, in
insert mode landing on the existing slot of key1. -/
theorem probeTop_insert_ok_existing {V : Type} {st : DoubleKeyTable V}
    {k1 k2 : Key} {j p2 : Nat} {sub : LinearProbeTable V} :
    ∀ {steps pos : Nat},
      probeAux st.array k1 true steps pos = .ok j →
      st.array.getD j none = some (k1, sub) →
      sub.probe k2 true = .ok p2 →
      probeTop k1 k2 true steps st pos = .ok (st, j, p2) := by
  intro steps
  induction steps with
  | zero => intro pos h _ _; exact absurd h (by simp [probeAux])
  | succ s ih =>
    intro pos h hj hsub
    unfold probeAux at h
    unfold probeTop
    cases hslot : st.array.getD pos none with
    | none =>
      rw [hslot] at h
      dsimp only at h ⊢
      have hpj : pos = j := by simpa using h
      subst hpj
      rw [hslot] at hj
      exact absurd hj (by simp)
    | some pr =>
      obtain ⟨k0, sub0⟩ := pr
      rw [hslot] at h
      dsimp only at h ⊢
      by_cases hk : k0 = k1
      · rw [if_pos hk] at h
        rw [if_pos hk]
        have hpj : pos = j := by simpa using h
        subst hpj
        rw [hslot] at hj
        injection hj with hj2
        injection hj2 with _ hsubeq
        rw [hsubeq, hsub]
      · rw [if_neg hk] at h
        rw [if_neg hk]
        exact ih h hj hsub

/-- Correspondence of the stateful top probe with the pure walk, in
insert mode landing on an empty slot: the state receives a fresh
sub-table there and count grows. -/
theorem probeTop_insert_ok_empty {V : Type} {st : DoubleKeyTable V}
    {k1 k2 : Key} {j p2 : Nat} :
    ∀ {steps pos : Nat},
      probeAux st.array k1 true steps pos = .ok j →
      st.array.getD j none = none →
      (mkLPT V st.internalSizes).probe k2 true = .ok p2 →
      probeTop k1 k2 true steps st pos =
        .ok ({ st with
          array := st.array.set j (some (k1, mkLPT V st.internalSizes))
          count := st.count + 1 }, j, p2) := by
  intro steps
  induction steps with
  | zero => intro pos h _ _; exact absurd h (by simp [probeAux])
  | succ s ih =>
    intro pos h hj hfresh
    unfold probeAux at h
    unfold probeTop
    cases hslot : st.array.getD pos none with
    | none =>
      rw [hslot] at h
      dsimp only at h ⊢
      have hpj : pos = j := by simpa using h
      subst hpj
      rw [hfresh]
      rfl
    | some pr =>
      obtain ⟨k0, sub0⟩ := pr
      rw [hslot] at h
      dsimp only at h ⊢
      by_cases hk : k0 = k1
      · rw [if_pos hk] at h
        have hpj : pos = j := by simpa using h
        subst hpj
        rw [hslot] at hj
        exact Option.noConfusion hj
      · rw [if_neg hk] at h
        rw [if_neg hk]
        exact ih h hj hfresh

/-- Inversion of a successful stateful top probe in insert mode: it is
one of the two correspondence shapes. -/
theorem probeTop_insert_inv {V : Type} {st : DoubleKeyTable V}
    {k1 k2 : Key} {r : DoubleKeyTable V × Nat × Nat} :
    ∀ {steps pos : Nat},
      probeTop k1 k2 true steps st pos = .ok r →
      (∃ j sub p2, st.array.getD j none = some (k1, sub) ∧
        probeAux st.array k1 true steps pos = .ok j ∧
        sub.probe k2 true = .ok p2 ∧ r = (st, j, p2)) ∨
      (∃ j p2, st.array.getD j none = none ∧
        probeAux st.array k1 true steps pos = .ok j ∧
        (mkLPT V st.internalSizes).probe k2 true = .ok p2 ∧
        r = ({ st with
          array := st.array.set j (some (k1, mkLPT V st.internalSizes))
          count := st.count + 1 }, j, p2)) := by
  intro steps
  induction steps with
  | zero => intro pos h; exact absurd h (by simp [probeTop])
  | succ s ih =>
    intro pos h
    unfold probeTop at h
    cases hslot : st.array.getD pos none with
    | none =>
      rw [hslot] at h
      dsimp only at h
      cases hfr : (mkLPT V st.internalSizes).probe k2 true with
      | error e => rw [hfr] at h; simp at h
      | ok p2 =>
        rw [hfr] at h
        dsimp only at h
        injection h with h4
        have hpa : probeAux st.array k1 true (s + 1) pos = .ok pos := by
          unfold probeAux
          rw [hslot]
          rfl
        refine Or.inr ⟨pos, p2, ?_, ?_, ?_, ?_⟩
        · exact hslot
        · exact hpa
        · rfl
        · exact h4.symm
    | some pr =>
      obtain ⟨k0, sub0⟩ := pr
      rw [hslot] at h
      dsimp only at h
      by_cases hk : k0 = k1
      · rw [if_pos hk] at h
        cases hsp : sub0.probe k2 true with
        | error e => rw [hsp] at h; simp at h
        | ok p2 =>
          rw [hsp] at h
          dsimp only at h
          injection h with h4
          have hpa : probeAux st.array k1 true (s + 1) pos = .ok pos := by
            unfold probeAux
            rw [hslot]
            dsimp only
            rw [if_pos hk]
          exact Or.inl ⟨pos, sub0, p2, hk ▸ hslot, hpa, hsp, h4.symm⟩
      · rw [if_neg hk] at h
        rcases ih h with ⟨j, sub, p2, h1, h2, h3, h4⟩ | ⟨j, p2, h1, h2, h3, h4⟩
        · refine Or.inl ⟨j, sub, p2, h1, ?_, h3, h4⟩
          unfold probeAux
          rw [hslot]
          dsimp only
          rw [if_neg hk]
          exact h2
        · refine Or.inr ⟨j, p2, h1, ?_, h3, h4⟩
          unfold probeAux
          rw [hslot]
          dsimp only
          rw [if_neg hk]
          exact h2

/-- getitem of the two-level table returns the stored value of any
stored pair. -/
theorem WfTop.get_eq {V : Type} {st : DoubleKeyTable V} (hw : WfTop st)
    {k1 k2 : Key} {v : V} (hc : ContainsP st k1 k2 v) :
    st.getPair k1 k2 = .ok v := by
  obtain ⟨j, sub, hj, hhas⟩ := hc
  obtain ⟨hwsub, _, _⟩ := hw.subs j k1 sub hj
  obtain ⟨p2, hp2⟩ := hhas
  have hsubprobe : sub.probe k2 false = .ok p2 := hwsub.found p2 k2 v hp2
  have hcorr : probeTop k1 k2 false st.array.length st
      (hashPoly st.array.length k1) = .ok (st, j, p2) :=
    probeTop_lookup_ok (hw.foundTop j k1 sub hj) hj hsubprobe
  unfold DoubleKeyTable.getPair DoubleKeyTable.linear_probe DoubleKeyTable.hash1
  rw [hcorr]
  dsimp only
  rw [hj]
  exact hwsub.sub_get_eq hp2

end Spec2Proof
namespace Spec2Proof

/-- The top key list counts exactly the occupied slots. -/
theorem length_topKeysOf {V : Type} :
    ∀ (a : List (Option (Key × LinearProbeTable V))),
      (topKeysOf a).length = (a.filterMap id).length := by
  intro a
  induction a with
  | nil => rfl
  | cons o r ih =>
    cases o with
    | none => simpa [topKeysOf] using ih
    | some pr => simpa [topKeysOf] using ih

/-- Replacing the sub-table stored under a top key preserves the
two-level invariant; the stored pairs change only under that key, the
keys and the count not at all. -/
theorem wfTop_overwrite_slot {V : Type} {st : DoubleKeyTable V}
    (hw : WfTop st) {k1 : Key} {sub sub2 : LinearProbeTable V} {j : Nat}
    (hj : st.array.getD j none = some (k1, sub))
    (hsub2 : WfSub sub2 ∧ HalfFree sub2 ∧ 0 < sub2.count) :
    WfTop { st with array := st.array.set j (some (k1, sub2)) } ∧
    (∀ a, a ∈ topKeysOf (st.array.set j (some (k1, sub2))) ↔
      a ∈ topKeysOf st.array) ∧
    (∀ a b w,
      ContainsP { st with array := st.array.set j (some (k1, sub2)) } a b w ↔
        ((a ≠ k1 ∧ ContainsP st a b w) ∨ (a = k1 ∧ SubHas sub2 b w))) := by
  have hjlt : j < st.array.length := lt_length_of_getD_some hj
  refine ⟨⟨?_, ?_, ?_, ?_, hw.good, hw.goodInternal, ?_⟩, ?_, ?_⟩
  · simpa using hw.hlen
  · intro i k0 s0 hi
    show probeAux _ k0 false _ _ = _
    rw [List.length_set]
    by_cases hij : i = j
    · subst hij
      rw [getD_set_self hjlt] at hi
      injection hi with hi2
      injection hi2 with hk _
      subst hk
      exact probeAux_lookup_overwrite hj (hw.foundTop _ _ sub hj)
    · rw [getD_set_ne (Ne.symm hij)] at hi
      exact probeAux_lookup_overwrite hj (hw.foundTop i k0 s0 hi)
  · show st.count = _
    rw [hw.cnt]
    exact (filterMap_id_length_set_some st.array j (k1, sub) hj (k1, sub2)).symm
  · intro hidx
    show (st.array.set j (some (k1, sub2))).length = _
    rw [List.length_set]
    exact hw.lenIdx hidx
  · intro i k0 s0 hi
    by_cases hij : i = j
    · subst hij
      rw [getD_set_self hjlt] at hi
      injection hi with hi2
      injection hi2 with _ hs
      rw [← hs]
      exact hsub2
    · rw [getD_set_ne (Ne.symm hij)] at hi
      exact hw.subs i k0 s0 hi
  · intro a
    constructor
    · intro ha
      obtain ⟨i, s0, hi⟩ := slot_of_key_mem ha
      by_cases hij : i = j
      · subst hij
        rw [getD_set_self hjlt] at hi
        injection hi with hi2
        injection hi2 with hk _
        subst hk
        exact key_mem_of_slot hj
      · rw [getD_set_ne (Ne.symm hij)] at hi
        exact key_mem_of_slot hi
    · intro ha
      obtain ⟨i, s0, hi⟩ := slot_of_key_mem ha
      by_cases hij : i = j
      · subst hij
        rw [hj] at hi
        injection hi with hi2
        injection hi2 with hk _
        subst hk
        exact key_mem_of_slot (getD_set_self hjlt (some (k1, sub2)) none)
      · exact key_mem_of_slot (a := st.array.set j (some (k1, sub2)))
          (by rw [getD_set_ne (Ne.symm hij)]; exact hi)
  · intro a b w
    constructor
    · intro ⟨i, s0, hi, hhas⟩
      by_cases hij : i = j
      · subst hij
        rw [getD_set_self hjlt] at hi
        injection hi with hi2
        injection hi2 with hk hs
        subst hk
        rw [hs]
        exact Or.inr ⟨rfl, hhas⟩
      · rw [getD_set_ne (Ne.symm hij)] at hi
        left
        refine ⟨?_, i, s0, hi, hhas⟩
        intro hak
        subst hak
        exact hij (hw.slot_inj hi hj).1
    · intro h
      cases h with
      | inl hold =>
        obtain ⟨hne, i, s0, hi, hhas⟩ := hold
        have hij : i ≠ j := by
          intro he
          subst he
          rw [hj] at hi
          injection hi with hi2
          injection hi2 with hk _
          exact hne hk.symm
        exact ⟨i, s0, by rw [getD_set_ne (Ne.symm hij)]; exact hi, hhas⟩
      | inr hnew =>
        obtain ⟨hak, hhas⟩ := hnew
        subst hak
        exact ⟨j, sub2, getD_set_self hjlt _ _, hhas⟩

/-- Writing a new top key with its sub-table into the empty slot found
by a successful insert walk preserves the invariant; the key was absent
and both the keys and the pairs grow by exactly the new entries. -/
theorem wfTop_insert_slot {V : Type} {st : DoubleKeyTable V}
    (hw : WfTop st) {k1 : Key} {sub2 : LinearProbeTable V} {j : Nat}
    (hp : probeAux st.array k1 true st.array.length
      (hashPoly st.array.length k1) = .ok j)
    (hemp : st.array.getD j none = none)
    (hsub2 : WfSub sub2 ∧ HalfFree sub2 ∧ 0 < sub2.count) :
    WfTop { st with
      array := st.array.set j (some (k1, sub2))
      count := st.count + 1 } ∧
    k1 ∉ topKeysOf st.array ∧
    (∀ a, a ∈ topKeysOf (st.array.set j (some (k1, sub2))) ↔
      (a ∈ topKeysOf st.array ∨ a = k1)) ∧
    (∀ a b w,
      ContainsP { st with
        array := st.array.set j (some (k1, sub2))
        count := st.count + 1 } a b w ↔
        ((a ≠ k1 ∧ ContainsP st a b w) ∨ (a = k1 ∧ SubHas sub2 b w))) := by
  have hjlt : j < st.array.length :=
    probeAux_ok_lt (hashPoly_lt hw.hlen k1) hp
  have habsent : k1 ∉ topKeysOf st.array := by
    intro hmem
    obtain ⟨i, s0, hi⟩ := slot_of_key_mem hmem
    have hfail := probeAux_insert_empty_lookup_fails hp hemp
    have hfind := hw.foundTop i k1 s0 hi
    rw [hfail] at hfind
    exact Except.noConfusion hfind
  refine ⟨⟨?_, ?_, ?_, ?_, hw.good, hw.goodInternal, ?_⟩, habsent, ?_, ?_⟩
  · simpa using hw.hlen
  · intro i k0 s0 hi
    show probeAux _ k0 false _ _ = _
    rw [List.length_set]
    by_cases hij : i = j
    · subst hij
      rw [getD_set_self hjlt] at hi
      injection hi with hi2
      injection hi2 with hk hs
      subst hk
      exact probeAux_insert_to_lookup (hashPoly_lt hw.hlen _) hemp hp
    · rw [getD_set_ne (Ne.symm hij)] at hi
      exact probeAux_lookup_fill hemp (hw.foundTop i k0 s0 hi)
  · show st.count + 1 = _
    rw [hw.cnt]
    exact (filterMap_id_length_set_none st.array j hjlt hemp (k1, sub2)).symm
  · intro hidx
    show (st.array.set j (some (k1, sub2))).length = _
    rw [List.length_set]
    exact hw.lenIdx hidx
  · intro i k0 s0 hi
    by_cases hij : i = j
    · subst hij
      rw [getD_set_self hjlt] at hi
      injection hi with hi2
      injection hi2 with _ hs
      rw [← hs]
      exact hsub2
    · rw [getD_set_ne (Ne.symm hij)] at hi
      exact hw.subs i k0 s0 hi
  · intro a
    constructor
    · intro ha
      obtain ⟨i, s0, hi⟩ := slot_of_key_mem ha
      by_cases hij : i = j
      · subst hij
        rw [getD_set_self hjlt] at hi
        injection hi with hi2
        injection hi2 with hk _
        exact Or.inr hk.symm
      · rw [getD_set_ne (Ne.symm hij)] at hi
        exact Or.inl (key_mem_of_slot hi)
    · intro ha
      cases ha with
      | inl hold =>
        obtain ⟨i, s0, hi⟩ := slot_of_key_mem hold
        have hij : i ≠ j := by
          intro he
          subst he
          rw [hemp] at hi
          exact Option.noConfusion hi
        exact key_mem_of_slot (a := st.array.set j (some (k1, sub2)))
          (by rw [getD_set_ne (Ne.symm hij)]; exact hi)
      | inr hak =>
        subst hak
        exact key_mem_of_slot (getD_set_self hjlt (some (a, sub2)) none)
  · intro a b w
    constructor
    · intro ⟨i, s0, hi, hhas⟩
      by_cases hij : i = j
      · subst hij
        rw [getD_set_self hjlt] at hi
        injection hi with hi2
        injection hi2 with hk hs
        subst hk
        rw [hs]
        exact Or.inr ⟨rfl, hhas⟩
      · rw [getD_set_ne (Ne.symm hij)] at hi
        left
        refine ⟨?_, i, s0, hi, hhas⟩
        intro hak
        subst hak
        exact habsent (key_mem_of_slot hi)
    · intro h
      cases h with
      | inl hold =>
        obtain ⟨_, i, s0, hi, hhas⟩ := hold
        have hij : i ≠ j := by
          intro he
          subst he
          rw [hemp] at hi
          exact Option.noConfusion hi
        exact ⟨i, s0, by rw [getD_set_ne (Ne.symm hij)]; exact hi, hhas⟩
      | inr hnew =>
        obtain ⟨hak, hhas⟩ := hnew
        subst hak
        exact ⟨j, sub2, getD_set_self hjlt _ _, hhas⟩

end Spec2Proof
namespace Spec2Proof

/-! ## Counting and membership helpers for the top array and oldPairs -/

theorem topKeysOf_eq_map_fst {V : Type}
    (a : List (Option (Key × LinearProbeTable V))) :
    topKeysOf a = (a.filterMap id).map Prod.fst := by
  induction a with
  | nil => rfl
  | cons o r ih =>
    cases o with
    | none => simpa [topKeysOf] using ih
    | some pr => simpa [topKeysOf] using ih

theorem topKeysOf_replicate {V : Type} (n : Nat) :
    topKeysOf (List.replicate n (none : Option (Key × LinearProbeTable V))) =
      [] := by
  rw [topKeysOf_eq_map_fst, filterMap_id_replicate_none]
  rfl

/-- A table whose array is all-empty stores no pair. -/
theorem containsP_replicate {V : Type} {st : DoubleKeyTable V} {n : Nat}
    (h : st.array = List.replicate n none) :
    ∀ a b w, ¬ ContainsP st a b (w : V) := by
  intro a b w ⟨j, sub, hj, _⟩
  rw [h, getD_replicate] at hj
  exact Option.noConfusion hj

/-- Membership in the rehash triples is storage of the pair at some top
slot. -/
theorem oldPairs_mem {V : Type} {a0 b : Key} {w : V} :
    ∀ {A : List (Option (Key × LinearProbeTable V))},
      (a0, b, w) ∈ oldPairs A ↔
        ∃ j sub, A.getD j none = some (a0, sub) ∧ SubHas sub b w := by
  intro A
  induction A with
  | nil =>
    constructor
    · intro h; exact absurd h (by simp [oldPairs])
    · intro ⟨j, sub, hj, _⟩
      rw [show ([] : List (Option (Key × LinearProbeTable V))).getD j none
        = none by cases j <;> rfl] at hj
      exact Option.noConfusion hj
  | cons o r ih =>
    cases o with
    | none =>
      have he : oldPairs (none :: r) = oldPairs r := rfl
      rw [he, ih]
      constructor
      · intro ⟨j, sub, hj, hs⟩
        exact ⟨j + 1, sub, (getD_cons_succ_none _ _ _).trans hj, hs⟩
      · intro ⟨j, sub, hj, hs⟩
        cases j with
        | zero =>
          rw [getD_cons_zero_none] at hj
          exact Option.noConfusion hj
        | succ j2 =>
          rw [getD_cons_succ_none] at hj
          exact ⟨j2, sub, hj, hs⟩
    | some pr =>
      obtain ⟨k1, sub1⟩ := pr
      have he : oldPairs (some (k1, sub1) :: r) =
          sub1.array.filterMap
            (fun q => q.map (fun pr2 => (k1, pr2.1, pr2.2)))
            ++ oldPairs r := rfl
      rw [he, List.mem_append, ih]
      constructor
      · intro h
        cases h with
        | inl hc =>
          obtain ⟨q, hq, he2⟩ := List.mem_filterMap.mp hc
          cases q with
          | none => exact absurd he2 (by simp)
          | some pr2 =>
            obtain ⟨b2, w2⟩ := pr2
            have h3 : k1 = a0 ∧ b2 = b ∧ w2 = w := by
              simpa using he2
            obtain ⟨hk, hb, hw⟩ := h3
            subst hk; subst hb; subst hw
            refine ⟨0, sub1, getD_cons_zero_none _ _, ?_⟩
            exact ⟨_, (getD_some_of_mem hq).choose_spec⟩
        | inr hr =>
          obtain ⟨j, sub, hj, hs⟩ := hr
          exact ⟨j + 1, sub, (getD_cons_succ_none _ _ _).trans hj, hs⟩
      · intro ⟨j, sub, hj, hs⟩
        cases j with
        | zero =>
          rw [getD_cons_zero_none] at hj
          injection hj with hj2
          injection hj2 with hk hsub
          subst hk
          left
          obtain ⟨i, hi⟩ := hs
          rw [← hsub] at hi
          exact List.mem_filterMap.mpr ⟨some (b, w), mem_of_getD_some hi, rfl⟩
        | succ j2 =>
          rw [getD_cons_succ_none] at hj
          exact Or.inr ⟨j2, sub, hj, hs⟩

/-- Each top key with a nonempty sub-table shows up among the key1s of
the rehash triples, and conversely. -/
theorem oldPairs_keyfst_mem {V : Type}
    {A : List (Option (Key × LinearProbeTable V))}
    (hsubs : ∀ j (k : Key) (sub : LinearProbeTable V),
      A.getD j none = some (k, sub) → WfSub sub ∧ 0 < sub.count) :
    ∀ a0, a0 ∈ (oldPairs A).map (fun tr => tr.1) ↔ a0 ∈ topKeysOf A := by
  intro a0
  constructor
  · intro h
    obtain ⟨tr, htr, he⟩ := List.mem_map.mp h
    obtain ⟨a1, b1, w1⟩ := tr
    obtain ⟨j, sub, hj, _⟩ := oldPairs_mem.mp htr
    rw [← he]
    exact key_mem_of_slot hj
  · intro h
    obtain ⟨j, sub, hj⟩ := slot_of_key_mem h
    obtain ⟨hw, hc⟩ := hsubs j a0 sub hj
    have hne : sub.array.filterMap id ≠ [] := by
      intro hnil
      rw [hw.cnt, hnil] at hc
      exact Nat.lt_irrefl 0 hc
    obtain ⟨pr, hpr⟩ := List.exists_mem_of_ne_nil _ hne
    obtain ⟨i, hi⟩ := livePairs_mem.mp hpr
    exact List.mem_map.mpr
      ⟨(a0, pr.1, pr.2), oldPairs_mem.mpr ⟨j, sub, hj, i, hi⟩, rfl⟩

/-- The per-slot chunk of the rehash triples, projected onto its key
pairs, is the sub-table key list tagged with the top key. -/
theorem chunk_map_proj {V : Type} (k1 : Key) :
    ∀ (arr : List (Option (Key × V))),
      (arr.filterMap (fun q => q.map (fun pr => (k1, pr.1, pr.2)))).map
          (fun tr : Key × Key × V => (tr.1, tr.2.1)) =
        ((arr.filterMap id).map Prod.fst).map (fun b => (k1, b)) := by
  intro arr
  induction arr with
  | nil => rfl
  | cons q t ih =>
    cases q with
    | none => simpa using ih
    | some pr => simpa using ih

/-- Distinct top slots carrying distinct keys and well-formed
sub-tables make the (key1, key2) projections of the rehash triples
duplicate-free. -/
theorem oldPairs_keyPairs_nodup {V : Type} :
    ∀ (A : List (Option (Key × LinearProbeTable V))),
      (∀ j1 j2 (k : Key) s1 s2, A.getD j1 none = some (k, s1) →
        A.getD j2 none = some (k, s2) → j1 = j2) →
      (∀ j (k : Key) (sub : LinearProbeTable V),
        A.getD j none = some (k, sub) → WfSub sub) →
      ((oldPairs A).map (fun tr => (tr.1, tr.2.1))).Nodup := by
  intro A
  induction A with
  | nil => intro _ _; simp [oldPairs]
  | cons o r ih =>
    intro hinj hsubs
    have hinjr : ∀ j1 j2 (k : Key) s1 s2, r.getD j1 none = some (k, s1) →
        r.getD j2 none = some (k, s2) → j1 = j2 := by
      intro j1 j2 k s1 s2 h1 h2
      have := hinj (j1 + 1) (j2 + 1) k s1 s2
        ((getD_cons_succ_none _ _ _).trans h1)
        ((getD_cons_succ_none _ _ _).trans h2)
      omega
    have hsubsr : ∀ j (k : Key) (sub : LinearProbeTable V),
        r.getD j none = some (k, sub) → WfSub sub := by
      intro j k sub h
      exact hsubs (j + 1) k sub ((getD_cons_succ_none _ _ _).trans h)
    cases o with
    | none =>
      have he : oldPairs (none :: r) = oldPairs r := rfl
      rw [he]
      exact ih hinjr hsubsr
    | some pr =>
      obtain ⟨k1, sub1⟩ := pr
      have he : oldPairs (some (k1, sub1) :: r) =
          sub1.array.filterMap
            (fun q => q.map (fun pr2 => (k1, pr2.1, pr2.2)))
            ++ oldPairs r := rfl
      rw [he, List.map_append, chunk_map_proj]
      have hw1 : WfSub sub1 := hsubs 0 k1 sub1 (getD_cons_zero_none _ _)
      have hd1 : (((sub1.array.filterMap id).map Prod.fst).map
          (fun b => (k1, b))).Nodup := by
        refine List.Nodup.map ?_ ?_
        · intro b1 b2 hb
          injection hb
        · exact nodup_keys_of_slot_inj sub1.array
            (fun i1 i2 k v1 v2 h1 h2 => (hw1.sub_slot_inj h1 h2).1)
      refine List.Nodup.append hd1 (ih hinjr hsubsr) ?_
      intro x hx hx2
      obtain ⟨b, _, hxe⟩ := List.mem_map.mp hx
      obtain ⟨tr, htr, hxe2⟩ := List.mem_map.mp hx2
      obtain ⟨a1, b1, w1⟩ := tr
      obtain ⟨j, sub, hj, _⟩ := oldPairs_mem.mp htr
      have ha1 : a1 = k1 := by
        rw [← hxe] at hxe2
        exact congrArg Prod.fst hxe2
      subst ha1
      have := hinj (j + 1) 0 a1 sub sub1
        ((getD_cons_succ_none _ _ _).trans hj) (getD_cons_zero_none _ _)
      omega

/-- The counting step of the reinsertion loop: handling the head key
consumes one unit of the budget exactly when the key is fresh. -/
theorem card_step (T R : Finset Key) (k1 : Key) :
    (if k1 ∈ T then 0 else 1) + (R \ insert k1 T).card ≤
      (insert k1 R \ T).card := by
  by_cases h : k1 ∈ T
  · rw [if_pos h]
    have h1 : insert k1 T = T := Finset.insert_eq_self.mpr h
    rw [h1]
    have h2 : R \ T ⊆ insert k1 R \ T :=
      Finset.sdiff_subset_sdiff (Finset.subset_insert _ _) (le_refl _)
    have := Finset.card_le_card h2
    omega
  · rw [if_neg h]
    have h1 : insert k1 R \ T = insert k1 (R \ T) :=
      Finset.insert_sdiff_of_not_mem _ h
    have h2 : R \ insert k1 T = (R \ T).erase k1 := by
      ext x
      simp only [Finset.mem_sdiff, Finset.mem_insert, Finset.mem_erase]
      tauto
    rw [h1, h2]
    by_cases hm : k1 ∈ R \ T
    · have h3 : insert k1 (R \ T) = R \ T := Finset.insert_eq_self.mpr hm
      rw [h3, Finset.card_erase_of_mem hm]
      have : 0 < (R \ T).card := Finset.card_pos.mpr ⟨k1, hm⟩
      omega
    · rw [Finset.card_insert_of_not_mem hm, Finset.erase_eq_of_not_mem hm]
      omega

theorem toFinset_eq_of_mem_iff {l1 l2 : List Key}
    (h : ∀ a, a ∈ l1 ↔ a ∈ l2) : l1.toFinset = l2.toFinset := by
  ext x
  simp only [List.mem_toFinset]
  exact h x

theorem length_eq_of_nodup_mem_iff {l1 l2 : List Key} (h1 : l1.Nodup)
    (h2 : l2.Nodup) (h : ∀ a, a ∈ l1 ↔ a ∈ l2) : l1.length = l2.length := by
  rw [← List.toFinset_card_of_nodup h1, ← List.toFinset_card_of_nodup h2,
    toFinset_eq_of_mem_iff h]

theorem WfTop.topKeys_nodup {V : Type} {st : DoubleKeyTable V}
    (hw : WfTop st) : (topKeysOf st.array).Nodup := by
  rw [topKeysOf_eq_map_fst]
  exact nodup_keys_of_slot_inj _
    (fun j1 j2 k s1 s2 h1 h2 => (hw.slot_inj h1 h2).1)

theorem WfTop.count_eq_topKeys_length {V : Type} {st : DoubleKeyTable V}
    (hw : WfTop st) : st.count = (topKeysOf st.array).length := by
  rw [hw.cnt, length_topKeysOf]

/-- A fresh all-empty top array over good size sequences is well
formed. -/
theorem wfTop_fresh {V : Type} {ts is2 : List Nat} {i n : Nat}
    (hg : GoodSizes ts) (hgi : GoodSizes is2 ∧ 0 < is2.length)
    (hi : i < ts.length) (hn : n = ts.getD i 0) :
    WfTop (DoubleKeyTable.mk (V := V) ts is2 i (List.replicate n none) 0) := by
  refine ⟨?_, ?_, ?_, ?_, hg, hgi, ?_⟩
  · show 0 < (List.replicate (α := Option (Key × LinearProbeTable V)) n none).length
    rw [List.length_replicate, hn]
    exact hg.pos i hi
  · intro j k sub hj
    rw [show (DoubleKeyTable.mk (V := V) ts is2 i
      (List.replicate n none) 0).array = List.replicate n none from rfl,
      getD_replicate] at hj
    exact Option.noConfusion hj
  · show (0 : Nat) =
      ((List.replicate (α := Option (Key × LinearProbeTable V)) n
        none).filterMap id).length
    rw [filterMap_id_replicate_none]
    rfl
  · intro _
    show (List.replicate (α := Option (Key × LinearProbeTable V))
      n none).length = ts.getD i 0
    rw [List.length_replicate, hn]
  · intro j k sub hj
    rw [show (DoubleKeyTable.mk (V := V) ts is2 i
      (List.replicate n none) 0).array = List.replicate n none from rfl,
      getD_replicate] at hj
    exact Option.noConfusion hj

/-- A freshly initialised two-level table is well formed, within its
occupancy bound, and stores no top key. -/
theorem wfTop_init {V : Type} {sizes internal : Option (List Nat)}
    (hg : GoodSizes (sizes.getD TABLE_SIZES_default))
    (hlen : 0 < (sizes.getD TABLE_SIZES_default).length)
    (hgi : GoodSizes (internal.getD (sizes.getD TABLE_SIZES_default)) ∧
      0 < (internal.getD (sizes.getD TABLE_SIZES_default)).length) :
    WfTop (DoubleKeyTable.init V sizes internal) ∧
    TopHalfFree (DoubleKeyTable.init V sizes internal) ∧
    topKeysOf (DoubleKeyTable.init V sizes internal).array = [] := by
  refine ⟨?_, ?_, ?_⟩
  · exact wfTop_fresh hg hgi hlen rfl
  · left
    show 0 ≤ _
    exact Nat.zero_le _
  · exact topKeysOf_replicate _

end Spec2Proof
namespace Spec2Proof

/-- The increment setitem applies to count: nothing for a stored top
key, one for a fresh one. -/
def bumpOf {V : Type} (st : DoubleKeyTable V) (k1 : Key) : Nat :=
  if k1 ∈ topKeysOf st.array then 0 else 1

theorem bumpOf_eq_zero {V : Type} {st : DoubleKeyTable V} {k1 : Key}
    (h : k1 ∈ topKeysOf st.array) : bumpOf st k1 = 0 := by
  unfold bumpOf
  rw [if_pos h]

theorem bumpOf_eq_one {V : Type} {st : DoubleKeyTable V} {k1 : Key}
    (h : k1 ∉ topKeysOf st.array) : bumpOf st k1 = 1 := by
  unfold bumpOf
  rw [if_neg h]

/-- Advancing the size index past an exhausted size sequence keeps the
table well formed (the geometry clause holds vacuously). -/
theorem wfTop_bumpIdx {V : Type} {st : DoubleKeyTable V} (hw : WfTop st)
    (hex : st.tableSizes.length ≤ st.sizeIndex + 1) :
    WfTop { st with sizeIndex := st.sizeIndex + 1 } := by
  refine ⟨hw.hlen, hw.foundTop, hw.cnt, ?_, hw.good, hw.goodInternal,
    hw.subs⟩
  intro hidx
  have : st.sizeIndex + 1 < st.tableSizes.length := hidx
  omega

/-- The pairs stored under a stored top key are the pairs of its
sub-table. -/
theorem containsP_at_slot {V : Type} {st : DoubleKeyTable V}
    (hw : WfTop st) {k1 : Key} {sub : LinearProbeTable V} {j : Nat}
    (hslot : st.array.getD j none = some (k1, sub)) :
    ∀ b w, ContainsP st k1 b w ↔ SubHas sub b w := by
  intro b w
  constructor
  · intro ⟨j2, sub2, hj2, hs⟩
    have h := hw.slot_inj hj2 hslot
    rw [← h.2]
    exact hs
  · intro hs
    exact ⟨j, sub, hslot, hs⟩

/-- Massaging the pair characterisation after overwriting the
sub-table of a stored top key with its setitem result. -/
theorem containsP_overwrite_pair_iff {V : Type} {st stA : DoubleKeyTable V}
    (hw : WfTop st) {k1 k2 : Key} {v : V} {sub sub2 : LinearProbeTable V}
    {j : Nat} (hslot : st.array.getD j none = some (k1, sub))
    (hsubiff : ∀ k0 v0, SubHas sub2 k0 v0 ↔
      ((k0 ≠ k2 ∧ SubHas sub k0 v0) ∨ (k0 = k2 ∧ v0 = v)))
    (hC : ∀ a b w, ContainsP stA a b w ↔
      ((a ≠ k1 ∧ ContainsP st a b w) ∨ (a = k1 ∧ SubHas sub2 b w))) :
    ∀ a b w, ContainsP stA a b w ↔
      ((¬(a = k1 ∧ b = k2) ∧ ContainsP st a b w) ∨
        (a = k1 ∧ b = k2 ∧ w = v)) := by
  intro a b w
  rw [hC a b w, hsubiff b w]
  by_cases ha : a = k1
  · subst ha
    have hbr := containsP_at_slot hw hslot b w
    constructor
    · rintro (⟨hne, _⟩ | ⟨_, hbw | ⟨hb, hww⟩⟩)
      · exact absurd rfl hne
      · exact Or.inl ⟨fun hx => hbw.1 hx.2, hbr.mpr hbw.2⟩
      · exact Or.inr ⟨rfl, hb, hww⟩
    · rintro (⟨hne, hc⟩ | ⟨_, hb, hww⟩)
      · exact Or.inr ⟨rfl, Or.inl ⟨fun hb => hne ⟨rfl, hb⟩, hbr.mp hc⟩⟩
      · exact Or.inr ⟨rfl, Or.inr ⟨hb, hww⟩⟩
  · constructor
    · rintro (⟨_, hc⟩ | ⟨hak, _⟩)
      · exact Or.inl ⟨fun hx => ha hx.1, hc⟩
      · exact absurd hak ha
    · rintro (⟨_, hc⟩ | ⟨hak, _⟩)
      · exact Or.inl ⟨ha, hc⟩
      · exact absurd hak ha

/-- Massaging the pair characterisation after inserting a fresh top
key whose sub-table stores exactly the one written pair. -/
theorem containsP_insert_pair_iff {V : Type} {st stA : DoubleKeyTable V}
    {k1 k2 : Key} {v : V} {sub2 : LinearProbeTable V}
    (habsent : k1 ∉ topKeysOf st.array)
    (hsubiff : ∀ k0 v0, SubHas sub2 k0 v0 ↔ (k0 = k2 ∧ v0 = v))
    (hC : ∀ a b w, ContainsP stA a b w ↔
      ((a ≠ k1 ∧ ContainsP st a b w) ∨ (a = k1 ∧ SubHas sub2 b w))) :
    ∀ a b w, ContainsP stA a b w ↔
      ((¬(a = k1 ∧ b = k2) ∧ ContainsP st a b w) ∨
        (a = k1 ∧ b = k2 ∧ w = v)) := by
  intro a b w
  rw [hC a b w, hsubiff b w]
  by_cases ha : a = k1
  · subst ha
    constructor
    · rintro (⟨hne, _⟩ | ⟨_, hb, hww⟩)
      · exact absurd rfl hne
      · exact Or.inr ⟨rfl, hb, hww⟩
    · rintro (⟨_, hc⟩ | ⟨_, hb, hww⟩)
      · obtain ⟨jx, subx, hjx, _⟩ := hc
        exact absurd (key_mem_of_slot hjx) habsent
      · exact Or.inr ⟨rfl, hb, hww⟩
  · constructor
    · rintro (⟨_, hc⟩ | ⟨hak, _⟩)
      · exact Or.inl ⟨fun hx => ha hx.1, hc⟩
      · exact absurd hak ha
    · rintro (⟨_, hc⟩ | ⟨hak, _⟩)
      · exact Or.inl ⟨ha, hc⟩
      · exact absurd hak ha

/-- A fresh sub-table with one pair written stores exactly that
pair. -/
theorem subHas_mkLPT_set_iff {V : Type} {s : List Nat} {k2 : Key} {v : V}
    {sub2 : LinearProbeTable V} (hg : GoodSizes s) (hlen : 0 < s.length)
    (hss : (mkLPT V s).set k2 v = .ok sub2) :
    WfSub sub2 ∧ HalfFree sub2 ∧ 0 < sub2.count ∧
    (∀ k0 v0, SubHas sub2 k0 v0 ↔ (k0 = k2 ∧ v0 = v)) := by
  have hwm : WfSub (mkLPT V s) := wfSub_mkLPT hg hlen
  have hfm : HalfFree (mkLPT V s) := by
    left
    show 0 ≤ _
    exact Nat.zero_le _
  obtain ⟨hw2, hf2, _, hpos, hiff⟩ := LPT_set_spec hwm hfm hss
  refine ⟨hw2, hf2, hpos, ?_⟩
  intro k0 v0
  rw [hiff k0 v0]
  constructor
  · rintro (⟨_, hs⟩ | h)
    · exact absurd hs subHas_mkLPT
    · exact h
  · intro h
    exact Or.inr h

end Spec2Proof
namespace Spec2Proof

/-- The full specification of a successful bounded setitem on a
well-formed two-level table within its occupancy bound: the invariant
and the bound are preserved, the size sequences kept, the top keys grow
by the written key1, the stored pairs are the old ones with (key1,
key2) now bound to the value, and the geometry either stays (no
trigger), bumps only the size index (trigger on an exhausted
sequence), or moves to the next configured capacity (trigger with a
next size). -/
abbrev SetSpec (V : Type) (fuel : Nat) : Prop :=
  ∀ (st : DoubleKeyTable V) (k1 k2 : Key) (v : V) (st2 : DoubleKeyTable V),
    setPair fuel st k1 k2 v = some (.ok st2) → WfTop st → TopHalfFree st →
    WfTop st2 ∧ TopHalfFree st2 ∧
    st2.tableSizes = st.tableSizes ∧ st2.internalSizes = st.internalSizes ∧
    (∀ a, a ∈ topKeysOf st2.array ↔ (a ∈ topKeysOf st.array ∨ a = k1)) ∧
    (∀ a b (w : V), ContainsP st2 a b w ↔
      ((¬(a = k1 ∧ b = k2) ∧ ContainsP st a b w) ∨
        (a = k1 ∧ b = k2 ∧ w = v))) ∧
    (st.count + bumpOf st k1 ≤ st.array.length / 2 →
      st2.sizeIndex = st.sizeIndex ∧ st2.array.length = st.array.length ∧
      st2.count = st.count + bumpOf st k1) ∧
    (st.array.length / 2 < st.count + bumpOf st k1 →
      (st.tableSizes.length ≤ st.sizeIndex + 1 →
        st2.sizeIndex = st.sizeIndex + 1 ∧
        st2.array.length = st.array.length ∧
        st2.count = st.count + bumpOf st k1) ∧
      (st.sizeIndex + 1 < st.tableSizes.length →
        st2.sizeIndex = st.sizeIndex + 1 ∧
        st2.array.length = st.tableSizes.getD (st.sizeIndex + 1) 0))

/-- The specification of a successful reinsertion run over
duplicate-free key pairs with enough spare capacity for the fresh
keys: the invariant is preserved, the geometry never moves, the top
keys grow by the key1s of the run, and the stored pairs are the old
ones overridden by the run's triples. -/
abbrev ReinsSpec (V : Type) (fuel : Nat) : Prop :=
  ∀ (st : DoubleKeyTable V) (l : List (Key × Key × V))
    (st2 : DoubleKeyTable V),
    reinsertList fuel st l = some (.ok st2) → WfTop st →
    (l.map (fun tr => (tr.1, tr.2.1))).Nodup →
    st.count + ((l.map (fun tr => tr.1)).toFinset \
      (topKeysOf st.array).toFinset).card ≤ st.array.length / 2 →
    WfTop st2 ∧
    st2.tableSizes = st.tableSizes ∧ st2.internalSizes = st.internalSizes ∧
    st2.sizeIndex = st.sizeIndex ∧ st2.array.length = st.array.length ∧
    st2.count ≤ st.array.length / 2 ∧
    (∀ a, a ∈ topKeysOf st2.array ↔
      (a ∈ topKeysOf st.array ∨ a ∈ l.map (fun tr => tr.1))) ∧
    (∀ a b (w : V), ContainsP st2 a b w ↔
      ((ContainsP st a b w ∧ (a, b) ∉ l.map (fun tr => (tr.1, tr.2.1))) ∨
        (a, b, w) ∈ l))

/-- The reinsertion conclusions for the empty run. -/
theorem reins_nil_concl {V : Type} {st : DoubleKeyTable V} (hw : WfTop st)
    (hcnt : st.count ≤ st.array.length / 2) :
    WfTop st ∧
    st.tableSizes = st.tableSizes ∧ st.internalSizes = st.internalSizes ∧
    st.sizeIndex = st.sizeIndex ∧ st.array.length = st.array.length ∧
    st.count ≤ st.array.length / 2 ∧
    (∀ a, a ∈ topKeysOf st.array ↔
      (a ∈ topKeysOf st.array ∨
        a ∈ ([] : List (Key × Key × V)).map (fun tr => tr.1))) ∧
    (∀ a b (w : V), ContainsP st a b w ↔
      ((ContainsP st a b w ∧
        (a, b) ∉ ([] : List (Key × Key × V)).map
          (fun tr => (tr.1, tr.2.1))) ∨
        (a, b, w) ∈ ([] : List (Key × Key × V)))) := by
  refine ⟨hw, rfl, rfl, rfl, rfl, hcnt, ?_, ?_⟩
  · intro a
    simp
  · intro a b w
    simp

theorem setSpec_zero {V : Type} : SetSpec V 0 := by
  intro st k1 k2 v st2 hset _ _
  exact absurd hset (by simp [setPair])

theorem reinsSpec_zero {V : Type} : ReinsSpec V 0 := by
  intro st l st2 hrun hw _ hcap
  cases l with
  | nil =>
    have h2 : some (Except.ok st : Except PErr (DoubleKeyTable V)) =
        some (.ok st2) := hrun
    injection h2 with h3
    injection h3 with h4
    subst h4
    exact reins_nil_concl hw (by omega)
  | cons hd tl =>
    have h2 : (none : Option (Except PErr (DoubleKeyTable V))) =
        some (.ok st2) := hrun
    exact Option.noConfusion h2

end Spec2Proof
namespace Spec2Proof

/-- The inductive step of the setitem specification: one more unit of
fuel, given the reinsertion specification at the previous level for
the rehash branch. -/
theorem setSpec_step {V : Type} {fuel : Nat} (ih2 : ReinsSpec V fuel) :
    SetSpec V (fuel + 1) := by
  intro st k1 k2 v st2 hset hw hhf
  unfold setPair at hset
  cases hlp : st.linear_probe k1 k2 true with
  | error e =>
    rw [hlp] at hset
    exact absurd hset (by simp)
  | ok tri =>
    obtain ⟨st1, q⟩ := tri
    obtain ⟨pos, p2⟩ := q
    rw [hlp] at hset
    dsimp only at hset
    rcases probeTop_insert_inv
        (show probeTop k1 k2 true st.array.length st (st.hash1 k1) =
          .ok (st1, pos, p2) from hlp) with
      ⟨j, sub, p2x, hslot, hpa, hsp, hr⟩ | ⟨j, p2x, hemp, hpa, hfr, hr⟩
    · -- the walk found key1 already stored at slot j
      injection hr with hr1 hr2
      injection hr2 with hr3 hr4
      have hr1s : st = st1 := hr1.symm
      have hr3s : j = pos := hr3.symm
      subst hr1s
      subst hr3s
      rw [hslot] at hset
      dsimp only at hset
      cases hss : sub.set k2 v with
      | error e =>
        rw [hss] at hset
        exact absurd hset (by simp)
      | ok sub2 =>
        rw [hss] at hset
        dsimp only at hset
        obtain ⟨hwsub, hfsub, hposc⟩ := hw.subs j k1 sub hslot
        obtain ⟨hwsub2, hfsub2, _, hpos2, hsubiff⟩ :=
          LPT_set_spec hwsub hfsub hss
        obtain ⟨hwA, hkeysA, hCA⟩ :=
          wfTop_overwrite_slot hw hslot ⟨hwsub2, hfsub2, hpos2⟩
        have hmem : k1 ∈ topKeysOf st.array := key_mem_of_slot hslot
        have hb0 : bumpOf st k1 = 0 := bumpOf_eq_zero hmem
        have hCfull := containsP_overwrite_pair_iff hw hslot hsubiff hCA
        have hkeys : ∀ a, a ∈ topKeysOf (st.array.set j (some (k1, sub2)))
            ↔ (a ∈ topKeysOf st.array ∨ a = k1) := by
          intro a
          constructor
          · intro h
            exact Or.inl ((hkeysA a).mp h)
          · intro h
            refine (hkeysA a).mpr ?_
            rcases h with h | h
            · exact h
            · rw [h]
              exact hmem
        split at hset
        case isTrue htr =>
          have htr2 : st.array.length / 2 < st.count := by
            have h2 : st.count >
                (st.array.set j (some (k1, sub2))).length / 2 := htr
            rw [List.length_set] at h2
            exact h2
          have hex : st.tableSizes.length ≤ st.sizeIndex + 1 := by
            rcases hhf with h | h
            · omega
            · exact h
          split at hset
          case isTrue hcond2 =>
            injection hset with h1
            injection h1 with h2
            subst h2
            refine ⟨?_, ?_, rfl, rfl, hkeys, hCfull, ?_, ?_⟩
            · exact wfTop_bumpIdx hwA hex
            · refine Or.inr ?_
              show st.tableSizes.length ≤ st.sizeIndex + 1 + 1
              omega
            · intro hle
              rw [hb0] at hle
              omega
            · intro _
              constructor
              · intro _
                refine ⟨rfl, ?_, ?_⟩
                · exact List.length_set ..
                · show st.count = st.count + bumpOf st k1
                  rw [hb0]
                  omega
              · intro hlt
                omega
          case isFalse hcond2 =>
            have h2 : st.sizeIndex + 1 < st.tableSizes.length := by
              have h3 : ¬ (st.sizeIndex + 1 ≥ st.tableSizes.length) := hcond2
              omega
            omega
        case isFalse htr =>
          have hnt : st.count ≤ st.array.length / 2 := by
            have h2 : ¬ (st.count >
                (st.array.set j (some (k1, sub2))).length / 2) := htr
            rw [List.length_set] at h2
            omega
          injection hset with h1
          injection h1 with h2
          subst h2
          refine ⟨hwA, ?_, rfl, rfl, hkeys, hCfull, ?_, ?_⟩
          · refine Or.inl ?_
            show st.count ≤ (st.array.set j (some (k1, sub2))).length / 2
            rw [List.length_set]
            exact hnt
          · intro _
            refine ⟨rfl, List.length_set .., ?_⟩
            show st.count = st.count + bumpOf st k1
            rw [hb0]
            omega
          · intro hlt
            rw [hb0] at hlt
            omega
    · -- the walk found an empty slot j for the fresh key1
      injection hr with hr1 hr2
      injection hr2 with hr3 hr4
      have hr3s : j = pos := hr3.symm
      subst hr3s
      have hTs : st1.tableSizes = st.tableSizes := by rw [hr1]
      have hIs : st1.internalSizes = st.internalSizes := by rw [hr1]
      have hSi : st1.sizeIndex = st.sizeIndex := by rw [hr1]
      have hAr : st1.array =
          st.array.set j (some (k1, mkLPT V st.internalSizes)) := by
        rw [hr1]
      have hCn : st1.count = st.count + 1 := by rw [hr1]
      have hjlt : j < st.array.length :=
        probeAux_ok_lt (hashPoly_lt hw.hlen k1)
          (show probeAux st.array k1 true st.array.length
            (hashPoly st.array.length k1) = .ok j from hpa)
      have heq : ((st.array.set j
          (some (k1, mkLPT V st.internalSizes))).getD j none) =
          some (k1, mkLPT V st.internalSizes) := getD_set_self hjlt _ _
      rw [hTs, hIs, hSi, hAr, hCn] at hset
      rw [heq] at hset
      dsimp only at hset
      cases hss : (mkLPT V st.internalSizes).set k2 v with
      | error e =>
        rw [hss] at hset
        exact absurd hset (by simp)
      | ok sub2 =>
        rw [hss] at hset
        dsimp only at hset
        have harr : ((st.array.set j
            (some (k1, mkLPT V st.internalSizes))).set j
            (some (k1, sub2))) = st.array.set j (some (k1, sub2)) :=
          List.set_set ..
        rw [harr] at hset
        obtain ⟨hwsub2, hfsub2, hpos2, hsubiff⟩ :=
          subHas_mkLPT_set_iff hw.goodInternal.1 hw.goodInternal.2 hss
        obtain ⟨hwB, habs, hkeysB, hCB⟩ :=
          wfTop_insert_slot hw hpa hemp ⟨hwsub2, hfsub2, hpos2⟩
        have hb1 : bumpOf st k1 = 1 := bumpOf_eq_one habs
        have hCfull := containsP_insert_pair_iff habs hsubiff hCB
        split at hset
        case isTrue htr =>
          have htr2 : st.array.length / 2 < st.count + 1 := by
            have h2 : st.count + 1 >
                (st.array.set j (some (k1, sub2))).length / 2 := htr
            rw [List.length_set] at h2
            exact h2
          split at hset
          case isTrue hcond2 =>
            have hex : st.tableSizes.length ≤ st.sizeIndex + 1 := hcond2
            injection hset with h1
            injection h1 with h2
            subst h2
            refine ⟨?_, ?_, rfl, rfl, hkeysB, hCfull, ?_, ?_⟩
            · exact wfTop_bumpIdx hwB hex
            · refine Or.inr ?_
              show st.tableSizes.length ≤ st.sizeIndex + 1 + 1
              omega
            · intro hle
              rw [hb1] at hle
              omega
            · intro _
              constructor
              · intro _
                refine ⟨rfl, ?_, ?_⟩
                · exact List.length_set ..
                · show st.count + 1 = st.count + bumpOf st k1
                  rw [hb1]
              · intro hlt
                omega
          case isFalse hcond2 =>
            have hnext : st.sizeIndex + 1 < st.tableSizes.length := by
              have h3 : ¬ (st.sizeIndex + 1 ≥ st.tableSizes.length) := hcond2
              omega
            have hcnt_le : st.count ≤ st.array.length / 2 := by
              rcases hhf with h | h
              · exact h
              · omega
            have hlenIdx : st.array.length =
                st.tableSizes.getD st.sizeIndex 0 :=
              hw.lenIdx (by omega)
            have hstep := hw.good.2 st.sizeIndex hnext
            have hroom : st.count + 1 ≤
                st.tableSizes.getD (st.sizeIndex + 1) 0 / 2 := by
              omega
            -- the rebuilt state and run characterisation
            have hinj2 : ∀ j1 j2 (k : Key) s1 s2,
                (st.array.set j (some (k1, sub2))).getD j1 none =
                  some (k, s1) →
                (st.array.set j (some (k1, sub2))).getD j2 none =
                  some (k, s2) → j1 = j2 := by
              intro j1 j2 k s1 s2 h1 h2
              exact (hwB.slot_inj h1 h2).1
            have hsubs2 : ∀ i (k : Key) (sub : LinearProbeTable V),
                (st.array.set j (some (k1, sub2))).getD i none =
                  some (k, sub) → WfSub sub ∧ 0 < sub.count := by
              intro i k sub h
              exact ⟨(hwB.subs i k sub h).1, (hwB.subs i k sub h).2.2⟩
            have hnd2 := oldPairs_keyPairs_nodup
              (st.array.set j (some (k1, sub2))) hinj2
              (fun i k sub h => (hsubs2 i k sub h).1)
            have hkeyfst := oldPairs_keyfst_mem hsubs2
            have hcard : ((oldPairs (st.array.set j
                (some (k1, sub2)))).map (fun tr => tr.1)).toFinset.card =
                st.count + 1 := by
              rw [toFinset_eq_of_mem_iff hkeyfst,
                List.toFinset_card_of_nodup hwB.topKeys_nodup]
              exact (hwB.count_eq_topKeys_length).symm
            have hwF : WfTop (DoubleKeyTable.mk (V := V) st.tableSizes
                st.internalSizes (st.sizeIndex + 1)
                (List.replicate (st.tableSizes.getD (st.sizeIndex + 1) 0)
                  none) 0) :=
              wfTop_fresh hw.good hw.goodInternal hnext rfl
            have hfrk : topKeysOf (List.replicate
                (st.tableSizes.getD (st.sizeIndex + 1) 0)
                (none : Option (Key × LinearProbeTable V))) = [] :=
              topKeysOf_replicate _
            have hcapF : (0 : Nat) + (((oldPairs (st.array.set j
                (some (k1, sub2)))).map (fun tr => tr.1)).toFinset \
                (topKeysOf (List.replicate
                  (st.tableSizes.getD (st.sizeIndex + 1) 0)
                  (none : Option (Key × LinearProbeTable V)))).toFinset).card
                ≤ (List.replicate
                  (st.tableSizes.getD (st.sizeIndex + 1) 0)
                  (none : Option (Key × LinearProbeTable V))).length / 2 := by
              rw [hfrk, List.toFinset_nil, Finset.sdiff_empty, hcard,
                List.length_replicate]
              omega
            obtain ⟨hw2, hsz1, hsz2, hsi, hlen2, hcnt2, hkeys2, hC2⟩ :=
              ih2 _ _ _ hset hwF hnd2 hcapF
            refine ⟨hw2, ?_, hsz1, hsz2, ?_, ?_, ?_, ?_⟩
            · refine Or.inl ?_
              rw [hlen2]
              exact hcnt2
            · intro a
              have h1 := hkeys2 a
              rw [hfrk] at h1
              simp only [List.not_mem_nil, false_or] at h1
              rw [hkeyfst a] at h1
              rw [h1]
              exact hkeysB a
            · intro a b w
              have h1 := hC2 a b w
              have h2 : ContainsP st2 a b w ↔
                  ContainsP { st with
                    array := st.array.set j (some (k1, sub2))
                    count := st.count + 1 } a b w := by
                rw [h1]
                constructor
                · rintro (⟨hc, _⟩ | hm)
                  · exact absurd hc (containsP_replicate rfl a b w)
                  · exact oldPairs_mem.mp hm
                · intro hc
                  exact Or.inr (oldPairs_mem.mpr hc)
              rw [h2]
              exact hCfull a b w
            · intro hle
              rw [hb1] at hle
              omega
            · intro _
              constructor
              · intro hexh
                omega
              · intro _
                refine ⟨?_, ?_⟩
                · exact hsi
                · rw [hlen2]
                  exact List.length_replicate ..
        case isFalse htr =>
          have hnt : st.count + 1 ≤ st.array.length / 2 := by
            have h2 : ¬ (st.count + 1 >
                (st.array.set j (some (k1, sub2))).length / 2) := htr
            rw [List.length_set] at h2
            omega
          injection hset with h1
          injection h1 with h2
          subst h2
          refine ⟨hwB, ?_, rfl, rfl, hkeysB, hCfull, ?_, ?_⟩
          · refine Or.inl ?_
            show st.count + 1 ≤
              (st.array.set j (some (k1, sub2))).length / 2
            rw [List.length_set]
            exact hnt
          · intro _
            refine ⟨rfl, List.length_set .., ?_⟩
            show st.count + 1 = st.count + bumpOf st k1
            rw [hb1]
          · intro hlt
            rw [hb1] at hlt
            omega

end Spec2Proof
namespace Spec2Proof

/-- The inductive step of the reinsertion specification: the head
triple goes through setitem at the previous fuel level (without
triggering a resize, thanks to the spare-capacity budget), the tail
through the reinsertion run at the previous level. -/
theorem reinsSpec_step {V : Type} {fuel : Nat} (ih1 : SetSpec V fuel)
    (ih2 : ReinsSpec V fuel) : ReinsSpec V (fuel + 1) := by
  intro st l st2 hrun hw hnd hcap
  cases l with
  | nil =>
    have h2 : some (Except.ok st : Except PErr (DoubleKeyTable V)) =
        some (.ok st2) := hrun
    injection h2 with h3
    injection h3 with h4
    subst h4
    exact reins_nil_concl hw (by omega)
  | cons hd tl =>
    obtain ⟨k1, q⟩ := hd
    obtain ⟨k2, v⟩ := q
    unfold reinsertList at hrun
    cases hsp : setPair fuel st k1 k2 v with
    | none =>
      rw [hsp] at hrun
      exact Option.noConfusion hrun
    | some r =>
      rw [hsp] at hrun
      cases r with
      | error e =>
        dsimp only at hrun
        exact absurd hrun (by simp)
      | ok stMid =>
        dsimp only at hrun
        have hhf : TopHalfFree st := by
          left
          omega
        obtain ⟨hwM, _, hszM1, hszM2, hkeysM, hCM, hcap1, _⟩ :=
          ih1 st k1 k2 v stMid hsp hw hhf
        have hbump : st.count + bumpOf st k1 ≤ st.array.length / 2 := by
          by_cases hm : k1 ∈ topKeysOf st.array
          · rw [bumpOf_eq_zero hm]
            omega
          · rw [bumpOf_eq_one hm]
            have hk1in : k1 ∈ (((k1, k2, v) :: tl).map
                (fun tr => tr.1)).toFinset \
                (topKeysOf st.array).toFinset := by
              rw [Finset.mem_sdiff]
              constructor
              · rw [List.mem_toFinset]
                exact List.mem_map.mpr ⟨(k1, k2, v), List.mem_cons_self .., rfl⟩
              · rw [List.mem_toFinset]
                exact hm
            have hpos : 0 < ((((k1, k2, v) :: tl).map
                (fun tr => tr.1)).toFinset \
                (topKeysOf st.array).toFinset).card :=
              Finset.card_pos.mpr ⟨k1, hk1in⟩
            omega
        obtain ⟨hsiM, hlenM, hcntM⟩ := hcap1 hbump
        have hkeysFin : (topKeysOf stMid.array).toFinset =
            insert k1 (topKeysOf st.array).toFinset := by
          ext a
          rw [List.mem_toFinset, hkeysM a, Finset.mem_insert,
            List.mem_toFinset]
          tauto
        have hndh := List.nodup_cons.mp
          (show ((k1, k2) :: tl.map (fun tr => (tr.1, tr.2.1))).Nodup
            from hnd)
        have hcap2 : stMid.count + ((tl.map
            (fun tr => tr.1)).toFinset \
            (topKeysOf stMid.array).toFinset).card ≤
            stMid.array.length / 2 := by
          rw [hcntM, hlenM, hkeysFin]
          have hstep := card_step (topKeysOf st.array).toFinset
            (tl.map (fun tr => tr.1)).toFinset k1
          have hbeq : bumpOf st k1 =
              (if k1 ∈ (topKeysOf st.array).toFinset then 0 else 1) := by
            by_cases hm : k1 ∈ topKeysOf st.array
            · rw [bumpOf_eq_zero hm, if_pos (List.mem_toFinset.mpr hm)]
            · rw [bumpOf_eq_one hm,
                if_neg (fun hx => hm (List.mem_toFinset.mp hx))]
          have hinsFin : insert k1 (tl.map (fun tr => tr.1)).toFinset =
              (((k1, k2, v) :: tl).map (fun tr => tr.1)).toFinset := by
            rw [List.map_cons, List.toFinset_cons]
          rw [hinsFin] at hstep
          rw [hbeq]
          omega
        obtain ⟨hw2, hsz1, hsz2, hsi2, hlen2, hcnt2, hkeys2, hC2⟩ :=
          ih2 stMid tl st2 hrun hwM hndh.2 hcap2
        refine ⟨hw2, hsz1.trans hszM1, hsz2.trans hszM2,
          hsi2.trans hsiM, hlen2.trans hlenM, ?_, ?_, ?_⟩
        · rw [hlenM] at hcnt2
          omega
        · intro a
          rw [hkeys2 a, hkeysM a, List.map_cons, List.mem_cons]
          tauto
        · intro a b w
          rw [hC2 a b w, hCM a b w, List.map_cons, List.mem_cons,
            List.mem_cons]
          have hhead : ((a, b, w) = (k1, k2, v)) ↔
              (a = k1 ∧ b = k2 ∧ w = v) := by
            constructor
            · intro h
              injection h with h1 h2
              injection h2 with h3 h4
              exact ⟨h1, h3, h4⟩
            · rintro ⟨h1, h2, h3⟩
              rw [h1, h2, h3]
          have hheadp : ((a, b) = (k1, k2)) ↔ (a = k1 ∧ b = k2) := by
            constructor
            · intro h
              injection h with h1 h2
              exact ⟨h1, h2⟩
            · rintro ⟨h1, h2⟩
              rw [h1, h2]
          rw [hhead, hheadp]
          constructor
          · rintro (⟨(⟨hne, hc⟩ | ⟨h1, h2, h3⟩), hnm⟩ | hmem)
            · left
              refine ⟨hc, ?_⟩
              intro hx
              rcases hx with hx | hx
              · exact hne hx
              · exact hnm hx
            · right
              left
              exact ⟨h1, h2, h3⟩
            · right
              right
              exact hmem
          · rintro (⟨hc, hnm⟩ | (⟨h1, h2, h3⟩ | hmem))
            · left
              refine ⟨Or.inl ⟨?_, hc⟩, ?_⟩
              · intro hx
                exact hnm (Or.inl hx)
              · intro hx
                exact hnm (Or.inr hx)
            · left
              refine ⟨Or.inr ⟨h1, h2, h3⟩, ?_⟩
              intro hx
              have hmm : (k1, k2) ∈ tl.map (fun tr => (tr.1, tr.2.1)) := by
                rw [← h1, ← h2]
                exact hx
              exact hndh.1 hmm
            · right
              exact hmem

/-- The combined specification of setitem and the reinsertion loop, at
every fuel level. -/
theorem setReins_spec (V : Type) :
    ∀ fuel, SetSpec V fuel ∧ ReinsSpec V fuel := by
  intro fuel
  induction fuel with
  | zero => exact ⟨setSpec_zero, reinsSpec_zero⟩
  | succ fuel ih => exact ⟨setSpec_step ih.2, reinsSpec_step ih.1 ih.2⟩

theorem setPair_spec {V : Type} (fuel : Nat) : SetSpec V fuel :=
  (setReins_spec V fuel).1

theorem reinsertList_spec {V : Type} (fuel : Nat) : ReinsSpec V fuel :=
  (setReins_spec V fuel).2

end Spec2Proof
namespace Spec2Proof

theorem reinsertList_nil {V : Type} (fuel : Nat) (st : DoubleKeyTable V) :
    reinsertList fuel st [] = some (.ok st) := by
  cases fuel <;> rfl

/-- A successful sequence of setitem calls from a well-formed state
within its occupancy bound (resizes included) preserves the invariant
and grows the top keys by exactly the key1s of the sequence. -/
theorem run_spec {V : Type} :
    ∀ (l : List (Key × Key × V)) (fuel : Nat) (st st2 : DoubleKeyTable V),
      reinsertList fuel st l = some (.ok st2) → WfTop st →
      TopHalfFree st →
      WfTop st2 ∧ TopHalfFree st2 ∧
      st2.tableSizes = st.tableSizes ∧
      st2.internalSizes = st.internalSizes ∧
      (∀ a, a ∈ topKeysOf st2.array ↔
        (a ∈ topKeysOf st.array ∨ a ∈ l.map (fun tr => tr.1))) := by
  intro l
  induction l with
  | nil =>
    intro fuel st st2 hrun hw hhf
    rw [reinsertList_nil] at hrun
    injection hrun with h1
    injection h1 with h2
    subst h2
    refine ⟨hw, hhf, rfl, rfl, ?_⟩
    intro a
    simp
  | cons hd tl ih =>
    intro fuel st st2 hrun hw hhf
    obtain ⟨k1, q⟩ := hd
    obtain ⟨k2, v⟩ := q
    cases fuel with
    | zero => exact Option.noConfusion hrun
    | succ g =>
      unfold reinsertList at hrun
      cases hsp : setPair g st k1 k2 v with
      | none =>
        rw [hsp] at hrun
        exact Option.noConfusion hrun
      | some r =>
        rw [hsp] at hrun
        cases r with
        | error e =>
          dsimp only at hrun
          exact absurd hrun (by simp)
        | ok stMid =>
          dsimp only at hrun
          obtain ⟨hwM, hhfM, hszM1, hszM2, hkeysM, _, _, _⟩ :=
            setPair_spec g st k1 k2 v stMid hsp hw hhf
          obtain ⟨hw2, hhf2, hsz1, hsz2, hkeys2⟩ :=
            ih g stMid st2 hrun hwM hhfM
          refine ⟨hw2, hhf2, hsz1.trans hszM1, hsz2.trans hszM2, ?_⟩
          intro a
          rw [hkeys2 a, hkeysM a, List.map_cons, List.mem_cons]
          tauto

/-- The top probe in lookup mode never changes the table. -/
theorem probeTop_lookup_pure {V : Type} {st : DoubleKeyTable V}
    {k1 k2 : Key} {r : DoubleKeyTable V × Nat × Nat} :
    ∀ {steps pos : Nat},
      probeTop k1 k2 false steps st pos = .ok r → r.1 = st := by
  intro steps
  induction steps with
  | zero => intro pos h; exact absurd h (by simp [probeTop])
  | succ s ih =>
    intro pos h
    unfold probeTop at h
    cases hslot : st.array.getD pos none with
    | none =>
      rw [hslot] at h
      dsimp only at h
      exact absurd h (by simp)
    | some pr =>
      obtain ⟨k0, sub0⟩ := pr
      rw [hslot] at h
      dsimp only at h
      by_cases hk : k0 = k1
      · rw [if_pos hk] at h
        cases hsp : sub0.probe k2 false with
        | error e => rw [hsp] at h; exact absurd h (by simp)
        | ok p2 =>
          rw [hsp] at h
          dsimp only at h
          injection h with h2
          rw [← h2]
      · rw [if_neg hk] at h
        exact ih h

/-- A successful standalone rehash from a well-formed state within its
occupancy bound keeps the invariant (hence count equal to the occupied
top slots) and stores exactly the same pairs. -/
theorem rehash_spec {V : Type} {fuel : Nat} {st st2 : DoubleKeyTable V}
    (hreh : st.rehash fuel = some (.ok st2)) (hw : WfTop st)
    (hhf : TopHalfFree st) :
    WfTop st2 ∧ (∀ a b (w : V), ContainsP st2 a b w ↔ ContainsP st a b w) := by
  unfold DoubleKeyTable.rehash at hreh
  split at hreh
  case isTrue hex =>
    injection hreh with h1
    injection h1 with h2
    subst h2
    refine ⟨wfTop_bumpIdx hw hex, ?_⟩
    intro a b w
    exact Iff.rfl
  case isFalse hex =>
    have hnext : st.sizeIndex + 1 < st.tableSizes.length := by
      have h3 : ¬ (st.sizeIndex + 1 ≥ st.tableSizes.length) := hex
      omega
    have hcnt_le : st.count ≤ st.array.length / 2 := by
      rcases hhf with h | h
      · exact h
      · omega
    have hlenIdx : st.array.length = st.tableSizes.getD st.sizeIndex 0 :=
      hw.lenIdx (by omega)
    have hstep := hw.good.2 st.sizeIndex hnext
    have hinj2 : ∀ j1 j2 (k : Key) s1 s2,
        st.array.getD j1 none = some (k, s1) →
        st.array.getD j2 none = some (k, s2) → j1 = j2 := by
      intro j1 j2 k s1 s2 h1 h2
      exact (hw.slot_inj h1 h2).1
    have hsubs2 : ∀ i (k : Key) (sub : LinearProbeTable V),
        st.array.getD i none = some (k, sub) → WfSub sub ∧ 0 < sub.count := by
      intro i k sub h
      exact ⟨(hw.subs i k sub h).1, (hw.subs i k sub h).2.2⟩
    have hnd2 := oldPairs_keyPairs_nodup st.array hinj2
      (fun i k sub h => (hsubs2 i k sub h).1)
    have hkeyfst := oldPairs_keyfst_mem hsubs2
    have hcard : ((oldPairs st.array).map
        (fun tr => tr.1)).toFinset.card = st.count := by
      rw [toFinset_eq_of_mem_iff hkeyfst,
        List.toFinset_card_of_nodup hw.topKeys_nodup]
      exact (hw.count_eq_topKeys_length).symm
    have hwF : WfTop (DoubleKeyTable.mk (V := V) st.tableSizes
        st.internalSizes (st.sizeIndex + 1)
        (List.replicate (st.tableSizes.getD (st.sizeIndex + 1) 0)
          none) 0) :=
      wfTop_fresh hw.good hw.goodInternal hnext rfl
    have hfrk : topKeysOf (List.replicate
        (st.tableSizes.getD (st.sizeIndex + 1) 0)
        (none : Option (Key × LinearProbeTable V))) = [] :=
      topKeysOf_replicate _
    have hcapF : (0 : Nat) + (((oldPairs st.array).map
        (fun tr => tr.1)).toFinset \
        (topKeysOf (List.replicate
          (st.tableSizes.getD (st.sizeIndex + 1) 0)
          (none : Option (Key × LinearProbeTable V)))).toFinset).card
        ≤ (List.replicate
          (st.tableSizes.getD (st.sizeIndex + 1) 0)
          (none : Option (Key × LinearProbeTable V))).length / 2 := by
      rw [hfrk, List.toFinset_nil, Finset.sdiff_empty, hcard,
        List.length_replicate]
      omega
    obtain ⟨hw2, _, _, _, _, _, _, hC2⟩ :=
      reinsertList_spec fuel _ _ _ hreh hwF hnd2 hcapF
    refine ⟨hw2, ?_⟩
    intro a b w
    rw [hC2 a b w]
    constructor
    · rintro (⟨hc, _⟩ | hm)
      · exact absurd hc (containsP_replicate rfl a b w)
      · exact oldPairs_mem.mp hm
    · intro hc
      exact Or.inr (oldPairs_mem.mpr hc)

end Spec2Proof
namespace Spec2Proof

/-- C5 (amended): the count invariant after Get, Set and Rehash - but
not Delete.  First conjunct: the probe of Get never changes the table
(so count trivially stays the number of occupied top slots).  Second
conjunct: after every successful Set from a well-formed state within
its occupancy bound, count equals the number of occupied top-level
slots.  Third conjunct: likewise after every successful standalone
Rehash, which moreover stores exactly the pairs it started with. -/
theorem C5_amended_count_invariant_get_set_rehash :
    (∀ (V : Type) (st st1 : DoubleKeyTable V) (k1 k2 : Key) (p1 p2 : Nat),
      st.linear_probe k1 k2 false = .ok (st1, p1, p2) → st1 = st) ∧
    (∀ (V : Type) (fuel : Nat) (st st2 : DoubleKeyTable V)
      (k1 k2 : Key) (v : V),
      setPair fuel st k1 k2 v = some (.ok st2) → WfTop st →
      TopHalfFree st → st2.count = occupiedTop st2) ∧
    (∀ (V : Type) (fuel : Nat) (st st2 : DoubleKeyTable V),
      st.rehash fuel = some (.ok st2) → WfTop st → TopHalfFree st →
      st2.count = occupiedTop st2 ∧
      (∀ a b (w : V), ContainsP st2 a b w ↔ ContainsP st a b w)) := by
  refine ⟨?_, ?_, ?_⟩
  · intro V st st1 k1 k2 p1 p2 h
    exact probeTop_lookup_pure (r := (st1, p1, p2)) h
  · intro V fuel st st2 k1 k2 v hset hw hhf
    obtain ⟨hw2, _, _, _, _, _, _, _⟩ :=
      setPair_spec fuel st k1 k2 v st2 hset hw hhf
    exact hw2.cnt
  · intro V fuel st st2 hreh hw hhf
    obtain ⟨hw2, hC⟩ := rehash_spec hreh hw hhf
    exact ⟨hw2.cnt, hC⟩

/-- C9: the resize trigger on insert-only sequences.  Starting from a
fresh table over good size sequences, running any successful sequence
of Set operations, and then setting a pair whose key1 is a fresh top
key when the key count is about to exceed half the capacity (with a
next configured size available), the rehash fires: the new capacity is
the next entry of the size sequence, and every previously stored
(key1, key2) pair - as well as the new one - is retrievable via Get
with its original value. -/
theorem C9_resize_trigger_next_capacity_and_retrievable {V : Type}
    (sizes internal : Option (List Nat)) (l : List (Key × Key × V))
    (fuel fuel2 : Nat) (st st2 : DoubleKeyTable V) (k1 k2 : Key) (v : V)
    (hg : GoodSizes (sizes.getD TABLE_SIZES_default))
    (hgl : 0 < (sizes.getD TABLE_SIZES_default).length)
    (hgi : GoodSizes (internal.getD (sizes.getD TABLE_SIZES_default)) ∧
      0 < (internal.getD (sizes.getD TABLE_SIZES_default)).length)
    (hrun : reinsertList fuel (DoubleKeyTable.init V sizes internal) l =
      some (.ok st))
    (hset : setPair fuel2 st k1 k2 v = some (.ok st2))
    (hfresh : k1 ∉ topKeysOf st.array)
    (htrig : st.array.length / 2 < st.count + 1)
    (hnext : st.sizeIndex + 1 < st.tableSizes.length) :
    st2.sizeIndex = st.sizeIndex + 1 ∧
    st2.array.length = st.tableSizes.getD (st.sizeIndex + 1) 0 ∧
    (∀ a b (w : V), ContainsP st a b w → st2.getPair a b = .ok w) ∧
    st2.getPair k1 k2 = .ok v := by
  obtain ⟨hw0, hhf0, _⟩ := wfTop_init (V := V) hg hgl hgi
  obtain ⟨hw, hhf, _, _, _⟩ := run_spec l fuel _ st hrun hw0 hhf0
  obtain ⟨hw2, _, _, _, _, hC, _, hcap2⟩ :=
    setPair_spec fuel2 st k1 k2 v st2 hset hw hhf
  have hb1 : bumpOf st k1 = 1 := bumpOf_eq_one hfresh
  have htrig2 : st.array.length / 2 < st.count + bumpOf st k1 := by
    rw [hb1]
    exact htrig
  obtain ⟨hsi, hlen⟩ := (hcap2 htrig2).2 hnext
  refine ⟨hsi, hlen, ?_, ?_⟩
  · intro a b w hab
    have hne : ¬ (a = k1 ∧ b = k2) := by
      rintro ⟨ha, _⟩
      subst ha
      obtain ⟨j, sub, hj, _⟩ := hab
      exact hfresh (key_mem_of_slot hj)
    exact hw2.get_eq ((hC a b w).mpr (Or.inl ⟨hne, hab⟩))
  · exact hw2.get_eq ((hC k1 k2 v).mpr (Or.inr ⟨rfl, rfl, rfl⟩))

theorem goodSizes_37 : GoodSizes [3, 7] := by
  constructor
  · decide
  · intro i hi
    have h2 : i = 0 := by
      have h3 : i + 1 < 2 := hi
      omega
    subst h2
    decide

/-- The state of the C9 scenario before the trigger: sizes [3, 7], the
pair ("a","x") stored. -/
def c9st : DoubleKeyTable Nat :=
  (okOf (reinsertList 20 (DoubleKeyTable.init Nat (some [3, 7]) none)
    [(['a'], ['x'], 1)])).getD (DoubleKeyTable.init Nat (some [3, 7]) none)

/-- The state of the C9 scenario after setting ("b","y"): the second
top key exceeds 3 / 2 = 1, firing the rehash into capacity 7. -/
def c9st2 : DoubleKeyTable Nat :=
  (okOf (setPair 20 c9st (['b']) (['y']) 2)).getD c9st

theorem C9_resize_trigger_witness :
    (GoodSizes ((some [3, 7]).getD TABLE_SIZES_default) ∧
     GoodSizes ((none : Option (List Nat)).getD
       ((some [3, 7]).getD TABLE_SIZES_default)) ∧
     reinsertList 20 (DoubleKeyTable.init Nat (some [3, 7]) none)
       [(['a'], ['x'], 1)] = some (.ok c9st) ∧
     setPair 20 c9st (['b']) (['y']) 2 = some (.ok c9st2) ∧
     (['b'] : Key) ∉ topKeysOf c9st.array ∧
     c9st.array.length / 2 < c9st.count + 1 ∧
     c9st.sizeIndex + 1 < c9st.tableSizes.length) ∧
    (c9st2.sizeIndex = c9st.sizeIndex + 1 ∧
     c9st2.array.length = c9st.tableSizes.getD (c9st.sizeIndex + 1) 0 ∧
     (∀ a b (w : Nat), ContainsP c9st a b w → c9st2.getPair a b = .ok w) ∧
     c9st2.getPair (['b']) (['y']) = .ok 2) :=
  ⟨⟨goodSizes_37, goodSizes_37, by rfl, by rfl, by decide, by decide,
      by decide⟩,
    C9_resize_trigger_next_capacity_and_retrievable (some [3, 7]) none
      [(['a'], ['x'], 1)] 20 20 c9st c9st2 (['b']) (['y']) 2
      goodSizes_37 (by decide) ⟨goodSizes_37, by decide⟩
      (by rfl) (by rfl) (by decide) (by decide) (by decide)⟩

end Spec2Proof
namespace Spec2Proof

namespace InfiniteHashTable

/-! ## The canonical-form invariant of the trie -/

mutual
/-- Well-formed trie node at an expected level: the stored level
matches, the table has 27 cells, and every cell is well placed. -/
def WfNode {V : Type} : Nat → Node V → Prop
  | lvl, Node.mk lvl2 tbl =>
    lvl2 = lvl ∧ tbl.length = TABLE_SIZE ∧ WfTable lvl 0 tbl
/-- Well-placed cells of a table whose head sits at the given absolute
position. -/
def WfTable {V : Type} : Nat → Nat → List (Slot V) → Prop
  | _, _, [] => True
  | lvl, p, s :: r => WfSlot lvl p s ∧ WfTable lvl (p + 1) r
/-- A well-placed cell: a direct entry hashes to its own position; a
nested node lives one level deeper, is itself well formed, holds only
keys hashing to this position at this level, and holds at least two
keys (the canonical form: no single-occupant nested node). -/
def WfSlot {V : Type} : Nat → Nat → Slot V → Prop
  | _, _, Slot.empty => True
  | lvl, p, Slot.entry k _ => hash k lvl = p
  | lvl, p, Slot.nested t =>
    WfNode (lvl + 1) t ∧ (∀ k2 ∈ keyList t, hash k2 lvl = p) ∧
    2 ≤ length t
end

theorem wfTable_replicate {V : Type} (lvl : Nat) :
    ∀ (n p : Nat), WfTable lvl p (List.replicate n (Slot.empty : Slot V)) := by
  intro n
  induction n with
  | zero => intro p; exact trivial
  | succ m ih =>
    intro p
    rw [List.replicate_succ]
    exact ⟨trivial, ih (p + 1)⟩

theorem wfNode_empty {V : Type} (lvl : Nat) :
    WfNode lvl (emptyNode lvl : Node V) :=
  ⟨rfl, length_emptyTable V, wfTable_replicate lvl TABLE_SIZE 0⟩

/-! ## Walk lemmas: the positional recursions against slotAt -/

theorem getitemTable_at {V : Type} (k : Key) :
    ∀ (tbl : List (Slot V)) (p : Nat), p < tbl.length →
      getitemTable tbl p k = getitemSlot (slotAt tbl p) k := by
  intro tbl
  induction tbl with
  | nil => intro p h; exact absurd h (by simp)
  | cons s r ih =>
    intro p h
    cases p with
    | zero => rfl
    | succ q =>
      have h2 : q < r.length := by simpa using h
      show getitemTable r q k = _
      rw [ih q h2]
      rfl

theorem locTable_at {V : Type} (k : Key) :
    ∀ (tbl : List (Slot V)) (p : Nat), p < tbl.length →
      locTable tbl p k = locSlot (slotAt tbl p) k := by
  intro tbl
  induction tbl with
  | nil => intro p h; exact absurd h (by simp)
  | cons s r ih =>
    intro p h
    cases p with
    | zero => rfl
    | succ q =>
      have h2 : q < r.length := by simpa using h
      show locTable r q k = _
      rw [ih q h2]
      rfl

theorem delitemTable_at {V : Type} (k : Key) :
    ∀ (tbl : List (Slot V)) (p : Nat), p < tbl.length →
      delitemTable tbl p k =
        (match delitemSlot (slotAt tbl p) k with
          | .error e => .error e
          | .ok (s2, chk) => .ok (tbl.set p s2, chk)) := by
  intro tbl
  induction tbl with
  | nil => intro p h; exact absurd h (by simp)
  | cons s r ih =>
    intro p h
    cases p with
    | zero =>
      show (match delitemSlot s k with
        | .error e => Except.error e
        | .ok (s2, chk) => Except.ok (s2 :: r, chk)) = _
      have hs0 : slotAt (s :: r) 0 = s := rfl
      rw [hs0]
      cases delitemSlot s k with
      | error e => rfl
      | ok pr =>
        obtain ⟨s2, chk⟩ := pr
        rfl
    | succ q =>
      have h2 : q < r.length := by simpa using h
      show (match delitemTable r q k with
        | .error e => Except.error e
        | .ok (r2, chk) => Except.ok (s :: r2, chk)) = _
      rw [ih q h2]
      have hs1 : slotAt (s :: r) (q + 1) = slotAt r q := rfl
      rw [hs1]
      cases delitemSlot (slotAt r q) k with
      | error e => rfl
      | ok pr =>
        obtain ⟨s2, chk⟩ := pr
        rfl

/-! ## Keys, lengths and the table cells -/

theorem keyListTable_mem {V : Type} {a : Key} :
    ∀ {tbl : List (Slot V)},
      a ∈ keyListTable tbl ↔
        ∃ j, j < tbl.length ∧ a ∈ keyListSlot (slotAt tbl j) := by
  intro tbl
  induction tbl with
  | nil =>
    constructor
    · intro h; exact absurd h (by simp [keyListTable])
    · intro ⟨j, hj, _⟩
      exact absurd hj (by simp)
  | cons s r ih =>
    have he : keyListTable (s :: r) = keyListSlot s ++ keyListTable r := rfl
    rw [he, List.mem_append, ih]
    constructor
    · intro h
      cases h with
      | inl h => exact ⟨0, by simp, h⟩
      | inr h =>
        obtain ⟨j, hj, hm⟩ := h
        exact ⟨j + 1, by simpa using hj, hm⟩
    · intro ⟨j, hj, hm⟩
      cases j with
      | zero => exact Or.inl hm
      | succ q =>
        right
        exact ⟨q, by simpa using hj, hm⟩

theorem lengthTable_set {V : Type} (s2 : Slot V) :
    ∀ (tbl : List (Slot V)) (p : Nat), p < tbl.length →
      lengthTable (tbl.set p s2) + lengthSlot (slotAt tbl p) =
        lengthTable tbl + lengthSlot s2 := by
  intro tbl
  induction tbl with
  | nil => intro p h; exact absurd h (by simp)
  | cons s r ih =>
    intro p h
    cases p with
    | zero =>
      show lengthSlot s2 + lengthTable r + lengthSlot s =
        (lengthSlot s + lengthTable r) + lengthSlot s2
      omega
    | succ q =>
      have h2 : q < r.length := by simpa using h
      show lengthSlot s + lengthTable (r.set q s2) + lengthSlot (slotAt r q) =
        (lengthSlot s + lengthTable r) + lengthSlot s2
      have h3 := ih q h2
      omega

theorem keyListTable_set_mem {V : Type} {a : Key} (s2 : Slot V) :
    ∀ (tbl : List (Slot V)) (p : Nat), p < tbl.length →
      (a ∈ keyListTable (tbl.set p s2) ↔
        ((∃ j, j < tbl.length ∧ j ≠ p ∧ a ∈ keyListSlot (slotAt tbl j)) ∨
          a ∈ keyListSlot s2)) := by
  intro tbl
  induction tbl with
  | nil => intro p h; exact absurd h (by simp)
  | cons s r ih =>
    intro p h
    cases p with
    | zero =>
      have he : keyListTable (s2 :: r) = keyListSlot s2 ++ keyListTable r := rfl
      show a ∈ keyListTable (s2 :: r) ↔ _
      rw [he, List.mem_append, keyListTable_mem]
      constructor
      · intro hc
        cases hc with
        | inl hm => exact Or.inr hm
        | inr hm =>
          obtain ⟨j, hj, hmm⟩ := hm
          exact Or.inl ⟨j + 1, by simpa using hj, by omega, hmm⟩
      · intro hc
        cases hc with
        | inl hm =>
          obtain ⟨j, hj, hne, hmm⟩ := hm
          cases j with
          | zero => exact absurd rfl hne
          | succ q => exact Or.inr ⟨q, by simpa using hj, hmm⟩
        | inr hm => exact Or.inl hm
    | succ q =>
      have h2 : q < r.length := by simpa using h
      have he : keyListTable (s :: r.set q s2) =
          keyListSlot s ++ keyListTable (r.set q s2) := rfl
      show a ∈ keyListTable (s :: r.set q s2) ↔ _
      rw [he, List.mem_append, ih q h2]
      constructor
      · intro hc
        rcases hc with hm | (⟨j, hj, hne, hmm⟩ | hm)
        · exact Or.inl ⟨0, by simp, by omega, hm⟩
        · exact Or.inl ⟨j + 1, by simpa using hj, by omega, hmm⟩
        · exact Or.inr hm
      · intro hc
        rcases hc with ⟨j, hj, hne, hmm⟩ | hm
        · cases j with
          | zero => exact Or.inl hmm
          | succ q2 =>
            exact Or.inr (Or.inl ⟨q2, by simpa using hj, by omega, hmm⟩)
        · exact Or.inr (Or.inr hm)

/-! ## Consequences of well-placed cells -/

theorem wfTable_slotAt {V : Type} :
    ∀ {tbl : List (Slot V)} {lvl i : Nat}, WfTable lvl i tbl →
      ∀ j, j < tbl.length → WfSlot lvl (i + j) (slotAt tbl j) := by
  intro tbl
  induction tbl with
  | nil => intro lvl i _ j hj; exact absurd hj (by simp)
  | cons s r ih =>
    intro lvl i hw j hj
    obtain ⟨hs, hr⟩ := hw
    cases j with
    | zero => simpa using hs
    | succ q =>
      have h2 : q < r.length := by simpa using hj
      have h3 := ih hr q h2
      show WfSlot lvl (i + (q + 1)) (slotAt r q)
      have he : i + (q + 1) = (i + 1) + q := by omega
      rw [he]
      exact h3

theorem wfTable_set {V : Type} :
    ∀ {tbl : List (Slot V)} {lvl i : Nat}, WfTable lvl i tbl →
      ∀ {j : Nat} {s2 : Slot V}, WfSlot lvl (i + j) s2 →
        WfTable lvl i (tbl.set j s2) := by
  intro tbl
  induction tbl with
  | nil => intro lvl i _ j s2 _; exact trivial
  | cons s r ih =>
    intro lvl i hw j s2 hs2
    obtain ⟨hs, hr⟩ := hw
    cases j with
    | zero =>
      refine ⟨?_, hr⟩
      simpa using hs2
    | succ q =>
      refine ⟨hs, ?_⟩
      refine ih hr ?_
      have he : (i + 1) + q = i + (q + 1) := by omega
      rw [he]
      exact hs2

/-- Every key of a well-placed table hashes to the position of the cell
holding it. -/
theorem wfTable_key_hash {V : Type} {a : Key} :
    ∀ {tbl : List (Slot V)} {lvl i : Nat}, WfTable lvl i tbl →
      ∀ {j}, j < tbl.length → a ∈ keyListSlot (slotAt tbl j) →
        hash a lvl = i + j := by
  intro tbl
  induction tbl with
  | nil => intro lvl i _ j hj; exact absurd hj (by simp)
  | cons s r ih =>
    intro lvl i hw j hj hm
    obtain ⟨hs, hr⟩ := hw
    cases j with
    | zero =>
      have hm2 : a ∈ keyListSlot s := by simpa using hm
      cases s with
      | empty => exact absurd hm2 (by simp [keyListSlot])
      | entry k0 v0 =>
        have : a = k0 := by simpa [keyListSlot] using hm2
        subst this
        simpa using hs
      | nested t =>
        have hkeys := (hs : WfSlot lvl i (.nested t)).2.1
        have : hash a lvl = i := hkeys a hm2
        simpa using this
    | succ q =>
      have h2 : q < r.length := by simpa using hj
      have h3 := ih hr h2 (by simpa using hm)
      omega

/-- In a well-placed table, a stored key is found in the cell its hash
points at. -/
theorem wfTable_key_at_hash {V : Type} {a : Key}
    {tbl : List (Slot V)} {lvl : Nat} (hw : WfTable lvl 0 tbl)
    (hm : a ∈ keyListTable tbl) :
    hash a lvl < tbl.length ∧
    a ∈ keyListSlot (slotAt tbl (hash a lvl)) := by
  obtain ⟨j, hj, hmm⟩ := keyListTable_mem.mp hm
  have h2 := wfTable_key_hash hw hj hmm
  have h3 : hash a lvl = j := by omega
  rw [h3]
  exact ⟨hj, hmm⟩

end InfiniteHashTable

end Spec2Proof
namespace Spec2Proof

namespace InfiniteHashTable

/-- One-step reduction of setitem with positive fuel. -/
theorem setitem_succ {V : Type} (g lvl : Nat) (tbl : List (Slot V))
    (k : Key) (v : V) :
    setitem (g + 1) (.mk lvl tbl) k v =
      (match slotAt tbl (hash k lvl) with
        | .empty => some (Node.mk lvl (tbl.set (hash k lvl) (.entry k v)))
        | .entry k0 v0 =>
          match setitem g (emptyNode (lvl + 1))
              (if k0 = k then (k, v) else (k0, v0)).1
              (if k0 = k then (k, v) else (k0, v0)).2 with
          | none => none
          | some child =>
            match setitem g child k v with
            | none => none
            | some child2 =>
              some (Node.mk lvl (tbl.set (hash k lvl) (.nested child2)))
        | .nested t =>
          match setitem g t k v with
          | none => none
          | some t2 =>
            some (Node.mk lvl (tbl.set (hash k lvl) (.nested t2)))) := rfl

theorem keyListTable_replicate {V : Type} :
    ∀ n : Nat, keyListTable (List.replicate n (Slot.empty : Slot V)) = [] := by
  intro n
  induction n with
  | zero => rfl
  | succ m ih =>
    rw [List.replicate_succ]
    show keyListSlot (Slot.empty : Slot V) ++ _ = _
    rw [ih]
    rfl

theorem lengthTable_replicate {V : Type} :
    ∀ n : Nat, lengthTable (List.replicate n (Slot.empty : Slot V)) = 0 := by
  intro n
  induction n with
  | zero => rfl
  | succ m ih =>
    rw [List.replicate_succ]
    show lengthSlot (Slot.empty : Slot V) + _ = 0
    rw [ih]
    rfl

/-- The specification of a successful setitem of a fresh key on a
well-formed node: the canonical form is preserved, the key set grows by
the key, and the entry count by one. -/
theorem setitem_spec {V : Type} :
    ∀ (fuel : Nat) {lvl : Nat} {tbl : List (Slot V)} {k : Key} {v : V}
      {out : Node V},
      setitem fuel (.mk lvl tbl) k v = some out →
      tbl.length = TABLE_SIZE → WfTable lvl 0 tbl →
      k ∉ keyListTable tbl →
      ∃ tbl2, out = .mk lvl tbl2 ∧ tbl2.length = TABLE_SIZE ∧
        WfTable lvl 0 tbl2 ∧
        (∀ a, a ∈ keyListTable tbl2 ↔ (a ∈ keyListTable tbl ∨ a = k)) ∧
        lengthTable tbl2 = lengthTable tbl + 1 := by
  intro fuel
  induction fuel with
  | zero =>
    intro lvl tbl k v out h
    exact absurd h (by simp [setitem])
  | succ g ih =>
    intro lvl tbl k v out h hlen hw hk
    rw [setitem_succ] at h
    have hplt : hash k lvl < tbl.length := by
      rw [hlen]
      exact hash_lt
    cases hslot : slotAt tbl (hash k lvl) with
    | empty =>
      rw [hslot] at h
      dsimp only at h
      injection h with h2
      refine ⟨tbl.set (hash k lvl) (.entry k v), h2.symm, ?_, ?_, ?_, ?_⟩
      · rw [List.length_set]
        exact hlen
      · refine wfTable_set hw ?_
        show hash k lvl = 0 + hash k lvl
        omega
      · intro a
        rw [keyListTable_set_mem _ tbl _ hplt]
        constructor
        · rintro (⟨j, hj, _, hm⟩ | hm)
          · exact Or.inl (keyListTable_mem.mpr ⟨j, hj, hm⟩)
          · have : a = k := by simpa [keyListSlot] using hm
            exact Or.inr this
        · rintro (hm | hm)
          · obtain ⟨j, hj, hmm⟩ := keyListTable_mem.mp hm
            refine Or.inl ⟨j, hj, ?_, hmm⟩
            intro hjp
            rw [hjp, hslot] at hmm
            exact absurd hmm (by simp [keyListSlot])
          · subst hm
            exact Or.inr (by simp [keyListSlot])
      · have h3 := lengthTable_set (Slot.entry k v) tbl _ hplt
        rw [hslot] at h3
        show lengthTable (tbl.set (hash k lvl) (.entry k v)) =
          lengthTable tbl + 1
        have h4 : lengthSlot (Slot.empty : Slot V) = 0 := rfl
        have h5 : lengthSlot (Slot.entry k v) = 1 := rfl
        omega
    | entry k0 v0 =>
      rw [hslot] at h
      dsimp only at h
      have hne : k0 ≠ k := by
        intro he
        refine hk (keyListTable_mem.mpr ⟨hash k lvl, hplt, ?_⟩)
        rw [hslot, he]
        simp [keyListSlot]
      rw [if_neg hne] at h
      dsimp only at h
      cases hc1 : setitem g (emptyNode (lvl + 1) : Node V) k0 v0 with
      | none =>
        rw [hc1] at h
        exact absurd h (by simp)
      | some child =>
        rw [hc1] at h
        dsimp only at h
        obtain ⟨ctbl, hce, hclen, hcwf, hckeys, hclng⟩ :=
          ih hc1 (length_emptyTable V) (wfTable_replicate (lvl + 1) _ 0)
            (by rw [show emptyTable V =
              List.replicate TABLE_SIZE (Slot.empty : Slot V) from rfl,
              keyListTable_replicate]; simp)
        subst hce
        cases hc2 : setitem g (.mk (lvl + 1) ctbl) k v with
        | none =>
          rw [hc2] at h
          exact absurd h (by simp)
        | some child2 =>
          rw [hc2] at h
          dsimp only at h
          injection h with h2
          have hkc : k ∉ keyListTable ctbl := by
            intro hm
            rcases (hckeys k).mp hm with hm2 | hm2
            · rw [show emptyTable V =
                List.replicate TABLE_SIZE (Slot.empty : Slot V) from rfl,
                keyListTable_replicate] at hm2
              exact absurd hm2 (by simp)
            · exact hne hm2.symm
          obtain ⟨ctbl2, hce2, hclen2, hcwf2, hckeys2, hclng2⟩ :=
            ih hc2 hclen hcwf hkc
          subst hce2
          have hkey0 : hash k0 lvl = hash k lvl := by
            have hs := wfTable_slotAt hw (hash k lvl) hplt
            rw [hslot] at hs
            have : hash k0 lvl = 0 + hash k lvl := hs
            omega
          have hemptyk : keyListTable (emptyTable V) = [] := by
            rw [show emptyTable V =
              List.replicate TABLE_SIZE (Slot.empty : Slot V) from rfl,
              keyListTable_replicate]
          have hemptyl : lengthTable (emptyTable V) = 0 := by
            rw [show emptyTable V =
              List.replicate TABLE_SIZE (Slot.empty : Slot V) from rfl,
              lengthTable_replicate]
          have hkeys2' : ∀ a, a ∈ keyListTable ctbl2 ↔ (a = k0 ∨ a = k) := by
            intro a
            rw [hckeys2 a, hckeys a, hemptyk]
            simp
          have hlng2' : lengthTable ctbl2 = 2 := by
            omega
          refine ⟨tbl.set (hash k lvl) (.nested (.mk (lvl + 1) ctbl2)),
            h2.symm, ?_, ?_, ?_, ?_⟩
          · rw [List.length_set]
            exact hlen
          · refine wfTable_set hw ?_
            refine ⟨⟨rfl, hclen2, hcwf2⟩, ?_, ?_⟩
            · intro a ha
              have ha2 : a ∈ keyListTable ctbl2 := ha
              rcases (hkeys2' a).mp ha2 with h3 | h3
              · rw [h3, hkey0]
                omega
              · rw [h3]
                omega
            · show 2 ≤ lengthTable ctbl2
              omega
          · intro a
            rw [keyListTable_set_mem _ tbl _ hplt]
            constructor
            · rintro (⟨j, hj, _, hm⟩ | hm)
              · exact Or.inl (keyListTable_mem.mpr ⟨j, hj, hm⟩)
              · have hm2 : a ∈ keyListTable ctbl2 := hm
                rcases (hkeys2' a).mp hm2 with h3 | h3
                · refine Or.inl (keyListTable_mem.mpr
                    ⟨hash k lvl, hplt, ?_⟩)
                  rw [hslot, h3]
                  simp [keyListSlot]
                · exact Or.inr h3
            · rintro (hm | hm)
              · obtain ⟨j, hj, hmm⟩ := keyListTable_mem.mp hm
                by_cases hjp : j = hash k lvl
                · rw [hjp, hslot] at hmm
                  have : a = k0 := by simpa [keyListSlot] using hmm
                  refine Or.inr ?_
                  show a ∈ keyListTable ctbl2
                  rw [hkeys2' a]
                  exact Or.inl this
                · exact Or.inl ⟨j, hj, hjp, hmm⟩
              · subst hm
                refine Or.inr ?_
                show a ∈ keyListTable ctbl2
                rw [hkeys2' a]
                exact Or.inr rfl
          · have h3 := lengthTable_set
              (Slot.nested (.mk (lvl + 1) ctbl2)) tbl _ hplt
            rw [hslot] at h3
            show lengthTable (tbl.set (hash k lvl)
              (.nested (.mk (lvl + 1) ctbl2))) = lengthTable tbl + 1
            have h4 : lengthSlot (Slot.entry k0 v0) = 1 := rfl
            have h5 : lengthSlot (Slot.nested (.mk (lvl + 1) ctbl2)) =
                lengthTable ctbl2 := rfl
            omega
    | nested t =>
      rw [hslot] at h
      dsimp only at h
      have hs := wfTable_slotAt hw (hash k lvl) hplt
      rw [hslot] at hs
      obtain ⟨hwn, hkeysn, hlenn⟩ := hs
      cases t with
      | mk lvl2 ttbl =>
        obtain ⟨hlvl2, htlen, htwf⟩ := hwn
        subst hlvl2
        cases hc : setitem g (.mk (lvl + 1) ttbl) k v with
        | none =>
          rw [hc] at h
          exact absurd h (by simp)
        | some t2 =>
          rw [hc] at h
          dsimp only at h
          injection h with h2
          have hkt : k ∉ keyListTable ttbl := by
            intro hm
            refine hk (keyListTable_mem.mpr ⟨hash k lvl, hplt, ?_⟩)
            rw [hslot]
            exact hm
          obtain ⟨ttbl2, hte, htlen2, htwf2, htkeys2, htlng2⟩ :=
            ih hc htlen htwf hkt
          subst hte
          refine ⟨tbl.set (hash k lvl) (.nested (.mk (lvl + 1) ttbl2)),
            h2.symm, ?_, ?_, ?_, ?_⟩
          · rw [List.length_set]
            exact hlen
          · refine wfTable_set hw ?_
            refine ⟨⟨rfl, htlen2, htwf2⟩, ?_, ?_⟩
            · intro a ha
              have ha2 : a ∈ keyListTable ttbl2 := ha
              rcases (htkeys2 a).mp ha2 with h3 | h3
              · exact hkeysn a h3
              · rw [h3]
                omega
            · show 2 ≤ lengthTable ttbl2
              have : 2 ≤ lengthTable ttbl := hlenn
              omega
          · intro a
            rw [keyListTable_set_mem _ tbl _ hplt]
            constructor
            · rintro (⟨j, hj, _, hm⟩ | hm)
              · exact Or.inl (keyListTable_mem.mpr ⟨j, hj, hm⟩)
              · have hm2 : a ∈ keyListTable ttbl2 := hm
                rcases (htkeys2 a).mp hm2 with h3 | h3
                · refine Or.inl (keyListTable_mem.mpr
                    ⟨hash k lvl, hplt, ?_⟩)
                  rw [hslot]
                  exact h3
                · exact Or.inr h3
            · rintro (hm | hm)
              · obtain ⟨j, hj, hmm⟩ := keyListTable_mem.mp hm
                by_cases hjp : j = hash k lvl
                · rw [hjp, hslot] at hmm
                  refine Or.inr ?_
                  show a ∈ keyListTable ttbl2
                  rw [htkeys2 a]
                  exact Or.inl hmm
                · exact Or.inl ⟨j, hj, hjp, hmm⟩
              · subst hm
                refine Or.inr ?_
                show a ∈ keyListTable ttbl2
                rw [htkeys2 a]
                exact Or.inr rfl
          · have h3 := lengthTable_set
              (Slot.nested (.mk (lvl + 1) ttbl2)) tbl _ hplt
            rw [hslot] at h3
            show lengthTable (tbl.set (hash k lvl)
              (.nested (.mk (lvl + 1) ttbl2))) = lengthTable tbl + 1
            have h4 : lengthSlot (Slot.nested (.mk (lvl + 1) ttbl)) =
                lengthTable ttbl := rfl
            have h5 : lengthSlot (Slot.nested (.mk (lvl + 1) ttbl2)) =
                lengthTable ttbl2 := rfl
            omega

/-- setitem of a key already stored in a well-formed node never
returns, whatever the fuel. -/
theorem setitem_present_none {V : Type} :
    ∀ (fuel : Nat) {lvl : Nat} {tbl : List (Slot V)} {k : Key} {v : V},
      tbl.length = TABLE_SIZE → WfTable lvl 0 tbl →
      k ∈ keyListTable tbl →
      setitem fuel (.mk lvl tbl) k v = none := by
  intro fuel
  induction fuel with
  | zero => intro lvl tbl k v _ _ _; rfl
  | succ g ih =>
    intro lvl tbl k v hlen hw hk
    have hplt : hash k lvl < tbl.length := by
      rw [hlen]
      exact hash_lt
    obtain ⟨_, hmm⟩ := wfTable_key_at_hash hw hk
    cases hslot : slotAt tbl (hash k lvl) with
    | empty =>
      rw [hslot] at hmm
      exact absurd hmm (by simp [keyListSlot])
    | entry k0 v0 =>
      rw [hslot] at hmm
      have hke : k0 = k := by
        have h2 : k = k0 := by simpa [keyListSlot] using hmm
        exact h2.symm
      subst hke
      exact setitem_same_key_none v k0 (g + 1) lvl tbl v0 hslot
    | nested t =>
      rw [setitem_succ, hslot]
      dsimp only
      have hs := wfTable_slotAt hw (hash k lvl) hplt
      rw [hslot] at hs
      obtain ⟨hwn, _, _⟩ := hs
      cases t with
      | mk lvl2 ttbl =>
        obtain ⟨hlvl2, htlen, htwf⟩ := hwn
        subst hlvl2
        rw [hslot] at hmm
        rw [ih htlen htwf hmm]

end InfiniteHashTable

end Spec2Proof
namespace Spec2Proof

namespace InfiniteHashTable

/-! ## A depth measure for strong induction over nested nodes -/

mutual
/-- Depth of a node: one more than its deepest cell. -/
def depthNode {V : Type} : Node V → Nat
  | .mk _ tbl => depthTable tbl + 1
/-- Depth of a table: the deepest cell. -/
def depthTable {V : Type} : List (Slot V) → Nat
  | [] => 0
  | s :: r => max (depthSlot s) (depthTable r)
/-- Depth of a cell: nested nodes carry their own depth. -/
def depthSlot {V : Type} : Slot V → Nat
  | .empty => 0
  | .entry _ _ => 0
  | .nested t => depthNode t
end

theorem depthSlot_slotAt_le {V : Type} :
    ∀ (tbl : List (Slot V)) (p : Nat),
      depthSlot (slotAt tbl p) ≤ depthTable tbl := by
  intro tbl
  induction tbl with
  | nil =>
    intro p
    show depthSlot Slot.empty ≤ 0
    exact Nat.le_refl 0
  | cons s r ih =>
    intro p
    cases p with
    | zero =>
      show depthSlot s ≤ max (depthSlot s) (depthTable r)
      exact Nat.le_max_left _ _
    | succ q =>
      show depthSlot (slotAt r q) ≤ max (depthSlot s) (depthTable r)
      exact Nat.le_trans (ih q) (Nat.le_max_right _ _)

theorem lengthSlot_slotAt_le {V : Type} :
    ∀ (tbl : List (Slot V)) (p : Nat),
      lengthSlot (slotAt tbl p) ≤ lengthTable tbl := by
  intro tbl
  induction tbl with
  | nil =>
    intro p
    show lengthSlot Slot.empty ≤ 0
    exact Nat.le_refl 0
  | cons s r ih =>
    intro p
    cases p with
    | zero =>
      show lengthSlot s ≤ lengthSlot s + lengthTable r
      omega
    | succ q =>
      show lengthSlot (slotAt r q) ≤ lengthSlot s + lengthTable r
      have := ih q
      omega

/-! ## The single-surviving-entry characterisation -/

theorem oneEntryOnly_iff {V : Type} (l : List (Slot V)) :
    oneEntryOnly l = true ↔ ∃ k v, l = [Slot.entry k v] := by
  cases l with
  | nil => simp [oneEntryOnly]
  | cons s r =>
    cases r with
    | cons s2 r2 =>
      constructor
      · intro h
        exact absurd h (by simp [oneEntryOnly])
      · intro ⟨k, v, he⟩
        exact absurd he (by simp)
    | nil =>
      cases s with
      | empty =>
        constructor
        · intro h
          exact absurd h (by simp [oneEntryOnly])
        · intro ⟨k, v, he⟩
          exact absurd he (by simp)
      | entry k0 v0 =>
        constructor
        · intro _
          exact ⟨k0, v0, rfl⟩
        · intro _
          rfl
      | nested t =>
        constructor
        · intro h
          exact absurd h (by simp [oneEntryOnly])
        · intro ⟨k, v, he⟩
          exact absurd he (by simp)

theorem liveSlots_nil_iff {V : Type} :
    ∀ {tbl : List (Slot V)} {lvl i : Nat}, WfTable lvl i tbl →
      (liveSlots tbl = [] ↔ lengthTable tbl = 0) := by
  intro tbl
  induction tbl with
  | nil => intro lvl i _; simp [liveSlots, lengthTable]
  | cons s r ih =>
    intro lvl i hw
    obtain ⟨hs, hr⟩ := hw
    cases s with
    | empty =>
      have he : liveSlots (Slot.empty :: r) = liveSlots r := rfl
      have he2 : lengthTable (Slot.empty :: r) = lengthTable r := by
        show lengthSlot (Slot.empty : Slot V) + lengthTable r = _
        have h0 : lengthSlot (Slot.empty : Slot V) = 0 := rfl
        omega
      rw [he, he2]
      exact ih hr
    | entry k0 v0 =>
      have he : liveSlots (Slot.entry k0 v0 :: r) =
          Slot.entry k0 v0 :: liveSlots r := rfl
      rw [he]
      have he2 : lengthTable (Slot.entry k0 v0 :: r) =
          1 + lengthTable r := rfl
      rw [he2]
      constructor
      · intro h
        exact absurd h (by simp)
      · intro h
        omega
    | nested t =>
      have he : liveSlots (Slot.nested t :: r) =
          Slot.nested t :: liveSlots r := rfl
      rw [he]
      have hlent : 2 ≤ length t := hs.2.2
      have he2 : lengthTable (Slot.nested t :: r) =
          length t + lengthTable r := rfl
      rw [he2]
      constructor
      · intro h
        exact absurd h (by simp)
      · intro h
        omega

/-- On a well-placed table the single-live-entry test is exactly the
entry count being one. -/
theorem oneEntry_iff_len1 {V : Type} :
    ∀ {tbl : List (Slot V)} {lvl i : Nat}, WfTable lvl i tbl →
      (oneEntryOnly (liveSlots tbl) = true ↔ lengthTable tbl = 1) := by
  intro tbl
  induction tbl with
  | nil =>
    intro lvl i _
    show oneEntryOnly ([] : List (Slot V)) = true ↔ (0 : Nat) = 1
    simp [oneEntryOnly]
  | cons s r ih =>
    intro lvl i hw
    obtain ⟨hs, hr⟩ := hw
    cases s with
    | empty =>
      have he : liveSlots (Slot.empty :: r) = liveSlots r := rfl
      have he2 : lengthTable (Slot.empty :: r) = lengthTable r := by
        show lengthSlot (Slot.empty : Slot V) + lengthTable r = _
        have h0 : lengthSlot (Slot.empty : Slot V) = 0 := rfl
        omega
      rw [he, he2]
      exact ih hr
    | entry k0 v0 =>
      have he : liveSlots (Slot.entry k0 v0 :: r) =
          Slot.entry k0 v0 :: liveSlots r := rfl
      have he2 : lengthTable (Slot.entry k0 v0 :: r) =
          1 + lengthTable r := rfl
      rw [he, he2]
      cases hlr : liveSlots r with
      | nil =>
        have hr0 : lengthTable r = 0 := (liveSlots_nil_iff hr).mp hlr
        rw [hr0]
        constructor
        · intro _; rfl
        · intro _; rfl
      | cons s2 r2 =>
        have hrne : lengthTable r ≠ 0 := by
          intro h0
          have := (liveSlots_nil_iff hr).mpr h0
          rw [hlr] at this
          exact absurd this (by simp)
        constructor
        · intro h
          exact absurd h (by simp [oneEntryOnly])
        · intro h
          omega
    | nested t =>
      have he : liveSlots (Slot.nested t :: r) =
          Slot.nested t :: liveSlots r := rfl
      have hlent : 2 ≤ length t := hs.2.2
      have he2 : lengthTable (Slot.nested t :: r) =
          length t + lengthTable r := rfl
      rw [he, he2]
      constructor
      · intro h
        rw [oneEntryOnly_iff] at h
        obtain ⟨k, v, hk⟩ := h
        exact absurd hk (by simp)
      · intro h
        omega

theorem keyListTable_live {V : Type} :
    ∀ (tbl : List (Slot V)),
      keyListTable (liveSlots tbl) = keyListTable tbl := by
  intro tbl
  induction tbl with
  | nil => rfl
  | cons s r ih =>
    cases s with
    | empty =>
      have he : liveSlots (Slot.empty :: r) = liveSlots r := rfl
      rw [he, ih]
      show keyListTable r = keyListSlot (Slot.empty : Slot V) ++ keyListTable r
      rfl
    | entry k0 v0 =>
      have he : liveSlots (Slot.entry k0 v0 :: r) =
          Slot.entry k0 v0 :: liveSlots r := rfl
      rw [he]
      show keyListSlot (Slot.entry k0 v0) ++ keyListTable (liveSlots r) = _
      rw [ih]
      rfl
    | nested t =>
      have he : liveSlots (Slot.nested t :: r) =
          Slot.nested t :: liveSlots r := rfl
      rw [he]
      show keyListSlot (Slot.nested t) ++ keyListTable (liveSlots r) = _
      rw [ih]
      rfl

end InfiniteHashTable

end Spec2Proof
namespace Spec2Proof

namespace InfiniteHashTable

/-- One-step reduction of delitem. -/
theorem delitem_eq {V : Type} (lvl : Nat) (tbl : List (Slot V)) (k : Key) :
    delitem (.mk lvl tbl) k =
      (match delitemTable tbl (hash k lvl) k with
        | .error e => Except.error e
        | .ok (tbl2, chk) =>
          Except.ok (Node.mk lvl tbl2,
            chk && oneEntryOnly (liveSlots tbl2))) := rfl

/-- One-step reduction of delitemSlot on a nested cell. -/
theorem delitemSlot_nested {V : Type} (t : Node V) (k : Key) :
    delitemSlot (.nested t) k =
      (match delitem t k with
        | .error e => Except.error e
        | .ok (t2, internal) =>
          if internal then
            match liveSlots t2.table with
            | [s1] => Except.ok (s1, true)
            | _ => Except.ok (Slot.nested t2, false)
          else Except.ok (Slot.nested t2, false)) := rfl

/-- The specification of a successful delitem of a stored key on a
well-formed table: the canonical form is preserved, the key set loses
exactly the key, the entry count drops by one, and the returned flag
says whether a single entry is left. -/
theorem delitem_spec_aux {V : Type} :
    ∀ (n : Nat) {lvl : Nat} {tbl : List (Slot V)} {k : Key} {t2 : Node V}
      {b : Bool},
      depthTable tbl ≤ n →
      delitem (.mk lvl tbl) k = .ok (t2, b) →
      tbl.length = TABLE_SIZE → WfTable lvl 0 tbl →
      k ∈ keyListTable tbl →
      ∃ tbl2, t2 = .mk lvl tbl2 ∧ tbl2.length = TABLE_SIZE ∧
        WfTable lvl 0 tbl2 ∧
        (∀ a, a ∈ keyListTable tbl2 ↔ (a ∈ keyListTable tbl ∧ a ≠ k)) ∧
        lengthTable tbl2 + 1 = lengthTable tbl ∧
        (b = true ↔ lengthTable tbl2 = 1) := by
  intro n
  induction n using Nat.strong_induction_on with
  | _ n ihn =>
    intro lvl tbl k t2 b hdep h hlen hw hk
    have hplt : hash k lvl < tbl.length := by
      rw [hlen]
      exact hash_lt
    obtain ⟨_, hmm⟩ := wfTable_key_at_hash hw hk
    rw [delitem_eq, delitemTable_at k tbl _ hplt] at h
    cases hslot : slotAt tbl (hash k lvl) with
    | empty =>
      rw [hslot] at hmm
      exact absurd hmm (by simp [keyListSlot])
    | entry k0 v0 =>
      rw [hslot] at hmm h
      have hke : k0 = k := by
        have h2 : k = k0 := by simpa [keyListSlot] using hmm
        exact h2.symm
      rw [show delitemSlot (Slot.entry k0 v0) k =
        .ok (if k0 = k then Slot.empty else .entry k0 v0, true) from rfl,
        if_pos hke] at h
      dsimp only at h
      injection h with h2
      injection h2 with h3 h4
      subst h3
      subst h4
      have hwf2 : WfTable lvl 0 (tbl.set (hash k lvl) Slot.empty) :=
        wfTable_set hw trivial
      refine ⟨tbl.set (hash k lvl) Slot.empty, rfl, ?_, hwf2, ?_, ?_, ?_⟩
      · rw [List.length_set]
        exact hlen
      · intro a
        rw [keyListTable_set_mem _ tbl _ hplt]
        constructor
        · rintro (⟨j, hj, hne, hm⟩ | hm)
          · refine ⟨keyListTable_mem.mpr ⟨j, hj, hm⟩, ?_⟩
            intro hak
            subst hak
            have h5 := wfTable_key_hash hw hj hm
            omega
          · exact absurd hm (by simp [keyListSlot])
        · rintro ⟨hm, hne⟩
          obtain ⟨j, hj, hmm2⟩ := keyListTable_mem.mp hm
          refine Or.inl ⟨j, hj, ?_, hmm2⟩
          intro hjp
          rw [hjp, hslot] at hmm2
          have h5 : a = k0 := by simpa [keyListSlot] using hmm2
          exact hne (by rw [h5, hke])
      · have h3 := lengthTable_set Slot.empty tbl _ hplt
        rw [hslot] at h3
        have h4 : lengthSlot (Slot.entry k0 v0) = 1 := rfl
        have h5 : lengthSlot (Slot.empty : Slot V) = 0 := rfl
        omega
      · rw [Bool.true_and]
        exact oneEntry_iff_len1 hwf2
    | nested child =>
      rw [hslot] at hmm h
      rw [delitemSlot_nested] at h
      have hs := wfTable_slotAt hw (hash k lvl) hplt
      rw [hslot] at hs
      obtain ⟨hwn, hkeysn, hlenn⟩ := hs
      cases child with
      | mk lvl2 ctbl =>
        obtain ⟨hlvl2, hclen, hcwf⟩ := hwn
        subst hlvl2
        have hkc : k ∈ keyListTable ctbl := hmm
        cases hdc : delitem (.mk (lvl + 1) ctbl) k with
        | error e =>
          rw [hdc] at h
          exact absurd h (by simp)
        | ok pr =>
          obtain ⟨child2, internal⟩ := pr
          rw [hdc] at h
          dsimp only at h
          have hdepc : depthTable ctbl < n := by
            have h1 : depthSlot (slotAt tbl (hash k lvl)) ≤
                depthTable tbl := depthSlot_slotAt_le tbl _
            rw [hslot] at h1
            have h3 : depthSlot (Slot.nested (Node.mk (lvl + 1) ctbl)) =
                depthTable ctbl + 1 := rfl
            omega
          obtain ⟨ctbl2, hce, hclen2, hcwf2, hckeys2, hclng2, hcflag⟩ :=
            ihn (depthTable ctbl) hdepc (le_refl _) hdc hclen hcwf hkc
          subst hce
          have hlent : 2 ≤ lengthTable ctbl := hlenn
          cases internal with
          | true =>
            have hone : oneEntryOnly (liveSlots ctbl2) = true :=
              (oneEntry_iff_len1 hcwf2).mpr (hcflag.mp rfl)
            obtain ⟨k9, v9, hlive⟩ := (oneEntryOnly_iff _).mp hone
            rw [show (Node.mk (lvl + 1) ctbl2).table = ctbl2 from rfl,
              hlive] at h
            dsimp only at h
            injection h with h2
            injection h2 with h3 h4
            subst h3
            subst h4
            have hkeq : keyListTable ctbl2 = [k9] := by
              rw [← keyListTable_live, hlive]
              rfl
            have hk9mem : k9 ∈ keyListTable ctbl2 := by
              rw [hkeq]
              simp
            have hk9old := (hckeys2 k9).mp hk9mem
            have hhash9 : hash k9 lvl = 0 + hash k lvl :=
              hkeysn k9 hk9old.1
            have hwf2 : WfTable lvl 0
                (tbl.set (hash k lvl) (.entry k9 v9)) :=
              wfTable_set hw (by
                show hash k9 lvl = 0 + hash k lvl
                exact hhash9)
            refine ⟨tbl.set (hash k lvl) (.entry k9 v9), rfl, ?_, hwf2,
              ?_, ?_, ?_⟩
            · rw [List.length_set]
              exact hlen
            · intro a
              rw [keyListTable_set_mem _ tbl _ hplt]
              constructor
              · rintro (⟨j, hj, hne, hm⟩ | hm)
                · refine ⟨keyListTable_mem.mpr ⟨j, hj, hm⟩, ?_⟩
                  intro hak
                  subst hak
                  have h5 := wfTable_key_hash hw hj hm
                  omega
                · have ha9 : a = k9 := by simpa [keyListSlot] using hm
                  subst ha9
                  refine ⟨keyListTable_mem.mpr
                    ⟨hash k lvl, hplt, ?_⟩, hk9old.2⟩
                  rw [hslot]
                  exact hk9old.1
              · rintro ⟨hm, hne⟩
                obtain ⟨j, hj, hmm2⟩ := keyListTable_mem.mp hm
                by_cases hjp : j = hash k lvl
                · rw [hjp, hslot] at hmm2
                  have hac : a ∈ keyListTable ctbl := hmm2
                  have hac2 : a ∈ keyListTable ctbl2 :=
                    (hckeys2 a).mpr ⟨hac, hne⟩
                  rw [hkeq] at hac2
                  have ha9 : a = k9 := by simpa using hac2
                  refine Or.inr ?_
                  rw [ha9]
                  simp [keyListSlot]
                · exact Or.inl ⟨j, hj, hjp, hmm2⟩
            · have h3 := lengthTable_set
                (Slot.entry k9 v9) tbl _ hplt
              rw [hslot] at h3
              have h4 : lengthSlot
                  (Slot.nested (Node.mk (lvl + 1) ctbl)) =
                  lengthTable ctbl := rfl
              have h5 : lengthSlot (Slot.entry k9 v9) = 1 := rfl
              have h6 : lengthTable ctbl2 = 1 := hcflag.mp rfl
              omega
            · rw [Bool.true_and]
              exact oneEntry_iff_len1 hwf2
          | false =>
            injection h with h2
            injection h2 with h3 h4
            subst h3
            subst h4
            have hne1 : lengthTable ctbl2 ≠ 1 := by
              intro h1
              have := hcflag.mpr h1
              exact absurd this (by simp)
            have hge2 : 2 ≤ lengthTable ctbl2 := by
              omega
            have hwf2 : WfTable lvl 0 (tbl.set (hash k lvl)
                (.nested (.mk (lvl + 1) ctbl2))) := by
              refine wfTable_set hw ?_
              refine ⟨⟨rfl, hclen2, hcwf2⟩, ?_, ?_⟩
              · intro a ha
                have ha2 : a ∈ keyListTable ctbl2 := ha
                exact hkeysn a ((hckeys2 a).mp ha2).1
              · show 2 ≤ lengthTable ctbl2
                exact hge2
            refine ⟨tbl.set (hash k lvl)
              (.nested (.mk (lvl + 1) ctbl2)), rfl, ?_, hwf2, ?_, ?_, ?_⟩
            · rw [List.length_set]
              exact hlen
            · intro a
              rw [keyListTable_set_mem _ tbl _ hplt]
              constructor
              · rintro (⟨j, hj, hne, hm⟩ | hm)
                · refine ⟨keyListTable_mem.mpr ⟨j, hj, hm⟩, ?_⟩
                  intro hak
                  subst hak
                  have h5 := wfTable_key_hash hw hj hm
                  omega
                · have hm2 : a ∈ keyListTable ctbl2 := hm
                  have hold := (hckeys2 a).mp hm2
                  refine ⟨keyListTable_mem.mpr
                    ⟨hash k lvl, hplt, ?_⟩, hold.2⟩
                  rw [hslot]
                  exact hold.1
              · rintro ⟨hm, hne⟩
                obtain ⟨j, hj, hmm2⟩ := keyListTable_mem.mp hm
                by_cases hjp : j = hash k lvl
                · rw [hjp, hslot] at hmm2
                  have hac : a ∈ keyListTable ctbl := hmm2
                  refine Or.inr ?_
                  show a ∈ keyListTable ctbl2
                  exact (hckeys2 a).mpr ⟨hac, hne⟩
                · exact Or.inl ⟨j, hj, hjp, hmm2⟩
            · have h3 := lengthTable_set
                (Slot.nested (.mk (lvl + 1) ctbl2)) tbl _ hplt
              rw [hslot] at h3
              have h4 : lengthSlot
                  (Slot.nested (Node.mk (lvl + 1) ctbl)) =
                  lengthTable ctbl := rfl
              have h5 : lengthSlot
                  (Slot.nested (Node.mk (lvl + 1) ctbl2)) =
                  lengthTable ctbl2 := rfl
              omega
            · rw [Bool.false_and]
              constructor
              · intro hff
                exact absurd hff (by simp)
              · intro h1
                have h6 := lengthSlot_slotAt_le
                  (tbl.set (hash k lvl)
                    (.nested (.mk (lvl + 1) ctbl2))) (hash k lvl)
                rw [slotAt_set_self hplt] at h6
                have h7 : lengthSlot
                    (Slot.nested (Node.mk (lvl + 1) ctbl2)) =
                    lengthTable ctbl2 := rfl
                exact absurd h1 (by omega)

/-- The node-level delete specification. -/
theorem delitem_spec {V : Type} {lvl : Nat} {t t2 : Node V} {k : Key}
    {b : Bool} (h : delitem t k = .ok (t2, b)) (hw : WfNode lvl t)
    (hk : k ∈ keyList t) :
    WfNode lvl t2 ∧ (∀ a, a ∈ keyList t2 ↔ (a ∈ keyList t ∧ a ≠ k)) ∧
    length t2 + 1 = length t ∧ (b = true ↔ length t2 = 1) := by
  cases t with
  | mk lvl2 tbl =>
    obtain ⟨hlv, hlen, hwt⟩ := hw
    subst hlv
    obtain ⟨tbl2, he, hlen2, hwt2, hkeys2, hlng2, hflag⟩ :=
      delitem_spec_aux (depthTable tbl) (le_refl _) h hlen hwt hk
    subst he
    exact ⟨⟨rfl, hlen2, hwt2⟩, hkeys2, hlng2, hflag⟩

/-- One-step reduction of get_location. -/
theorem get_location_eq {V : Type} (lvl : Nat) (tbl : List (Slot V))
    (k : Key) :
    get_location (.mk lvl tbl) k =
      (match locTable tbl (hash k lvl) k with
        | none => none
        | some rest => some (hash k lvl :: rest)) := rfl

/-- A stored key of a well-formed node has a location, headed by its
hash at the node's level. -/
theorem loc_exists_aux {V : Type} :
    ∀ (n : Nat) {lvl : Nat} {tbl : List (Slot V)} {k : Key},
      depthTable tbl ≤ n →
      tbl.length = TABLE_SIZE → WfTable lvl 0 tbl →
      k ∈ keyListTable tbl →
      ∃ rest, get_location (.mk lvl tbl) k =
        some (hash k lvl :: rest) := by
  intro n
  induction n using Nat.strong_induction_on with
  | _ n ihn =>
    intro lvl tbl k hdep hlen hw hk
    have hplt : hash k lvl < tbl.length := by
      rw [hlen]
      exact hash_lt
    obtain ⟨_, hmm⟩ := wfTable_key_at_hash hw hk
    rw [get_location_eq, locTable_at k tbl _ hplt]
    cases hslot : slotAt tbl (hash k lvl) with
    | empty =>
      rw [hslot] at hmm
      exact absurd hmm (by simp [keyListSlot])
    | entry k0 v0 =>
      rw [hslot] at hmm
      have hke : k0 = k := by
        have h2 : k = k0 := by simpa [keyListSlot] using hmm
        exact h2.symm
      rw [show locSlot (Slot.entry k0 v0) k =
        (if k0 = k then some [] else none) from rfl, if_pos hke]
      exact ⟨[], rfl⟩
    | nested child =>
      rw [hslot] at hmm
      have hs := wfTable_slotAt hw (hash k lvl) hplt
      rw [hslot] at hs
      obtain ⟨hwn, _, _⟩ := hs
      cases child with
      | mk lvl2 ctbl =>
        obtain ⟨hlvl2, hclen, hcwf⟩ := hwn
        subst hlvl2
        have hkc : k ∈ keyListTable ctbl := hmm
        have hdepc : depthTable ctbl < n := by
          have h1 : depthSlot (slotAt tbl (hash k lvl)) ≤
              depthTable tbl := depthSlot_slotAt_le tbl _
          rw [hslot] at h1
          have h3 : depthSlot (Slot.nested (Node.mk (lvl + 1) ctbl)) =
              depthTable ctbl + 1 := rfl
          omega
        obtain ⟨rest2, hloc2⟩ :=
          ihn (depthTable ctbl) hdepc (le_refl _) hclen hcwf hkc
        rw [show locSlot (Slot.nested (Node.mk (lvl + 1) ctbl)) k =
          get_location (.mk (lvl + 1) ctbl) k from rfl, hloc2]
        exact ⟨hash k (lvl + 1) :: rest2, rfl⟩

end InfiniteHashTable

end Spec2Proof
namespace Spec2Proof

namespace InfiniteHashTable

theorem keyList_emptyNode {V : Type} (lvl : Nat) :
    keyList (emptyNode lvl : Node V) = [] := by
  show keyListTable (emptyTable V) = []
  rw [show emptyTable V =
    List.replicate TABLE_SIZE (Slot.empty : Slot V) from rfl,
    keyListTable_replicate]

theorem length_emptyNode {V : Type} (lvl : Nat) :
    length (emptyNode lvl : Node V) = 0 := by
  show lengthTable (emptyTable V) = 0
  rw [show emptyTable V =
    List.replicate TABLE_SIZE (Slot.empty : Slot V) from rfl,
    lengthTable_replicate]

/-- The node-level insert specification. -/
theorem setitem_spec_node {V : Type} {fuel lvl : Nat} {t out : Node V}
    {k : Key} {v : V} (h : setitem fuel t k v = some out)
    (hw : WfNode lvl t) (hk : k ∉ keyList t) :
    WfNode lvl out ∧
    (∀ a, a ∈ keyList out ↔ (a ∈ keyList t ∨ a = k)) ∧
    length out = length t + 1 := by
  cases t with
  | mk lvl2 tbl =>
    obtain ⟨hlv, hlen, hwt⟩ := hw
    subst hlv
    obtain ⟨tbl2, he, hlen2, hwt2, hkeys2, hlng2⟩ :=
      setitem_spec fuel h hlen hwt hk
    subst he
    exact ⟨⟨rfl, hlen2, hwt2⟩, hkeys2, hlng2⟩

/-- The node-level divergence of setitem on a stored key. -/
theorem setitem_present_none_node {V : Type} {lvl : Nat} {t : Node V}
    {k : Key} {v : V} (hw : WfNode lvl t) (hk : k ∈ keyList t) :
    ∀ fuel, setitem fuel t k v = none := by
  intro fuel
  cases t with
  | mk lvl2 tbl =>
    obtain ⟨hlv, hlen, hwt⟩ := hw
    subst hlv
    exact setitem_present_none fuel hlen hwt hk

/-- Two distinct stored keys with the same hash at a node's level force
the shared cell to be a nested node holding both. -/
theorem two_keys_nested {V : Type} {lvl : Nat} {tbl : List (Slot V)}
    {x y : Key} (hw : WfTable lvl 0 tbl)
    (hx : x ∈ keyListTable tbl) (hy : y ∈ keyListTable tbl)
    (hne : x ≠ y) (hh : hash x lvl = hash y lvl) :
    ∃ c, slotAt tbl (hash y lvl) = Slot.nested c ∧
      x ∈ keyList c ∧ y ∈ keyList c := by
  obtain ⟨hxlt, hxm⟩ := wfTable_key_at_hash hw hx
  obtain ⟨hylt, hym⟩ := wfTable_key_at_hash hw hy
  rw [hh] at hxm
  cases hslot : slotAt tbl (hash y lvl) with
  | empty =>
    rw [hslot] at hym
    exact absurd hym (by simp [keyListSlot])
  | entry k0 v0 =>
    rw [hslot] at hxm hym
    have h1 : x = k0 := by simpa [keyListSlot] using hxm
    have h2 : y = k0 := by simpa [keyListSlot] using hym
    exact absurd (h1.trans h2.symm) hne
  | nested c =>
    rw [hslot] at hxm hym
    exact ⟨c, rfl, hxm, hym⟩

theorem hash_cons2_zero (a b : Char) (r : List Char) :
    hash (a :: b :: r) 0 = a.toNat % (TABLE_SIZE - 1) := by
  unfold hash
  rw [dif_pos (by simp : (0 : Nat) < (a :: b :: r).length)]
  rfl

theorem hash_cons2_one (a b : Char) (r : List Char) :
    hash (a :: b :: r) 1 = b.toNat % (TABLE_SIZE - 1) := by
  unfold hash
  rw [dif_pos (by simp : (1 : Nat) < (a :: b :: r).length)]
  rfl

/-- Keys of length at least two with the same first two characters
hash together at the first two levels. -/
theorem hash_eq_of_take2 {k1 k2 : Key} (h1 : 2 ≤ k1.length)
    (h2 : 2 ≤ k2.length) (ht : k1.take 2 = k2.take 2) :
    hash k1 0 = hash k2 0 ∧ hash k1 1 = hash k2 1 := by
  cases k1 with
  | nil => exact absurd h1 (by simp)
  | cons a r1 =>
    cases r1 with
    | nil => exact absurd h1 (by simp)
    | cons b r1b =>
      cases k2 with
      | nil => exact absurd h2 (by simp)
      | cons a2 r2 =>
        cases r2 with
        | nil => exact absurd h2 (by simp)
        | cons b2 r2b =>
          have ht2 : a = a2 ∧ b = b2 := by
            have h3 : (a :: b :: r1b).take 2 = [a, b] := rfl
            have h4 : (a2 :: b2 :: r2b).take 2 = [a2, b2] := rfl
            rw [h3, h4] at ht
            injection ht with h5 h6
            injection h6 with h7 h8
            exact ⟨h5, h7⟩
          obtain ⟨ha, hb⟩ := ht2
          subst ha
          subst hb
          rw [hash_cons2_zero, hash_cons2_zero, hash_cons2_one,
            hash_cons2_one]
          exact ⟨rfl, rfl⟩

/-- A driver for a sequence of Set operations: each pair goes through
setitem within the given recursion bound. -/
def setList {V : Type} : Nat → Node V → List (Key × V) → Option (Node V)
  | _, t, [] => some t
  | fuel, t, (k, v) :: rest =>
    match setitem fuel t k v with
    | none => none
    | some t2 => setList fuel t2 rest

/-- A successful sequence of Sets preserves the canonical form, grows
the key set by the keys of the sequence, counts one entry per
operation - and forces the keys of the run to be pairwise distinct,
because setitem on a stored key never returns. -/
theorem setList_spec {V : Type} :
    ∀ (l : List (Key × V)) {fuel lvl : Nat} {t t2 : Node V},
      setList fuel t l = some t2 → WfNode lvl t →
      WfNode lvl t2 ∧
      (∀ a, a ∈ keyList t2 ↔ (a ∈ keyList t ∨ a ∈ l.map Prod.fst)) ∧
      length t2 = length t + l.length ∧
      (∀ k0, k0 ∈ l.map Prod.fst → k0 ∉ keyList t) ∧
      (l.map Prod.fst).Nodup := by
  intro l
  induction l with
  | nil =>
    intro fuel lvl t t2 h hw
    cases fuel with
    | zero =>
      injection h with h2
      subst h2
      exact ⟨hw, by simp, by simp, by simp, by simp⟩
    | succ g =>
      injection h with h2
      subst h2
      exact ⟨hw, by simp, by simp, by simp, by simp⟩
  | cons hd tl ih =>
    intro fuel lvl t t2 h hw
    obtain ⟨k, v⟩ := hd
    cases hst : setitem fuel t k v with
    | none =>
      rw [show setList fuel t ((k, v) :: tl) =
        (match setitem fuel t k v with
          | none => none
          | some t3 => setList fuel t3 tl) from rfl, hst] at h
      exact Option.noConfusion h
    | some tMid =>
      rw [show setList fuel t ((k, v) :: tl) =
        (match setitem fuel t k v with
          | none => none
          | some t3 => setList fuel t3 tl) from rfl, hst] at h
      dsimp only at h
      have hfresh : k ∉ keyList t := by
        intro hm
        rw [setitem_present_none_node hw hm fuel] at hst
        exact Option.noConfusion hst
      obtain ⟨hwM, hkeysM, hlngM⟩ := setitem_spec_node hst hw hfresh
      obtain ⟨hw2, hkeys2, hlng2, hfresh2, hnd2⟩ := ih h hwM
      refine ⟨hw2, ?_, ?_, ?_, ?_⟩
      · intro a
        rw [hkeys2 a, hkeysM a, List.map_cons, List.mem_cons]
        tauto
      · rw [hlng2, hlngM, List.length_cons]
        omega
      · intro k0 hk0 hmem
        rw [List.map_cons, List.mem_cons] at hk0
        rcases hk0 with hk0 | hk0
        · subst hk0
          exact hfresh hmem
        · exact hfresh2 k0 hk0 ((hkeysM k0).mpr (Or.inl hmem))
      · rw [List.map_cons]
        refine List.Nodup.cons ?_ hnd2
        intro hm
        exact hfresh2 k hm ((hkeysM k).mpr (Or.inr rfl))

end InfiniteHashTable

end Spec2Proof
namespace Spec2Proof

namespace InfiniteHashTable

/-- C8: transitive trie collapse.  Insert three distinct keys sharing a
2-character prefix into a fresh trie, then delete two: the survivor is
a direct entry of the root (no nested node wraps a sole surviving
entry: in fact no nested node remains at all), Locate on it returns
the one-step sequence [hash(k, 0)], and that sequence is strictly
shorter than the one Locate returned before the deletions, which had
at least three steps. -/
theorem C8_trie_collapse_transitive {V : Type} (k1 k2 k3 : Key)
    (v1 v2 v3 : V) (fuel : Nat) (t1 t2 t3 t4 t5 : Node V) (b1 b2 : Bool)
    (hl1 : 2 ≤ k1.length) (hl2 : 2 ≤ k2.length) (hl3 : 2 ≤ k3.length)
    (hp13 : k1.take 2 = k3.take 2) (hp23 : k2.take 2 = k3.take 2)
    (hne12 : k1 ≠ k2) (hne13 : k1 ≠ k3) (hne23 : k2 ≠ k3)
    (hs1 : setitem fuel (emptyNode 0) k1 v1 = some t1)
    (hs2 : setitem fuel t1 k2 v2 = some t2)
    (hs3 : setitem fuel t2 k3 v3 = some t3)
    (hd1 : delitem t3 k1 = .ok (t4, b1))
    (hd2 : delitem t4 k2 = .ok (t5, b2)) :
    (∀ p (c : Node V), slotAt t5.table p ≠ Slot.nested c) ∧
    (∃ v, slotAt t5.table (hash k3 0) = Slot.entry k3 v) ∧
    get_location t5 k3 = some [hash k3 0] ∧
    (∃ loc3, get_location t3 k3 = some loc3 ∧ 3 ≤ loc3.length ∧
      ([hash k3 0] : List Nat).length < loc3.length) := by
  -- the three inserts
  have hkeys0 : keyList (emptyNode 0 : Node V) = [] := keyList_emptyNode 0
  obtain ⟨hw1, hkeys1, hlng1⟩ := setitem_spec_node hs1 (wfNode_empty 0)
    (by rw [hkeys0]; simp)
  obtain ⟨hw2, hkeys2, hlng2⟩ := setitem_spec_node hs2 hw1
    (by
      intro hm
      rcases (hkeys1 k2).mp hm with hm2 | hm2
      · rw [hkeys0] at hm2
        exact absurd hm2 (by simp)
      · exact hne12 hm2.symm)
  obtain ⟨hw3, hkeys3, hlng3⟩ := setitem_spec_node hs3 hw2
    (by
      intro hm
      rcases (hkeys2 k3).mp hm with hm2 | hm2
      · rcases (hkeys1 k3).mp hm2 with hm3 | hm3
        · rw [hkeys0] at hm3
          exact absurd hm3 (by simp)
        · exact hne13 hm3.symm
      · exact hne23 hm2.symm)
  have hkeys3iff : ∀ a, a ∈ keyList t3 ↔ (a = k1 ∨ a = k2 ∨ a = k3) := by
    intro a
    rw [hkeys3 a, hkeys2 a, hkeys1 a, hkeys0]
    simp
    tauto
  have hlng3v : length t3 = 3 := by
    rw [hlng3, hlng2, hlng1, length_emptyNode]
  -- the two deletes
  obtain ⟨hw4, hkeys4, hlng4, _⟩ := delitem_spec hd1 hw3
    ((hkeys3iff k1).mpr (Or.inl rfl))
  obtain ⟨hw5, hkeys5, hlng5, _⟩ := delitem_spec hd2 hw4
    ((hkeys4 k2).mpr ⟨(hkeys3iff k2).mpr (Or.inr (Or.inl rfl)), hne12.symm⟩)
  have hk3in5 : k3 ∈ keyList t5 :=
    (hkeys5 k3).mpr ⟨(hkeys4 k3).mpr
      ⟨(hkeys3iff k3).mpr (Or.inr (Or.inr rfl)), hne13.symm⟩, hne23.symm⟩
  have hlng5v : length t5 = 1 := by omega
  -- the surviving state: a single direct entry at the root
  cases t5 with
  | mk lvl5 tbl5 =>
    obtain ⟨hlv5, hlen5, hwt5⟩ := hw5
    subst hlv5
    have hnonest : ∀ p (c : Node V), slotAt tbl5 p ≠ Slot.nested c := by
      intro p c hslot
      by_cases hplt : p < tbl5.length
      · have hs := wfTable_slotAt hwt5 p hplt
        rw [hslot] at hs
        have h2 : 2 ≤ length c := hs.2.2
        have h3 := lengthSlot_slotAt_le tbl5 p
        rw [hslot] at h3
        have h4 : lengthSlot (Slot.nested c) = length c := by
          cases c with
          | mk lvlc tblc => rfl
        have h5 : lengthTable tbl5 = 1 := hlng5v
        omega
      · have h6 : slotAt tbl5 p = Slot.empty := by
          unfold slotAt
          rw [List.getD_eq_getElem?_getD,
            List.getElem?_eq_none (by omega : tbl5.length ≤ p)]
          rfl
        rw [h6] at hslot
        exact Slot.noConfusion hslot
    have hplt3 : hash k3 0 < tbl5.length := by
      rw [hlen5]
      exact hash_lt
    obtain ⟨_, hmm5⟩ := wfTable_key_at_hash hwt5 hk3in5
    have hentry : ∃ v, slotAt tbl5 (hash k3 0) = Slot.entry k3 v := by
      cases hslot : slotAt tbl5 (hash k3 0) with
      | empty =>
        rw [hslot] at hmm5
        exact absurd hmm5 (by simp [keyListSlot])
      | entry k0 v0 =>
        rw [hslot] at hmm5
        have h2 : k3 = k0 := by simpa [keyListSlot] using hmm5
        exact ⟨v0, by rw [← h2]⟩
      | nested c =>
        exact absurd hslot (hnonest _ c)
    obtain ⟨v5, hslot5⟩ := hentry
    have hloc5 : get_location (.mk 0 tbl5) k3 = some [hash k3 0] := by
      rw [get_location_eq, locTable_at k3 tbl5 _ hplt3, hslot5]
      rw [show locSlot (Slot.entry k3 v5) k3 =
        (if k3 = k3 then some [] else none) from rfl, if_pos rfl]
    refine ⟨hnonest, ⟨v5, hslot5⟩, hloc5, ?_⟩
    -- the location before the deletions: at least three levels deep
    obtain ⟨hh0, hh1⟩ := hash_eq_of_take2 hl1 hl3 hp13
    cases t3 with
    | mk lvl3 tbl3 =>
      obtain ⟨hlv3, hlen3, hwt3⟩ := hw3
      subst hlv3
      have hk1in3 : k1 ∈ keyListTable tbl3 := (hkeys3iff k1).mpr (Or.inl rfl)
      have hk3in3 : k3 ∈ keyListTable tbl3 :=
        (hkeys3iff k3).mpr (Or.inr (Or.inr rfl))
      obtain ⟨c1, hslotc1, hk1c1, hk3c1⟩ :=
        two_keys_nested hwt3 hk1in3 hk3in3 hne13 hh0
      have hplt33 : hash k3 0 < tbl3.length := by
        rw [hlen3]
        exact hash_lt
      have hsc1 := wfTable_slotAt hwt3 (hash k3 0) hplt33
      rw [hslotc1] at hsc1
      obtain ⟨hwc1, _, _⟩ := hsc1
      cases c1 with
      | mk lvlc1 ctbl1 =>
        obtain ⟨hlvc1, hclen1, hcwf1⟩ := hwc1
        subst hlvc1
        obtain ⟨c2, hslotc2, _, hk3c2⟩ :=
          two_keys_nested hcwf1 hk1c1 hk3c1 hne13 hh1
        have hplt34 : hash k3 1 < ctbl1.length := by
          rw [hclen1]
          exact hash_lt
        have hsc2 := wfTable_slotAt hcwf1 (hash k3 1) hplt34
        rw [hslotc2] at hsc2
        obtain ⟨hwc2, _, _⟩ := hsc2
        cases c2 with
        | mk lvlc2 ctbl2 =>
          obtain ⟨hlvc2, hclen2, hcwf2⟩ := hwc2
          subst hlvc2
          obtain ⟨rest2, hloc2⟩ := loc_exists_aux (depthTable ctbl2)
            (le_refl _) hclen2 hcwf2 hk3c2
          have hloc1 : get_location (.mk (0 + 1) ctbl1) k3 =
              some (hash k3 (0 + 1) :: hash k3 (0 + 1 + 1) :: rest2) := by
            rw [get_location_eq, locTable_at k3 ctbl1 _ hplt34, hslotc2]
            rw [show locSlot (Slot.nested (Node.mk (0 + 1 + 1) ctbl2)) k3 =
              get_location (.mk (0 + 1 + 1) ctbl2) k3 from rfl, hloc2]
          have hloc3 : get_location (.mk 0 tbl3) k3 =
              some (hash k3 0 :: hash k3 (0 + 1) ::
                hash k3 (0 + 1 + 1) :: rest2) := by
            rw [get_location_eq, locTable_at k3 tbl3 _ hplt33, hslotc1]
            rw [show locSlot (Slot.nested (Node.mk (0 + 1) ctbl1)) k3 =
              get_location (.mk (0 + 1) ctbl1) k3 from rfl, hloc1]
          refine ⟨_, hloc3, ?_, ?_⟩
          · simp
          · simp

end InfiniteHashTable

end Spec2Proof
namespace Spec2Proof

namespace InfiniteHashTable

/-- The C8 scenario: "cat", "cab", "car" share the prefix "ca". -/
def c8t1 : Node Nat :=
  (setitem 10 (emptyNode 0) (['c', 'a', 't']) 1).getD (emptyNode 0)

def c8t2 : Node Nat :=
  (setitem 10 c8t1 (['c', 'a', 'b']) 2).getD c8t1

def c8t3 : Node Nat :=
  (setitem 10 c8t2 (['c', 'a', 'r']) 3).getD c8t2

def c8t4 : Node Nat :=
  ((delitem c8t3 (['c', 'a', 't'])).toOption.map Prod.fst).getD c8t3

def c8t5 : Node Nat :=
  ((delitem c8t4 (['c', 'a', 'b'])).toOption.map Prod.fst).getD c8t4

theorem C8_trie_collapse_witness :
    ((2 ≤ (['c', 'a', 't'] : Key).length ∧
      (['c', 'a', 't'] : Key).take 2 = (['c', 'a', 'r'] : Key).take 2 ∧
      (['c', 'a', 't'] : Key) ≠ ['c', 'a', 'b'] ∧
      (['c', 'a', 't'] : Key) ≠ ['c', 'a', 'r'] ∧
      (['c', 'a', 'b'] : Key) ≠ ['c', 'a', 'r']) ∧
     setitem 10 (emptyNode 0) (['c', 'a', 't']) 1 = some c8t1 ∧
     setitem 10 c8t1 (['c', 'a', 'b']) 2 = some c8t2 ∧
     setitem 10 c8t2 (['c', 'a', 'r']) 3 = some c8t3 ∧
     delitem c8t3 (['c', 'a', 't']) = .ok (c8t4, false) ∧
     delitem c8t4 (['c', 'a', 'b']) = .ok (c8t5, true)) ∧
    ((∀ p (c : Node Nat), slotAt c8t5.table p ≠ Slot.nested c) ∧
     (∃ v, slotAt c8t5.table (hash (['c', 'a', 'r']) 0) =
       Slot.entry (['c', 'a', 'r']) v) ∧
     get_location c8t5 (['c', 'a', 'r']) =
       some [hash (['c', 'a', 'r']) 0] ∧
     (∃ loc3, get_location c8t3 (['c', 'a', 'r']) = some loc3 ∧
       3 ≤ loc3.length ∧
       ([hash (['c', 'a', 'r']) 0] : List Nat).length < loc3.length)) :=
  ⟨⟨⟨by decide, by decide, by decide, by decide, by decide⟩,
      by rfl, by rfl, by rfl, by rfl, by rfl⟩,
    C8_trie_collapse_transitive (['c', 'a', 't']) (['c', 'a', 'b'])
      (['c', 'a', 'r']) 1 2 3 10 c8t1 c8t2 c8t3 c8t4 c8t5 false true
      (by decide) (by decide) (by decide) (by decide) (by decide)
      (by decide) (by decide) (by decide)
      (by rfl) (by rfl) (by rfl) (by rfl) (by rfl)⟩

end InfiniteHashTable

/-- C4 (amended): over insert-only runs from a fresh table, len() of
the two-level table counts the distinct key1 values set (not the
distinct (key1, key2) pairs), and len() of the trie counts the
distinct keys set - one per operation, since re-setting a stored key
never completes. -/
theorem C4_amended_len_top_keys_and_trie_keys :
    (∀ (V : Type) (sizes internal : Option (List Nat))
      (l : List (Key × Key × V)) (fuel : Nat) (st2 : DoubleKeyTable V),
      GoodSizes (sizes.getD TABLE_SIZES_default) →
      0 < (sizes.getD TABLE_SIZES_default).length →
      GoodSizes (internal.getD (sizes.getD TABLE_SIZES_default)) →
      0 < (internal.getD (sizes.getD TABLE_SIZES_default)).length →
      reinsertList fuel (DoubleKeyTable.init V sizes internal) l =
        some (.ok st2) →
      st2.lenD = ((l.map (fun tr => tr.1)).dedup).length) ∧
    (∀ (V : Type) (fuel : Nat) (l : List (Key × V))
      (t2 : InfiniteHashTable.Node V),
      InfiniteHashTable.setList fuel (InfiniteHashTable.emptyNode 0) l =
        some t2 →
      InfiniteHashTable.length t2 = ((l.map Prod.fst).dedup).length ∧
      InfiniteHashTable.length t2 = l.length) := by
  constructor
  · intro V sizes internal l fuel st2 hg hgl hgi hgil hrun
    obtain ⟨hw0, hhf0, hkeys0⟩ := wfTop_init (V := V) hg hgl ⟨hgi, hgil⟩
    obtain ⟨hw2, _, _, _, hkeys2⟩ := run_spec l fuel _ st2 hrun hw0 hhf0
    have hmemiff : ∀ a, a ∈ topKeysOf st2.array ↔
        a ∈ l.map (fun tr => tr.1) := by
      intro a
      rw [hkeys2 a, hkeys0]
      exact ⟨fun h => h.elim (fun h2 => absurd h2 (List.not_mem_nil a)) id,
        fun h => Or.inr h⟩
    show st2.count = _
    rw [hw2.count_eq_topKeys_length,
      ← List.toFinset_card_of_nodup hw2.topKeys_nodup,
      toFinset_eq_of_mem_iff hmemiff, List.card_toFinset]
  · intro V fuel l t2 hrun
    obtain ⟨_, _, hlng, _, hnd⟩ :=
      InfiniteHashTable.setList_spec l hrun (InfiniteHashTable.wfNode_empty 0)
    have hlen2 : InfiniteHashTable.length t2 = l.length := by
      rw [hlng, InfiniteHashTable.length_emptyNode]
      omega
    refine ⟨?_, hlen2⟩
    rw [List.dedup_eq_self.mpr hnd, List.length_map]
    exact hlen2

end Spec2Proof
